import Mathlib

/-!
Shallow embedding of `src/build_oscars_crossword.js`: the crossword
placement engine (`buildGrid`, with its inner `canPlace`, `placeWordAt`,
`bestPlacement`) and the grid compiler (`buildJson`, with `takeRun` and
the numbering scan).  The JS `Map` keyed by `"r,c"` strings is modelled
as an insertion-ordered association list keyed by integer pairs (the JS
key building `r + "," + c` and parsing `split(",").map(Number)` are
mutually inverse on integer coordinates, so the string indirection is
dropped).  Thrown JS exceptions become `Except.error` with the same
message text.
-/

namespace Oscars

/-- Placement direction: the JS strings `"across"` / `"down"`. -/
inductive Dir where
  | across : Dir
  | down : Dir
deriving DecidableEq, Repr

/-- An input entry as produced by `readCsv`: `answer` is the normalized
uppercase answer (held as a list of characters), `clue` the clue text,
`rawAnswer` the pre-normalization answer used in error messages. -/
structure Entry where
  answer : List Char
  clue : String
  rawAnswer : String
deriving DecidableEq, Repr, Inhabited

abbrev Coord := Int × Int

/-- `grid.set(key(r,c), ch)`: insertion-ordered map update — replaces the
value in place when the key exists, appends otherwise (JS `Map` keeps
insertion order and `set` on an existing key keeps its position). -/
def mapSet (m : List (Coord × Char)) (k : Coord) (v : Char) : List (Coord × Char) :=
  match m with
  | [] => [(k, v)]
  | (k', v') :: rest => if k' = k then (k', v) :: rest else (k', v') :: mapSet rest k v

/-- `grid.get(key(r,c))`. -/
def mapGet (m : List (Coord × Char)) (k : Coord) : Option Char :=
  match m with
  | [] => none
  | (k', v') :: rest => if k' = k then some v' else mapGet rest k

/-- `has(r, c)` — `grid.has(key(r, c))`. -/
def hasCell (m : List (Coord × Char)) (r c : Int) : Bool :=
  (mapGet m (r, c)).isSome

/-- A committed placement record, as pushed onto `placed`:
`{ index, row, col, dir, answer }`. -/
structure Placement where
  index : Nat
  row : Int
  col : Int
  dir : Dir
  answer : List Char
deriving DecidableEq, Repr

/-- The mutable state of `buildGrid`: the sparse letter grid, the list of
committed placements and the running bounds (all initialised to `0`). -/
structure GridState where
  grid : List (Coord × Char)
  placed : List Placement
  minRow : Int
  maxRow : Int
  minCol : Int
  maxCol : Int
deriving DecidableEq, Repr

/-- Result of a successful `canPlace`: intersection count, score, and the
bounds the grid would have after committing the placement. -/
structure CheckResult where
  intersections : Nat
  score : Int
  newMinRow : Int
  newMaxRow : Int
  newMinCol : Int
  newMaxCol : Int
deriving DecidableEq, Repr

/-- The row of position `i` of a placement: the JS ternary
`dir === "across" ? row : row + i`. -/
def posR (dir : Dir) (row : Int) (i : Nat) : Int :=
  match dir with
  | .across => row
  | .down => row + i

/-- The column of position `i` of a placement: the JS ternary
`dir === "across" ? col + i : col`. -/
def posC (dir : Dir) (col : Int) (i : Nat) : Int :=
  match dir with
  | .across => col + i
  | .down => col

/-- The per-position loop of `canPlace` (source lines 75–97): walks the
remaining letters at positions `i, i+1, …`, early-returning `none` on a
letter conflict or on perpendicular adjacency at an empty cell, and
otherwise accumulating the intersection count and the widened bounds. -/
def scanCells (g : List (Coord × Char)) (dir : Dir) (row col : Int) :
    List Char → Nat → Nat → Int → Int → Int → Int →
    Option (Nat × Int × Int × Int × Int)
  | [], _, inter, nMinR, nMaxR, nMinC, nMaxC =>
    some (inter, nMinR, nMaxR, nMinC, nMaxC)
  | ch :: rest, i, inter, nMinR, nMaxR, nMinC, nMaxC =>
    let r : Int := posR dir row i
    let c : Int := posC dir col i
    match mapGet g (r, c) with
    | some existing =>
      if existing ≠ ch then none
      else
        scanCells g dir row col rest (i + 1) (inter + 1)
          (min nMinR r) (max nMaxR r) (min nMinC c) (max nMaxC c)
    | none =>
      let blocked :=
        match dir with
        | .across => hasCell g (r - 1) c || hasCell g (r + 1) c
        | .down => hasCell g r (c - 1) || hasCell g r (c + 1)
      if blocked then none
      else
        scanCells g dir row col rest (i + 1) inter
          (min nMinR r) (max nMaxR r) (min nMinC c) (max nMaxC c)

/-- `canPlace(answer, row, col, dir)` (source lines 57–115), evaluated
against a given grid and current bounds.  Returns `none` for the JS
`null` failure sentinel. -/
def canPlace (g : List (Coord × Char)) (minRow maxRow minCol maxCol : Int)
    (answer : List Char) (row col : Int) (dir : Dir) : Option CheckResult :=
  let len : Int := answer.length
  let startEndBlocked :=
    match dir with
    | .across => hasCell g row (col - 1) || hasCell g row (col + len)
    | .down => hasCell g (row - 1) col || hasCell g (row + len) col
  if startEndBlocked then none
  else
    match scanCells g dir row col answer 0 0 minRow maxRow minCol maxCol with
    | none => none
    | some (inter, nMinR, nMaxR, nMinC, nMaxC) =>
      if g.length > 0 ∧ inter = 0 then none
      else
        let height := nMaxR - nMinR + 1
        let width := nMaxC - nMinC + 1
        let area := height * width
        let aspectPenalty : Int := (width - height).natAbs
        let score : Int := (inter : Int) * 1000 - area - aspectPenalty * 5
        some ⟨inter, score, nMinR, nMaxR, nMinC, nMaxC⟩

/-- The commit loop of `placeWordAt` (source lines 123–133): writes every
letter of the word into the grid and widens the global bounds. -/
def writeCells (dir : Dir) (row col : Int) :
    List Char → Nat → List (Coord × Char) → Int → Int → Int → Int →
    List (Coord × Char) × Int × Int × Int × Int
  | [], _, g, mnR, mxR, mnC, mxC => (g, mnR, mxR, mnC, mxC)
  | ch :: rest, i, g, mnR, mxR, mnC, mxC =>
    let r : Int := posR dir row i
    let c : Int := posC dir col i
    writeCells dir row col rest (i + 1) (mapSet g (r, c) ch)
      (min mnR r) (max mxR r) (min mnC c) (max mxC c)

/-- `placeWordAt(index, answer, row, col, dir)` (source lines 117–136):
re-validates with `canPlace`; when that fails on a non-empty grid, throws
`"Invalid placement attempted for …"`; otherwise commits the letters,
widens the bounds and appends the placement record. -/
def placeWordAt (st : GridState) (index : Nat) (answer : List Char)
    (row col : Int) (dir : Dir) : Except String GridState :=
  let ok := canPlace st.grid st.minRow st.maxRow st.minCol st.maxCol answer row col dir
  if ok.isNone ∧ st.grid.length > 0 then
    Except.error ("Invalid placement attempted for " ++ answer.asString)
  else
    let (g, mnR, mxR, mnC, mxC) :=
      writeCells dir row col answer 0 st.grid st.minRow st.maxRow st.minCol st.maxCol
    Except.ok
      { grid := g
        placed := st.placed ++ [⟨index, row, col, dir, answer⟩]
        minRow := mnR, maxRow := mxR, minCol := mnC, maxCol := mxC }

/-- A candidate kept by `bestPlacement`'s running maximum. -/
structure Candidate where
  row : Int
  col : Int
  dir : Dir
  score : Int
deriving DecidableEq, Repr

/-- One `canPlace` probe inside `bestPlacement` (source lines 151–169):
keeps the new candidate only under strictly greater score. -/
def tryCand (st : GridState) (answer : List Char) (best : Option Candidate)
    (row col : Int) (dir : Dir) : Option Candidate :=
  match canPlace st.grid st.minRow st.maxRow st.minCol st.maxCol answer row col dir with
  | none => best
  | some chk =>
    match best with
    | none => some ⟨row, col, dir, chk.score⟩
    | some b => if chk.score > b.score then some ⟨row, col, dir, chk.score⟩ else b

/-- The inner loop of `bestPlacement`: existing letter cells in insertion
order; at each matching cell the across candidate is probed before the
down candidate. -/
def bestInner (st : GridState) (answer : List Char) (i : Nat) (ch : Char) :
    List (Coord × Char) → Option Candidate → Option Candidate
  | [], best => best
  | ((gr, gc), cellCh) :: rest, best =>
    if cellCh ≠ ch then bestInner st answer i ch rest best
    else
      let b1 := tryCand st answer best gr (gc - (i : Int)) .across
      let b2 := tryCand st answer b1 (gr - (i : Int)) gc .down
      bestInner st answer i ch rest b2

/-- The outer loop of `bestPlacement`: word positions `i` ascending. -/
def bestOuter (st : GridState) (answer : List Char) :
    List Char → Nat → Option Candidate → Option Candidate
  | [], _, best => best
  | ch :: rest, i, best =>
    bestOuter st answer rest (i + 1) (bestInner st answer i ch st.grid best)

/-- `bestPlacement(answer)` (source lines 138–174). -/
def bestPlacement (st : GridState) (answer : List Char) : Option Candidate :=
  if st.grid.length = 0 then none
  else bestOuter st answer answer 0 none

/-- The main placement loop of `buildGrid` (source lines 187–201): best
placement when one exists, otherwise the fallback attempt two rows below
`maxRow` at `minCol`. -/
def placeLoop (entries : List Entry) :
    List (Nat × Nat) → GridState → Except String GridState
  | [], st => Except.ok st
  | (idx, _) :: rest, st => do
    let answer := (entries.getD idx default).answer
    let st' ←
      match bestPlacement st answer with
      | some cand => placeWordAt st idx answer cand.row cand.col cand.dir
      | none => placeWordAt st idx answer (st.maxRow + 2) st.minCol .across
    placeLoop entries rest st'

/-- Stable descending insertion by answer length: `x` goes in front of
the first element whose length it reaches, so elements of equal length
keep their original relative order. -/
def insertByLen (x : Nat × Nat) : List (Nat × Nat) → List (Nat × Nat)
  | [] => [x]
  | y :: ys => if y.2 ≤ x.2 then x :: y :: ys else y :: insertByLen x ys

/-- Stable sort by answer length descending (insertion sort — the same
result as any stable sort under the JS comparator `b.len - a.len`). -/
def sortByLenDesc (l : List (Nat × Nat)) : List (Nat × Nat) :=
  l.foldr insertByLen []

/-- The placement order (source lines 177–179): entry indices paired with
answer lengths, stably sorted by length descending (JS `sort` is stable;
the comparator `b.len - a.len` orders longer first, ties by original
index). -/
def sortOrder (entries : List Entry) : List (Nat × Nat) :=
  sortByLenDesc (entries.enum.map fun p => (p.1, p.2.answer.length))

/-- `buildGrid(entries)` (source lines 41–204).  The JS code crashes on an
empty entry list (`order.shift()` yields `undefined` and `first.idx`
throws a `TypeError`); this is modelled as an error. -/
def buildGrid (entries : List Entry) : Except String GridState :=
  match sortOrder entries with
  | [] => Except.error "TypeError: order is empty"
  | first :: rest => do
    let st0 : GridState := ⟨[], [], 0, 0, 0, 0⟩
    let st ← placeWordAt st0 first.1 (entries.getD first.1 default).answer 0 0 .across
    placeLoop entries rest st

/-! ### GridCompiler: `buildJson` (source lines 206–340) -/

/-- A compiled cell of the dense grid.  The JS objects carry `solution`
only on letter cells and `number` only on numbered cells; both are
optional fields here. -/
structure Cell where
  row : Int
  col : Int
  isBlock : Bool
  solution : Option Char
  number : Option Nat
deriving DecidableEq, Repr

/-- A `(row, col)` reference inside a clue's cell list. -/
structure CellRef where
  row : Int
  col : Int
deriving DecidableEq, Repr

/-- A compiled clue: `{ number, text, cells }`. -/
structure Clue where
  number : Nat
  text : String
  cells : List CellRef
deriving DecidableEq, Repr

/-- The compiled puzzle artifact. -/
structure Puzzle where
  title : String
  rows : Int
  cols : Int
  grid : List (List Cell)
  cluesAcross : List Clue
  cluesDown : List Clue
deriving DecidableEq, Repr

/-- `letterAt` (source lines 211–217): the sparse grid re-keyed to
zero-based coordinates, in the grid's iteration (= insertion) order. -/
def letterAtOf (grid : List (Coord × Char)) (minRow minCol : Int) :
    List (Coord × Char) :=
  grid.foldl (fun m p => mapSet m (p.1.1 - minRow, p.1.2 - minCol) p.2) []

/-- A `(startRow, startCol, direction)` key of the placement index. -/
abbrev StartKey := Int × Int × Dir

/-- The JS `startKey` string `r + "," + c + "," + dir`. -/
def startKeyStr (r c : Int) (d : Dir) : String :=
  toString r ++ "," ++ toString c ++ "," ++
    (match d with | .across => "across" | .down => "down")

/-- Lookup in the `startToEntry` association list. -/
def skGet (m : List (StartKey × Nat)) (k : StartKey) : Option Nat :=
  match m with
  | [] => none
  | (k', v) :: rest => if k' = k then some v else skGet rest k

/-- Building `startToEntry` (source lines 247–255): one key per committed
placement, throwing on a duplicate `(startRow, startCol, direction)`. -/
def buildStartMap (minRow minCol : Int) :
    List Placement → List (StartKey × Nat) → Except String (List (StartKey × Nat))
  | [], m => Except.ok m
  | p :: rest, m =>
    let sr := p.row - minRow
    let sc := p.col - minCol
    let k : StartKey := (sr, sc, p.dir)
    if (skGet m k).isSome then
      Except.error ("Duplicate start placement at " ++ startKeyStr sr sc p.dir)
    else
      buildStartMap minRow minCol rest (m ++ [(k, p.index)])

/-- `hasLetter(r, c)` over the normalized `letterAt` map. -/
def hasLetterB (letterAt : List (Coord × Char)) (r c : Int) : Bool :=
  (mapGet letterAt (r, c)).isSome

/-- Lookup in the `numbered` map. -/
def numGet (m : List ((Int × Int) × Nat)) (k : Int × Int) : Option Nat :=
  match m with
  | [] => none
  | (k', v) :: rest => if k' = k then some v else numGet rest k

/-- The mutable state of the numbering scan (source lines 257–261). -/
structure ScanState where
  clueNumber : Nat
  numbered : List ((Int × Int) × Nat)
  acrossClues : List Clue
  downClues : List Clue
  used : List Nat
deriving DecidableEq, Repr

/-- `usedEntries.add` — a JS `Set` keeps one copy per element. -/
def setAdd (s : List Nat) (x : Nat) : List Nat :=
  if x ∈ s then s else s ++ [x]

/-- `assignNumber(r, c)` (source lines 267–274): returns an existing
number for the cell or allocates the next sequential one. -/
def assignNumber (ss : ScanState) (r c : Int) : Nat × ScanState :=
  match numGet ss.numbered (r, c) with
  | some n => (n, ss)
  | none =>
    (ss.clueNumber,
     { ss with
        clueNumber := ss.clueNumber + 1
        numbered := ss.numbered ++ [((r, c), ss.clueNumber)] })

/-- `takeRun(r, c, dir)` (source lines 276–286): collects consecutive
lettered in-bounds cells along the axis.  The JS `while` loop is modelled
with a fuel argument; every use passes fuel exceeding `rows + cols`,
which bounds the number of iterations (the moving coordinate strictly
increases and the loop stops at `rows`/`cols`). -/
def takeRun (letterAt : List (Coord × Char)) (rows cols : Int) (dir : Dir) :
    Nat → Int → Int → List CellRef
  | 0, _, _ => []
  | fuel + 1, rr, cc =>
    if rr ≥ 0 && cc ≥ 0 && rr < rows && cc < cols && hasLetterB letterAt rr cc then
      ⟨rr, cc⟩ ::
        (match dir with
         | .across => takeRun letterAt rows cols dir fuel rr (cc + 1)
         | .down => takeRun letterAt rows cols dir fuel (rr + 1) cc)
    else []

/-- The body of the numbering scan for one cell `(r, c)` (source lines
288–318): detect across/down starts, assign the shared number, take the
runs, resolve the originating entries (missing is fatal) and emit the
clues. -/
def scanCell (entries : List Entry) (letterAt : List (Coord × Char))
    (startToEntry : List (StartKey × Nat)) (rows cols : Int)
    (ss : ScanState) (rc : Int × Int) : Except String ScanState :=
  let r := rc.1
  let c := rc.2
  if ¬ hasLetterB letterAt r c then Except.ok ss
  else
    let startsAcross := ¬ hasLetterB letterAt r (c - 1) ∧ hasLetterB letterAt r (c + 1)
    let startsDown := ¬ hasLetterB letterAt (r - 1) c ∧ hasLetterB letterAt (r + 1) c
    if ¬ startsAcross ∧ ¬ startsDown then Except.ok ss
    else
      let (num, ss1) := assignNumber ss r c
      let fuel := rows.toNat + cols.toNat + 1
      match
        (if startsAcross then
          let run := takeRun letterAt rows cols .across fuel r c
          match skGet startToEntry (r, c, .across) with
          | none =>
            Except.error ("Missing across entry for start " ++ startKeyStr r c .across)
          | some idx =>
            Except.ok
              { ss1 with
                  used := setAdd ss1.used idx
                  acrossClues :=
                    ss1.acrossClues ++ [⟨num, (entries.getD idx default).clue, run⟩] }
        else Except.ok ss1) with
      | Except.error e => Except.error e
      | Except.ok ss2 =>
        if startsDown then
          let run := takeRun letterAt rows cols .down fuel r c
          match skGet startToEntry (r, c, .down) with
          | none =>
            Except.error ("Missing down entry for start " ++ startKeyStr r c .down)
          | some idx =>
            Except.ok
              { ss2 with
                  used := setAdd ss2.used idx
                  downClues :=
                    ss2.downClues ++ [⟨num, (entries.getD idx default).clue, run⟩] }
        else Except.ok ss2

/-- The row-major coordinate sequence of the dense grid. -/
def coordList (rows cols : Int) : List (Int × Int) :=
  (List.range rows.toNat).foldr
    (fun (r : Nat) acc =>
      ((List.range cols.toNat).map fun (c : Nat) => (((r : Nat) : Int), ((c : Nat) : Int)))
        ++ acc) []

/-- The whole numbering scan: the row-major double loop folded over
`scanCell`. -/
def scanAll (entries : List Entry) (letterAt : List (Coord × Char))
    (startToEntry : List (StartKey × Nat)) (rows cols : Int) :
    List (Int × Int) → ScanState → Except String ScanState
  | [], ss => Except.ok ss
  | rc :: rest, ss => do
    let ss' ← scanCell entries letterAt startToEntry rows cols ss rc
    scanAll entries letterAt startToEntry rows cols rest ss'

/-- One compiled cell (source lines 226–239, with the `number` written by
`assignNumber` during the scan merged in: the scan reads only
`letterAt`, so writing the numbers afterwards is observationally the
same as the JS in-place mutation of `gridJson`). -/
def mkCell (letterAt : List (Coord × Char)) (numbered : List ((Int × Int) × Nat))
    (r c : Int) : Cell :=
  match mapGet letterAt (r, c) with
  | some ch =>
    { row := r, col := c, isBlock := false, solution := some ch
      number := numGet numbered (r, c) }
  | none => { row := r, col := c, isBlock := true, solution := none, number := none }

/-- The dense `grid` matrix of the puzzle. -/
def mkGridJson (letterAt : List (Coord × Char)) (numbered : List ((Int × Int) × Nat))
    (rows cols : Int) : List (List Cell) :=
  (List.range rows.toNat).map fun (r : Nat) =>
    (List.range cols.toNat).map fun (c : Nat) =>
      mkCell letterAt numbered ((r : Nat) : Int) ((c : Nat) : Int)

/-- The missing-answer list of the final coverage check (source lines
321–324): `entries[i].rawAnswer || entries[i].answer` for every index
never added to `usedEntries`. -/
def missingNames (entries : List Entry) (used : List Nat) : List String :=
  ((List.range entries.length).filter fun i => i ∉ used).map fun i =>
    let e := entries.getD i default
    if e.rawAnswer = "" then e.answer.asString else e.rawAnswer

/-- `buildJson(entries, gridInfo)` (source lines 206–340). -/
def buildJson (entries : List Entry) (gi : GridState) : Except String Puzzle := do
  let rows := gi.maxRow - gi.minRow + 1
  let cols := gi.maxCol - gi.minCol + 1
  let letterAt := letterAtOf gi.grid gi.minRow gi.minCol
  let startToEntry ← buildStartMap gi.minRow gi.minCol gi.placed []
  let ss ← scanAll entries letterAt startToEntry rows cols (coordList rows cols)
    ⟨1, [], [], [], []⟩
  if ss.used.length ≠ entries.length then
    Except.error
      ("Not all CSV entries were used as clues. Missing: " ++
        String.intercalate ", " (missingNames entries ss.used))
  else
    Except.ok
      { title := "Oscars Crossword"
        rows := rows
        cols := cols
        grid := mkGridJson letterAt ss.numbered rows cols
        cluesAcross := ss.acrossClues
        cluesDown := ss.downClues }

/-- The whole pipeline of `main` after CSV parsing: `buildGrid` then
`buildJson` (source lines 349–350). -/
def buildPuzzle (entries : List Entry) : Except String Puzzle := do
  let gi ← buildGrid entries
  buildJson entries gi

/-! ### A state-threaded rendering of `canPlace`

In the source, `canPlace` lives in the closure of `buildGrid` and reads
the mutable `grid` / bounds variables.  To state the frame property
(claim of no mutation) the function is also rendered in the state monad,
with every read of the shared state an explicit effect, exactly
following the source's statements; the source has no assignment to
`grid`, `minRow`, `maxRow`, `minCol` or `maxCol` inside `canPlace`, and
correspondingly no `set` appears below. -/

/-- `has(r, c)` as a read of the shared state. -/
def hasM (r c : Int) : StateM GridState Bool := do
  let st ← get
  pure (hasCell st.grid r c)

/-- `get(r, c)` as a read of the shared state. -/
def getM (r c : Int) : StateM GridState (Option Char) := do
  let st ← get
  pure (mapGet st.grid (r, c))

/-- The per-position loop of `canPlace`, state-threaded. -/
def scanCellsM (dir : Dir) (row col : Int) :
    List Char → Nat → Nat → Int → Int → Int → Int →
    StateM GridState (Option (Nat × Int × Int × Int × Int))
  | [], _, inter, nMinR, nMaxR, nMinC, nMaxC =>
    pure (some (inter, nMinR, nMaxR, nMinC, nMaxC))
  | ch :: rest, i, inter, nMinR, nMaxR, nMinC, nMaxC => do
    let r : Int := posR dir row i
    let c : Int := posC dir col i
    let existing ← getM r c
    match existing with
    | some ex =>
      if ex ≠ ch then pure none
      else
        scanCellsM dir row col rest (i + 1) (inter + 1)
          (min nMinR r) (max nMaxR r) (min nMinC c) (max nMaxC c)
    | none => do
      let blocked ←
        match dir with
        | .across => do
          let h1 ← hasM (r - 1) c
          let h2 ← hasM (r + 1) c
          pure (h1 || h2)
        | .down => do
          let h1 ← hasM r (c - 1)
          let h2 ← hasM r (c + 1)
          pure (h1 || h2)
      if blocked then pure none
      else
        scanCellsM dir row col rest (i + 1) inter
          (min nMinR r) (max nMaxR r) (min nMinC c) (max nMaxC c)

/-- `canPlace`, state-threaded: reads the grid and the committed bounds,
writes nothing. -/
def canPlaceM (answer : List Char) (row col : Int) (dir : Dir) :
    StateM GridState (Option CheckResult) := do
  let len : Int := answer.length
  let startEndBlocked ←
    match dir with
    | .across => do
      let h1 ← hasM row (col - 1)
      let h2 ← hasM row (col + len)
      pure (h1 || h2)
    | .down => do
      let h1 ← hasM (row - 1) col
      let h2 ← hasM (row + len) col
      pure (h1 || h2)
  if startEndBlocked then pure none
  else do
    let st0 ← get
    let scanRes ← scanCellsM dir row col answer 0 0 st0.minRow st0.maxRow st0.minCol st0.maxCol
    match scanRes with
    | none => pure none
    | some (inter, nMinR, nMaxR, nMinC, nMaxC) => do
      let st1 ← get
      if st1.grid.length > 0 ∧ inter = 0 then pure none
      else
        let height := nMaxR - nMinR + 1
        let width := nMaxC - nMinC + 1
        let area := height * width
        let aspectPenalty : Int := (width - height).natAbs
        let score : Int := (inter : Int) * 1000 - area - aspectPenalty * 5
        pure (some ⟨inter, score, nMinR, nMaxR, nMinC, nMaxC⟩)

/-! ### Concrete inputs used by the scenario claims -/

/-- `{answer:"CAT",clue:"Feline pet"}`. -/
def catEntry : Entry := ⟨"CAT".data, "Feline pet", "CAT"⟩

/-- `{answer:"ACE",clue:"Top card"}`. -/
def aceEntry : Entry := ⟨"ACE".data, "Top card", "ACE"⟩

/-- The grid state after seeding `CAT` at the origin, across. -/
def catSeedState : GridState :=
  ⟨[((0, 0), 'C'), ((0, 1), 'A'), ((0, 2), 'T')],
   [⟨0, 0, 0, .across, "CAT".data⟩], 0, 0, 0, 2⟩

/-- The expected compiled puzzle of the `CAT` / `ACE` scenario. -/
def catAcePuzzle : Puzzle :=
  { title := "Oscars Crossword"
    rows := 3
    cols := 3
    grid :=
      [[⟨0, 0, false, some 'C', some 1⟩, ⟨0, 1, false, some 'A', some 2⟩,
        ⟨0, 2, false, some 'T', none⟩],
       [⟨1, 0, true, none, none⟩, ⟨1, 1, false, some 'C', none⟩,
        ⟨1, 2, true, none, none⟩],
       [⟨2, 0, true, none, none⟩, ⟨2, 1, false, some 'E', none⟩,
        ⟨2, 2, true, none, none⟩]]
    cluesAcross := [⟨1, "Feline pet", [⟨0, 0⟩, ⟨0, 1⟩, ⟨0, 2⟩]⟩]
    cluesDown := [⟨2, "Top card", [⟨0, 1⟩, ⟨1, 1⟩, ⟨2, 1⟩]⟩] }

/-- The perpendicular-touch condition at a cell, as a `Bool` (exactly the
test in the empty-cell branch of `canPlace`'s loop). -/
def perpTouch (g : List (Coord × Char)) (dir : Dir) (r c : Int) : Bool :=
  match dir with
  | Dir.across => hasCell g (r - 1) c || hasCell g (r + 1) c
  | Dir.down => hasCell g r (c - 1) || hasCell g r (c + 1)

/-- Position `i` fails `canPlace`'s per-cell test. -/
def badAt (g : List (Coord × Char)) (dir : Dir) (row col : Int) (ch : Char)
    (i : Nat) : Prop :=
  (∃ ex, mapGet g (posR dir row i, posC dir col i) = some ex ∧ ex ≠ ch) ∨
    (mapGet g (posR dir row i, posC dir col i) = none ∧
      perpTouch g dir (posR dir row i) (posC dir col i) = true)

/-- The list of positions `i, i+1, …, i+n-1`. -/
def idxList (i n : Nat) : List Nat := (List.range n).map (i + ·)

/-- Spec-side ("letter conflict"): position `i`'s target coordinate holds
a letter different from the answer's letter there. -/
def conflictAt (g : List (Coord × Char)) (answer : List Char) (row col : Int)
    (dir : Dir) (i : Nat) : Prop :=
  ∃ ex, mapGet g (posR dir row i, posC dir col i) = some ex ∧ ex ≠ answer.getD i default

/-- Spec-side ("accidental adjacency"): position `i`'s target coordinate
is empty but a perpendicular neighbour holds a letter. -/
def adjacencyAt (g : List (Coord × Char)) (row col : Int) (dir : Dir) (i : Nat) : Prop :=
  mapGet g (posR dir row i, posC dir col i) = none ∧
    perpTouch g dir (posR dir row i) (posC dir col i) = true

/-- Spec-side: the number of positions whose target coordinate already
holds a letter (the intersection count of the proposed placement). -/
def crossCount (g : List (Coord × Char)) (answer : List Char) (row col : Int)
    (dir : Dir) : Nat :=
  (List.range answer.length).countP fun i =>
    (mapGet g (posR dir row i, posC dir col i)).isSome

/-- Spec-side: a letter immediately before the start or immediately after
the end along the placement axis. -/
def startEndTouch (g : List (Coord × Char)) (answer : List Char) (row col : Int)
    (dir : Dir) : Prop :=
  match dir with
  | Dir.across =>
    hasCell g row (col - 1) = true ∨ hasCell g row (col + answer.length) = true
  | Dir.down =>
    hasCell g (row - 1) col = true ∨ hasCell g (row + answer.length) col = true

/-! ### Invariant definitions for the placement engine -/

/-- The coordinate of position `i` of a placement. -/
def posPair (dir : Dir) (row col : Int) (i : Nat) : Coord :=
  (posR dir row i, posC dir col i)

/-- A maximal run of `true` cells of a line function: all cells in
`[a, b]` set, both neighbours clear. -/
def isRunOn (f : Int → Bool) (a b : Int) : Prop :=
  a ≤ b ∧ (∀ x, a ≤ x → x ≤ b → f x = true) ∧ f (a - 1) = false ∧ f (b + 1) = false

/-- Every committed letter of every placement is in the grid. -/
def lettersAtG (g : List (Coord × Char)) (ps : List Placement) : Prop :=
  ∀ p ∈ ps, ∀ j, j < p.answer.length →
    mapGet g (posPair p.dir p.row p.col j) = some (p.answer.getD j default)

/-- Every letter lies inside the committed bounds. -/
def inBoundsG (g : List (Coord × Char)) (mnR mxR mnC mxC : Int) : Prop :=
  ∀ r c, hasCell g r c = true → mnR ≤ r ∧ r ≤ mxR ∧ mnC ≤ c ∧ c ≤ mxC

/-- Every maximal horizontal run of length ≥ 2 is the exact span of an
across placement. -/
def runsHG (g : List (Coord × Char)) (ps : List Placement) : Prop :=
  ∀ r a b, isRunOn (fun x => hasCell g r x) a b → a < b →
    ∃ q ∈ ps, q.dir = Dir.across ∧ q.row = r ∧ q.col = a ∧
      (q.answer.length : Int) = b - a + 1

/-- Every maximal vertical run of length ≥ 2 is the exact span of a down
placement. -/
def runsVG (g : List (Coord × Char)) (ps : List Placement) : Prop :=
  ∀ c a b, isRunOn (fun y => hasCell g y c) a b → a < b →
    ∃ q ∈ ps, q.dir = Dir.down ∧ q.col = c ∧ q.row = a ∧
      (q.answer.length : Int) = b - a + 1

/-- Placements sharing a start cell and direction carry the same answer. -/
def sameStartSameAnswer (ps : List Placement) : Prop :=
  ∀ p ∈ ps, ∀ q ∈ ps, p.row = q.row → p.col = q.col → p.dir = q.dir →
    p.answer = q.answer

/-- The state invariant maintained by `buildGrid`'s placement loop. -/
structure Inv (entries : List Entry) (st : GridState) : Prop where
  keys : (st.grid.map Prod.fst).Nodup
  letters : lettersAtG st.grid st.placed
  bounds : inBoundsG st.grid st.minRow st.maxRow st.minCol st.maxCol
  link : ∀ p ∈ st.placed, p.index < entries.length ∧
    p.answer = (entries.getD p.index default).answer
  idx : (st.placed.map Placement.index).Nodup
  sameStart : sameStartSameAnswer st.placed
  runsH : runsHG st.grid st.placed
  runsV : runsVG st.grid st.placed

/-- The across-start test of the numbering scan (source line 292). -/
def startsAcrossP (letterAt : List (Coord × Char)) (r c : Int) : Prop :=
  ¬ hasLetterB letterAt r (c - 1) = true ∧ hasLetterB letterAt r (c + 1) = true

/-- The down-start test of the numbering scan (source line 293). -/
def startsDownP (letterAt : List (Coord × Char)) (r c : Int) : Prop :=
  ¬ hasLetterB letterAt (r - 1) c = true ∧ hasLetterB letterAt (r + 1) c = true

/-- Reading a cell's `solution` from the dense `grid` matrix at a
zero-based coordinate (out-of-range reads give `none` via a block
cell). -/
def solutionAt (g : List (List Cell)) (r c : Int) : Option Char :=
  ((g.getD r.toNat []).getD c.toNat ⟨0, 0, true, none, none⟩).solution

/-! ### Theorems -/

/-! ### The frame property of `canPlace` -/

theorem StateM_bind_apply {σ α β : Type} (x : StateM σ α) (f : α → StateM σ β) (s : σ) :
    (x.bind f) s = f (x s).1 (x s).2 := rfl

theorem StateM_get_apply {σ β : Type} (f : σ → StateM σ β) (s : σ) :
    (StateT.get.bind f) s = f s s := rfl

theorem StateM_get_eq {σ : Type} (s : σ) : (StateT.get : StateM σ σ) s = (s, s) := rfl

/-- The state-threaded per-position loop only reads: it returns the same
state it was given, and its answer is the pure `scanCells`. -/
theorem scanCellsM_run (dir : Dir) (row col : Int) (letters : List Char) :
    ∀ (i inter : Nat) (a b c d : Int) (st : GridState),
      scanCellsM dir row col letters i inter a b c d st =
        (scanCells st.grid dir row col letters i inter a b c d, st) := by
  induction letters with
  | nil => intros; rfl
  | cons ch rest ih =>
    intro i inter a b c d st
    simp only [scanCellsM, scanCells, getM, hasM]
    cases hm : mapGet st.grid (posR dir row i, posC dir col i) with
    | some ex =>
      simp only [StateT.run, bind, StateT.bind, get, getThe, MonadStateOf.get, StateT.get,
        pure, StateT.pure, Id.run, hm]
      split
      · rfl
      · exact ih ..
    | none =>
      cases dir <;>
        simp only [posR, posC] at hm ⊢ <;>
        simp only [StateT.run, bind, StateT.bind, get, getThe, MonadStateOf.get, StateT.get,
          pure, StateT.pure, Id.run, hm, ite_apply, Bool.or_eq_true] <;>
        split <;> first | rfl | exact ih ..

/-- Running the state-threaded `canPlace` returns the initial state
unchanged, together with the pure `canPlace` answer. -/
theorem canPlaceM_run (st : GridState) (answer : List Char) (row col : Int) (dir : Dir) :
    (canPlaceM answer row col dir).run st =
      (canPlace st.grid st.minRow st.maxRow st.minCol st.maxCol answer row col dir, st) := by
  show canPlaceM answer row col dir st = _
  simp only [canPlaceM, canPlace, hasM]
  cases dir <;>
    simp only [StateT.run, bind, StateT.bind, get, getThe, MonadStateOf.get, StateT.get, pure,
      StateT.pure, Id.run, ite_apply, Bool.or_eq_true] <;>
    split <;>
    first
      | rfl
      | (simp only [StateM_bind_apply, StateM_get_apply, StateM_get_eq, scanCellsM_run]
         cases hs : scanCells st.grid _ row col answer 0 0 st.minRow st.maxRow st.minCol
             st.maxCol with
         | none => rfl
         | some v =>
           rcases v with ⟨inter, a, b, c, d⟩
           dsimp only
           simp only [StateM_get_apply, ite_apply]
           split <;> rfl)

theorem scanCells_perp (g : List (Coord × Char)) (dir : Dir) (row col : Int)
    (ch : Char) (rest : List Char) (i inter : Nat) (a b c d : Int) :
    scanCells g dir row col (ch :: rest) i inter a b c d =
      match mapGet g (posR dir row i, posC dir col i) with
      | some ex =>
        if ex ≠ ch then none
        else
          scanCells g dir row col rest (i + 1) (inter + 1)
            (min a (posR dir row i)) (max b (posR dir row i))
            (min c (posC dir col i)) (max d (posC dir col i))
      | none =>
        if perpTouch g dir (posR dir row i) (posC dir col i) then none
        else
          scanCells g dir row col rest (i + 1) inter
            (min a (posR dir row i)) (max b (posR dir row i))
            (min c (posC dir col i)) (max d (posC dir col i)) := by
  cases hm : mapGet g (posR dir row i, posC dir col i) <;> cases dir <;>
    simp [scanCells, perpTouch, hm]

theorem idxList_succ (i n : Nat) : idxList i (n + 1) = i :: idxList (i + 1) n := by
  unfold idxList
  rw [List.range_succ_eq_map, List.map_cons, List.map_map]
  congr 1
  congr 1
  funext x
  simp only [Function.comp_def]
  omega

theorem idxList_zero (n : Nat) : idxList 0 n = List.range n := by
  unfold idxList
  simp

theorem scan_none_iff (g : List (Coord × Char)) (dir : Dir) (row col : Int) :
    ∀ (letters : List Char) (i inter : Nat) (a b c d : Int),
      scanCells g dir row col letters i inter a b c d = none ↔
        ∃ j, j < letters.length ∧ badAt g dir row col (letters.getD j default) (i + j) := by
  intro letters
  induction letters with
  | nil => intro i inter a b c d; simp [scanCells]
  | cons ch rest ih =>
    intro i inter a b c d
    rw [scanCells_perp]
    cases hm : mapGet g (posR dir row i, posC dir col i) with
    | some ex =>
      by_cases hne : ex ≠ ch
      · simp only [if_pos hne]
        constructor
        · intro _
          exact ⟨0, by simp, Or.inl ⟨ex, by simpa using hm, by simpa using hne⟩⟩
        · intro _; trivial
      · simp only [if_neg hne]
        push_neg at hne
        subst hne
        rw [ih]
        constructor
        · rintro ⟨j, hj, hbad⟩
          refine ⟨j + 1, by simp only [List.length_cons]; omega, ?_⟩
          have hshift : i + (j + 1) = i + 1 + j := by omega
          rw [hshift]
          simpa using hbad
        · rintro ⟨j, hj, hbad⟩
          cases j with
          | zero =>
            exfalso
            rcases hbad with ⟨ex', hex', hne'⟩ | ⟨hnone, _⟩
            · rw [Nat.add_zero, hm] at hex'
              injection hex' with hh
              simp only [List.getD_cons_zero] at hne'
              exact hne' hh.symm
            · rw [Nat.add_zero, hm] at hnone
              cases hnone
          | succ j' =>
            refine ⟨j', by simpa using hj, ?_⟩
            have hshift : i + (j' + 1) = i + 1 + j' := by omega
            rw [hshift] at hbad
            simpa using hbad
    | none =>
      cases hblk : perpTouch g dir (posR dir row i) (posC dir col i) with
      | true =>
        simp only [if_pos rfl]
        constructor
        · intro _
          exact ⟨0, by simp, Or.inr ⟨by simpa using hm, by simpa using hblk⟩⟩
        · intro _; trivial
      | false =>
        simp only [Bool.false_eq_true, if_false]
        rw [ih]
        constructor
        · rintro ⟨j, hj, hbad⟩
          refine ⟨j + 1, by simp only [List.length_cons]; omega, ?_⟩
          have hshift : i + (j + 1) = i + 1 + j := by omega
          rw [hshift]
          simpa using hbad
        · rintro ⟨j, hj, hbad⟩
          cases j with
          | zero =>
            exfalso
            rcases hbad with ⟨ex', hex', _⟩ | ⟨_, htouch⟩
            · rw [Nat.add_zero, hm] at hex'
              cases hex'
            · rw [Nat.add_zero] at htouch
              rw [hblk] at htouch
              cases htouch
          | succ j' =>
            refine ⟨j', by simpa using hj, ?_⟩
            have hshift : i + (j' + 1) = i + 1 + j' := by omega
            rw [hshift] at hbad
            simpa using hbad

theorem scan_some_spec (g : List (Coord × Char)) (dir : Dir) (row col : Int) :
    ∀ (letters : List Char) (i inter : Nat) (a b c d : Int)
      (inter' : Nat) (a' b' c' d' : Int),
      scanCells g dir row col letters i inter a b c d = some (inter', a', b', c', d') →
      inter' = inter + (idxList i letters.length).countP
          (fun j => (mapGet g (posR dir row j, posC dir col j)).isSome) ∧
      a' = (idxList i letters.length).foldl (fun acc j => min acc (posR dir row j)) a ∧
      b' = (idxList i letters.length).foldl (fun acc j => max acc (posR dir row j)) b ∧
      c' = (idxList i letters.length).foldl (fun acc j => min acc (posC dir col j)) c ∧
      d' = (idxList i letters.length).foldl (fun acc j => max acc (posC dir col j)) d := by
  intro letters
  induction letters with
  | nil =>
    intro i inter a b c d inter' a' b' c' d' h
    simp only [scanCells] at h
    injection h with h
    cases h
    exact ⟨rfl, rfl, rfl, rfl, rfl⟩
  | cons ch rest ih =>
    intro i inter a b c d inter' a' b' c' d' h
    rw [scanCells_perp] at h
    cases hm : mapGet g (posR dir row i, posC dir col i) with
    | some ex =>
      rw [hm] at h
      dsimp only at h
      by_cases hne : ex ≠ ch
      · rw [if_pos hne] at h; cases h
      · rw [if_neg hne] at h
        obtain ⟨h1, h2, h3, h4, h5⟩ := ih (i + 1) (inter + 1) _ _ _ _ _ _ _ _ _ h
        rw [List.length_cons, idxList_succ]
        refine ⟨?_, ?_, ?_, ?_, ?_⟩
        · rw [h1, List.countP_cons]
          simp only [hm, Option.isSome_some, if_true]
          omega
        · rw [h2, List.foldl_cons]
        · rw [h3, List.foldl_cons]
        · rw [h4, List.foldl_cons]
        · rw [h5, List.foldl_cons]
    | none =>
      rw [hm] at h
      dsimp only at h
      by_cases hblk : perpTouch g dir (posR dir row i) (posC dir col i) = true
      · rw [if_pos hblk] at h; cases h
      · rw [if_neg hblk] at h
        obtain ⟨h1, h2, h3, h4, h5⟩ := ih (i + 1) inter _ _ _ _ _ _ _ _ _ h
        rw [List.length_cons, idxList_succ]
        refine ⟨?_, ?_, ?_, ?_, ?_⟩
        · rw [h1, List.countP_cons]
          simp only [hm, Option.isSome_none, Bool.false_eq_true, if_false]
          omega
        · rw [h2, List.foldl_cons]
        · rw [h3, List.foldl_cons]
        · rw [h4, List.foldl_cons]
        · rw [h5, List.foldl_cons]

theorem canPlace_boundary_true (g : List (Coord × Char)) (mnR mxR mnC mxC : Int)
    (answer : List Char) (row col : Int) (dir : Dir)
    (hb : startEndTouch g answer row col dir) :
    canPlace g mnR mxR mnC mxC answer row col dir = none := by
  cases dir with
  | across =>
    simp only [startEndTouch] at hb
    unfold canPlace
    have hbb : (hasCell g row (col - 1) || hasCell g row (col + (answer.length : Int))) = true := by
      simp only [Bool.or_eq_true]; tauto
    dsimp only
    rw [hbb]
    simp
  | down =>
    simp only [startEndTouch] at hb
    unfold canPlace
    have hbb : (hasCell g (row - 1) col || hasCell g (row + (answer.length : Int)) col) = true := by
      simp only [Bool.or_eq_true]; tauto
    dsimp only
    rw [hbb]
    simp

theorem canPlace_eq_of_boundary_false (g : List (Coord × Char)) (mnR mxR mnC mxC : Int)
    (answer : List Char) (row col : Int) (dir : Dir)
    (hb : ¬ startEndTouch g answer row col dir) :
    canPlace g mnR mxR mnC mxC answer row col dir =
      (match scanCells g dir row col answer 0 0 mnR mxR mnC mxC with
       | none => none
       | some (inter, nMinR, nMaxR, nMinC, nMaxC) =>
         if g.length > 0 ∧ inter = 0 then none
         else
           some ⟨inter,
             (inter : Int) * 1000 - ((nMaxR - nMinR + 1) * (nMaxC - nMinC + 1)) -
               ((nMaxC - nMinC + 1) - (nMaxR - nMinR + 1)).natAbs * 5,
             nMinR, nMaxR, nMinC, nMaxC⟩) := by
  cases dir with
  | across =>
    simp only [startEndTouch, not_or] at hb
    unfold canPlace
    have hbb : (hasCell g row (col - 1) || hasCell g row (col + (answer.length : Int))) = false := by
      simp only [Bool.or_eq_false_iff]
      constructor <;> simp only [Bool.not_eq_true] at hb ⊢ <;> tauto
    dsimp only
    rw [hbb]
    simp
  | down =>
    simp only [startEndTouch, not_or] at hb
    unfold canPlace
    have hbb : (hasCell g (row - 1) col || hasCell g (row + (answer.length : Int)) col) = false := by
      simp only [Bool.or_eq_false_iff]
      constructor <;> simp only [Bool.not_eq_true] at hb ⊢ <;> tauto
    dsimp only
    rw [hbb]
    simp

/-- C4: `canPlace` returns the failure sentinel exactly when a boundary
cell holds a letter, or some position holds a conflicting letter, or
some empty position touches a perpendicular letter, or the grid is
non-empty and the placement would create zero intersections. -/
theorem C4_canPlace_none_iff (g : List (Coord × Char)) (mnR mxR mnC mxC : Int)
    (answer : List Char) (row col : Int) (dir : Dir) :
    canPlace g mnR mxR mnC mxC answer row col dir = none ↔
      startEndTouch g answer row col dir ∨
        (∃ i, i < answer.length ∧ conflictAt g answer row col dir i) ∨
        (∃ i, i < answer.length ∧ adjacencyAt g row col dir i) ∨
        (g ≠ [] ∧ crossCount g answer row col dir = 0) := by
  by_cases hb : startEndTouch g answer row col dir
  · rw [canPlace_boundary_true g mnR mxR mnC mxC answer row col dir hb]
    simp only [true_iff]
    exact Or.inl hb
  · rw [canPlace_eq_of_boundary_false g mnR mxR mnC mxC answer row col dir hb]
    cases hscan : scanCells g dir row col answer 0 0 mnR mxR mnC mxC with
    | none =>
      simp only [true_iff]
      obtain ⟨j, hj, hbad⟩ := (scan_none_iff g dir row col answer 0 0 mnR mxR mnC mxC).mp hscan
      rcases hbad with ⟨ex, hex, hne⟩ | ⟨hnone, htouch⟩
      · refine Or.inr (Or.inl ⟨j, hj, ⟨ex, ?_, hne⟩⟩)
        simpa using hex
      · refine Or.inr (Or.inr (Or.inl ⟨j, hj, ⟨?_, ?_⟩⟩))
        · simpa using hnone
        · simpa using htouch
    | some v =>
      rcases v with ⟨inter, a2, b2, c2, d2⟩
      dsimp only
      obtain ⟨hint, _, _, _, _⟩ :=
        scan_some_spec g dir row col answer 0 0 mnR mxR mnC mxC inter a2 b2 c2 d2 hscan
      have hcross : inter = crossCount g answer row col dir := by
        rw [hint, idxList_zero]
        simp [crossCount]
      have hnoconf : ¬ (∃ i, i < answer.length ∧ conflictAt g answer row col dir i) := by
        rintro ⟨j, hj, ex, hex, hne⟩
        have hn := (scan_none_iff g dir row col answer 0 0 mnR mxR mnC mxC).mpr
          ⟨j, hj, Or.inl ⟨ex, by simpa using hex, hne⟩⟩
        rw [hscan] at hn
        cases hn
      have hnoadj : ¬ (∃ i, i < answer.length ∧ adjacencyAt g row col dir i) := by
        rintro ⟨j, hj, hnone, htouch⟩
        have hn := (scan_none_iff g dir row col answer 0 0 mnR mxR mnC mxC).mpr
          ⟨j, hj, Or.inr ⟨by simpa using hnone, by simpa using htouch⟩⟩
        rw [hscan] at hn
        cases hn
      constructor
      · intro hnone
        by_cases hcond : g.length > 0 ∧ inter = 0
        · refine Or.inr (Or.inr (Or.inr ⟨?_, ?_⟩))
          · exact List.length_pos.mp hcond.1
          · rw [← hcross]
            exact hcond.2
        · rw [if_neg hcond] at hnone
          cases hnone
      · intro hrhs
        rcases hrhs with h | h | h | ⟨hg, hc⟩
        · exact absurd h hb
        · exact absurd h hnoconf
        · exact absurd h hnoadj
        · rw [if_pos ⟨List.length_pos.mpr hg, by rw [hcross]; exact hc⟩]

/-- C7: on success, the returned bounds are exactly the current bounds
widened over the placement's cells, the intersection count is the number
of positions already holding a letter, and the score is
`intersections × 1000 − area − |width − height| × 5` computed from those
widened bounds, in exact integer arithmetic. -/
theorem C7_score_formula (g : List (Coord × Char)) (mnR mxR mnC mxC : Int)
    (answer : List Char) (row col : Int) (dir : Dir) (res : CheckResult)
    (h : canPlace g mnR mxR mnC mxC answer row col dir = some res) :
    res.intersections = crossCount g answer row col dir ∧
      res.newMinRow =
        (List.range answer.length).foldl (fun acc i => min acc (posR dir row i)) mnR ∧
      res.newMaxRow =
        (List.range answer.length).foldl (fun acc i => max acc (posR dir row i)) mxR ∧
      res.newMinCol =
        (List.range answer.length).foldl (fun acc i => min acc (posC dir col i)) mnC ∧
      res.newMaxCol =
        (List.range answer.length).foldl (fun acc i => max acc (posC dir col i)) mxC ∧
      res.score =
        (res.intersections : Int) * 1000 -
          ((res.newMaxRow - res.newMinRow + 1) * (res.newMaxCol - res.newMinCol + 1)) -
          ((res.newMaxCol - res.newMinCol + 1) - (res.newMaxRow - res.newMinRow + 1)).natAbs * 5 := by
  by_cases hb : startEndTouch g answer row col dir
  · rw [canPlace_boundary_true g mnR mxR mnC mxC answer row col dir hb] at h
    cases h
  · rw [canPlace_eq_of_boundary_false g mnR mxR mnC mxC answer row col dir hb] at h
    cases hscan : scanCells g dir row col answer 0 0 mnR mxR mnC mxC with
    | none =>
      rw [hscan] at h
      cases h
    | some v =>
      rcases v with ⟨inter, a2, b2, c2, d2⟩
      rw [hscan] at h
      dsimp only at h
      by_cases hcond : g.length > 0 ∧ inter = 0
      · rw [if_pos hcond] at h
        cases h
      · rw [if_neg hcond] at h
        injection h with h
        subst h
        obtain ⟨hint, h2, h3, h4, h5⟩ :=
          scan_some_spec g dir row col answer 0 0 mnR mxR mnC mxC inter a2 b2 c2 d2 hscan
        rw [idxList_zero] at hint h2 h3 h4 h5
        refine ⟨?_, ?_, ?_, ?_, ?_, rfl⟩
        · simpa [crossCount] using hint
        · exact h2
        · exact h3
        · exact h4
        · exact h5

/-! ### Claim theorems (concrete scenarios) -/

/-- C1: the claim says the fallback guarantees that an entry sharing no
letter with the placed words is still placed (across, two rows below
`maxRow` at `minCol`) and that `place()` only fails on empty input.  The
code does the opposite: on input `[AB, CD]` the entry `CD` has no valid
crossing (`bestPlacement` returns the failure sentinel), the fallback
calls `placeWordAt(1, "CD", maxRow+2, minCol)` = `(2, 0)`, `canPlace`
rejects it there (zero intersections on a non-empty grid), and
`placeWordAt` throws `"Invalid placement attempted for CD"`. -/
theorem C1_fallback_throws :
    bestPlacement ⟨[((0, 0), 'A'), ((0, 1), 'B')], [⟨0, 0, 0, .across, "AB".data⟩],
        0, 0, 0, 1⟩ "CD".data = none ∧
    placeWordAt ⟨[((0, 0), 'A'), ((0, 1), 'B')], [⟨0, 0, 0, .across, "AB".data⟩],
        0, 0, 0, 1⟩ 1 "CD".data 2 0 .across =
      Except.error "Invalid placement attempted for CD" ∧
    buildGrid [⟨"AB".data, "first", "AB"⟩, ⟨"CD".data, "second", "CD"⟩] =
      Except.error "Invalid placement attempted for CD" :=
  ⟨rfl, rfl, rfl⟩

/-- C2: the `CAT` / `ACE` scenario: `CAT` seeds across at `(0,0)`, `ACE`
is placed down at `(0,1)`; the compiled puzzle is the expected 3×3 grid
with number 1 at `(0,0)`, number 2 at `(0,1)` and the two clue lists.
The third conjunct shows the examined score tie: the down placement at
`(-1,0)` also scores 991, and the kept candidate is the first-found
`(0,1)` down (strictly-greater comparison). -/
theorem C2_cat_ace_scenario :
    (buildGrid [catEntry, aceEntry]).map GridState.placed =
      Except.ok
        [⟨0, 0, 0, .across, "CAT".data⟩, ⟨1, 0, 1, .down, "ACE".data⟩] ∧
    buildPuzzle [catEntry, aceEntry] = Except.ok catAcePuzzle ∧
    bestPlacement catSeedState "ACE".data = some ⟨0, 1, .down, 991⟩ ∧
    (canPlace catSeedState.grid 0 0 0 2 "ACE".data (-1) 0 .down).map
        CheckResult.score = some 991 :=
  ⟨rfl, rfl, rfl, rfl⟩

/-- C3 counterexample: with two identical answers `AB`, `place()` commits
two placements with the identical `(startRow, startCol, direction)`
triple `(0, 0, across)` — the claim that such a collision is
structurally impossible is false. -/
theorem C3_duplicate_triple_counterexample :
    (buildGrid [⟨"AB".data, "first", "AB"⟩, ⟨"AB".data, "second", "AB"⟩]).map
        (fun st => st.placed.map fun p => (p.row, p.col, p.dir)) =
      Except.ok [(0, 0, Dir.across), (0, 0, Dir.across)] ∧
    buildPuzzle [⟨"AB".data, "first", "AB"⟩, ⟨"AB".data, "second", "AB"⟩] =
      Except.error "Duplicate start placement at 0,0,across" :=
  ⟨rfl, rfl⟩

/-- C9: the pipeline is a pure function of the ordered entry sequence:
any two successful runs on the same input agree on the grid dimensions,
the dense grid (blocks, letters and numbering) and both clue lists. -/
theorem C9_deterministic (entries : List Entry) (p1 p2 : Puzzle)
    (h1 : buildPuzzle entries = Except.ok p1)
    (h2 : buildPuzzle entries = Except.ok p2) :
    p1.rows = p2.rows ∧ p1.cols = p2.cols ∧ p1.grid = p2.grid ∧
      p1.cluesAcross = p2.cluesAcross ∧ p1.cluesDown = p2.cluesDown := by
  rw [h1] at h2
  injection h2 with h
  subst h
  exact ⟨rfl, rfl, rfl, rfl, rfl⟩

/-- C10: `canPlace` never mutates the grid or the committed bounds: in
the state-threaded rendering, running it on any state returns that state
with an unchanged coordinate-to-letter mapping and unchanged
`minRow`/`maxRow`/`minCol`/`maxCol`, and its answer agrees with the pure
`canPlace`. -/
theorem C10_canPlace_never_mutates (st : GridState) (answer : List Char)
    (row col : Int) (dir : Dir) :
    (∀ k, mapGet ((canPlaceM answer row col dir).run st).2.grid k = mapGet st.grid k) ∧
      ((canPlaceM answer row col dir).run st).2.minRow = st.minRow ∧
      ((canPlaceM answer row col dir).run st).2.maxRow = st.maxRow ∧
      ((canPlaceM answer row col dir).run st).2.minCol = st.minCol ∧
      ((canPlaceM answer row col dir).run st).2.maxCol = st.maxCol ∧
      ((canPlaceM answer row col dir).run st).1 =
        canPlace st.grid st.minRow st.maxRow st.minCol st.maxCol answer row col dir := by
  rw [canPlaceM_run]
  exact ⟨fun _ => rfl, rfl, rfl, rfl, rfl, rfl⟩

/-- Witness for `C7_score_formula`: the accepted `ACE`-down-at-`(0,1)`
placement against the seeded `CAT` grid. -/
theorem C7_score_formula_witness :
    (⟨1, 991, 0, 2, 0, 2⟩ : CheckResult).intersections =
        crossCount catSeedState.grid "ACE".data 0 1 .down ∧
      (⟨1, 991, 0, 2, 0, 2⟩ : CheckResult).newMinRow =
        (List.range "ACE".data.length).foldl (fun acc i => min acc (posR .down 0 i)) 0 ∧
      (⟨1, 991, 0, 2, 0, 2⟩ : CheckResult).newMaxRow =
        (List.range "ACE".data.length).foldl (fun acc i => max acc (posR .down 0 i)) 0 ∧
      (⟨1, 991, 0, 2, 0, 2⟩ : CheckResult).newMinCol =
        (List.range "ACE".data.length).foldl (fun acc i => min acc (posC .down 1 i)) 0 ∧
      (⟨1, 991, 0, 2, 0, 2⟩ : CheckResult).newMaxCol =
        (List.range "ACE".data.length).foldl (fun acc i => max acc (posC .down 1 i)) 2 ∧
      (⟨1, 991, 0, 2, 0, 2⟩ : CheckResult).score =
        ((⟨1, 991, 0, 2, 0, 2⟩ : CheckResult).intersections : Int) * 1000 -
          (((⟨1, 991, 0, 2, 0, 2⟩ : CheckResult).newMaxRow -
              (⟨1, 991, 0, 2, 0, 2⟩ : CheckResult).newMinRow + 1) *
            ((⟨1, 991, 0, 2, 0, 2⟩ : CheckResult).newMaxCol -
              (⟨1, 991, 0, 2, 0, 2⟩ : CheckResult).newMinCol + 1)) -
          (((⟨1, 991, 0, 2, 0, 2⟩ : CheckResult).newMaxCol -
              (⟨1, 991, 0, 2, 0, 2⟩ : CheckResult).newMinCol + 1) -
            ((⟨1, 991, 0, 2, 0, 2⟩ : CheckResult).newMaxRow -
              (⟨1, 991, 0, 2, 0, 2⟩ : CheckResult).newMinRow + 1)).natAbs * 5 :=
  C7_score_formula catSeedState.grid 0 0 0 2 "ACE".data 0 1 .down ⟨1, 991, 0, 2, 0, 2⟩ rfl

/-- Witness for `C9_deterministic` at the `CAT` / `ACE` input. -/
theorem C9_deterministic_witness :
    catAcePuzzle.rows = catAcePuzzle.rows ∧
      catAcePuzzle.cols = catAcePuzzle.cols ∧
      catAcePuzzle.grid = catAcePuzzle.grid ∧
      catAcePuzzle.cluesAcross = catAcePuzzle.cluesAcross ∧
      catAcePuzzle.cluesDown = catAcePuzzle.cluesDown :=
  C9_deterministic [catEntry, aceEntry] catAcePuzzle catAcePuzzle rfl rfl

theorem mapGet_mapSet_self (m : List (Coord × Char)) (k : Coord) (v : Char) :
    mapGet (mapSet m k v) k = some v := by
  induction m with
  | nil => simp [mapSet, mapGet]
  | cons p rest ih =>
    rcases p with ⟨k', v'⟩
    by_cases hk : k' = k
    · subst hk
      simp [mapSet, mapGet]
    · simp [mapSet, mapGet, hk, ih]

theorem mapGet_mapSet_ne (m : List (Coord × Char)) (k k' : Coord) (v : Char)
    (h : k' ≠ k) : mapGet (mapSet m k v) k' = mapGet m k' := by
  induction m with
  | nil => simp [mapSet, mapGet, Ne.symm h]
  | cons p rest ih =>
    rcases p with ⟨k0, v0⟩
    by_cases hk : k0 = k
    · subst hk
      simp only [mapSet, if_pos rfl]
      simp [mapGet, Ne.symm h]
    · simp only [mapSet, if_neg hk]
      by_cases hk' : k0 = k'
      · subst hk'
        simp [mapGet]
      · simp [mapGet, hk', ih]

theorem keys_mapSet (m : List (Coord × Char)) (k : Coord) (v : Char) :
    (mapSet m k v).map Prod.fst = if k ∈ m.map Prod.fst then m.map Prod.fst
      else m.map Prod.fst ++ [k] := by
  induction m with
  | nil => simp [mapSet]
  | cons p rest ih =>
    rcases p with ⟨k0, v0⟩
    by_cases hk : k0 = k
    · subst hk
      simp [mapSet]
    · simp only [mapSet, if_neg hk, List.map_cons, ih]
      by_cases hmem : k ∈ rest.map Prod.fst
      · simp [hmem, Ne.symm hk]
      · simp [hmem, Ne.symm hk]

theorem keysNodup_mapSet (m : List (Coord × Char)) (k : Coord) (v : Char)
    (h : (m.map Prod.fst).Nodup) : ((mapSet m k v).map Prod.fst).Nodup := by
  rw [keys_mapSet]
  by_cases hmem : k ∈ m.map Prod.fst
  · simpa [hmem] using h
  · simp only [hmem, if_false]
    rw [List.nodup_append]
    refine ⟨h, List.nodup_singleton k, ?_⟩
    intro a ha hak
    rw [List.mem_singleton] at hak
    subst hak
    exact hmem ha

theorem mapGet_eq_none_iff (m : List (Coord × Char)) (k : Coord) :
    mapGet m k = none ↔ k ∉ m.map Prod.fst := by
  induction m with
  | nil => simp [mapGet]
  | cons p rest ih =>
    rcases p with ⟨k0, v0⟩
    by_cases hk : k0 = k
    · subst hk
      simp [mapGet]
    · simp [mapGet, hk, ih, Ne.symm hk]

theorem mapGet_isSome_iff (m : List (Coord × Char)) (k : Coord) :
    (mapGet m k).isSome = true ↔ k ∈ m.map Prod.fst := by
  constructor
  · intro hs
    by_contra hmem
    rw [← mapGet_eq_none_iff] at hmem
    rw [hmem] at hs
    cases hs
  · intro hmem
    cases hm : mapGet m k with
    | none => rw [mapGet_eq_none_iff] at hm; exact absurd hmem hm
    | some v => rfl

theorem posPair_inj (dir : Dir) (row col : Int) (i j : Nat)
    (h : posPair dir row col i = posPair dir row col j) : i = j := by
  cases dir <;>
    simp only [posPair, posR, posC, Prod.mk.injEq] at h <;>
    omega

theorem writeCells_grid_untouched (dir : Dir) (row col : Int) :
    ∀ (letters : List Char) (i : Nat) (g : List (Coord × Char)) (a b c d : Int) (k : Coord),
      (∀ j, j < letters.length → k ≠ posPair dir row col (i + j)) →
      mapGet (writeCells dir row col letters i g a b c d).1 k = mapGet g k := by
  intro letters
  induction letters with
  | nil => intros; rfl
  | cons ch rest ih =>
    intro i g a b c d k hk
    simp only [writeCells]
    have hk0 : k ≠ (posR dir row i, posC dir col i) := by
      have := hk 0 (by simp)
      simpa [posPair] using this
    have hkr : ∀ j, j < rest.length → k ≠ posPair dir row col (i + 1 + j) := by
      intro j hj
      have := hk (j + 1) (by simp only [List.length_cons]; omega)
      have hsh : i + (j + 1) = i + 1 + j := by omega
      rw [hsh] at this
      exact this
    rw [ih (i + 1) _ _ _ _ _ k hkr]
    exact mapGet_mapSet_ne g _ k ch hk0

theorem writeCells_grid_written (dir : Dir) (row col : Int) :
    ∀ (letters : List Char) (i : Nat) (g : List (Coord × Char)) (a b c d : Int)
      (j : Nat), j < letters.length →
      mapGet (writeCells dir row col letters i g a b c d).1
          (posPair dir row col (i + j)) = some (letters.getD j default) := by
  intro letters
  induction letters with
  | nil => intro i g a b c d j hj; simp at hj
  | cons ch rest ih =>
    intro i g a b c d j hj
    cases j with
    | zero =>
      simp only [writeCells, Nat.add_zero, List.getD_cons_zero]
      rw [writeCells_grid_untouched dir row col rest (i + 1) _ _ _ _ _ _ ?_]
      · exact mapGet_mapSet_self g _ ch
      · intro j' hj' heq
        have := posPair_inj dir row col i (i + 1 + j') heq
        omega
    | succ j' =>
      simp only [writeCells, List.getD_cons_succ]
      have hsh : i + (j' + 1) = i + 1 + j' := by omega
      rw [hsh]
      exact ih (i + 1) _ _ _ _ _ j' (by simpa using hj)

theorem writeCells_keys_grow (dir : Dir) (row col : Int) :
    ∀ (letters : List Char) (i : Nat) (g : List (Coord × Char)) (a b c d : Int) (k : Coord),
      (mapGet (writeCells dir row col letters i g a b c d).1 k).isSome = true →
      (mapGet g k).isSome = true ∨ ∃ j, j < letters.length ∧ k = posPair dir row col (i + j) := by
  intro letters
  induction letters with
  | nil => intro i g a b c d k h; exact Or.inl h
  | cons ch rest ih =>
    intro i g a b c d k h
    simp only [writeCells] at h
    rcases ih (i + 1) _ _ _ _ _ k h with hin | ⟨j, hj, hk⟩
    · by_cases hkp : k = (posR dir row i, posC dir col i)
      · exact Or.inr ⟨0, by simp, by simpa [posPair] using hkp⟩
      · rw [mapGet_mapSet_ne g _ k ch hkp] at hin
        exact Or.inl hin
    · refine Or.inr ⟨j + 1, by simp only [List.length_cons]; omega, ?_⟩
      have hsh : i + (j + 1) = i + 1 + j := by omega
      rw [hsh]
      exact hk

theorem writeCells_keysNodup (dir : Dir) (row col : Int) :
    ∀ (letters : List Char) (i : Nat) (g : List (Coord × Char)) (a b c d : Int),
      (g.map Prod.fst).Nodup →
      ((writeCells dir row col letters i g a b c d).1.map Prod.fst).Nodup := by
  intro letters
  induction letters with
  | nil => intro i g a b c d h; exact h
  | cons ch rest ih =>
    intro i g a b c d h
    simp only [writeCells]
    exact ih (i + 1) _ _ _ _ _ (keysNodup_mapSet g _ ch h)

theorem writeCells_bounds (dir : Dir) (row col : Int) :
    ∀ (letters : List Char) (i : Nat) (g : List (Coord × Char)) (a b c d : Int),
      (writeCells dir row col letters i g a b c d).2.1 =
          (idxList i letters.length).foldl (fun acc j => min acc (posR dir row j)) a ∧
        (writeCells dir row col letters i g a b c d).2.2.1 =
          (idxList i letters.length).foldl (fun acc j => max acc (posR dir row j)) b ∧
        (writeCells dir row col letters i g a b c d).2.2.2.1 =
          (idxList i letters.length).foldl (fun acc j => min acc (posC dir col j)) c ∧
        (writeCells dir row col letters i g a b c d).2.2.2.2 =
          (idxList i letters.length).foldl (fun acc j => max acc (posC dir col j)) d := by
  intro letters
  induction letters with
  | nil => intro i g a b c d; exact ⟨rfl, rfl, rfl, rfl⟩
  | cons ch rest ih =>
    intro i g a b c d
    simp only [writeCells, List.length_cons, idxList_succ, List.foldl_cons]
    exact ih (i + 1) _ _ _ _ _

theorem canPlace_some_not_boundary (g : List (Coord × Char)) (mnR mxR mnC mxC : Int)
    (answer : List Char) (row col : Int) (dir : Dir) (res : CheckResult)
    (h : canPlace g mnR mxR mnC mxC answer row col dir = some res) :
    ¬ startEndTouch g answer row col dir := by
  intro hb
  rw [canPlace_boundary_true g mnR mxR mnC mxC answer row col dir hb] at h
  cases h

theorem canPlace_some_ok_at (g : List (Coord × Char)) (mnR mxR mnC mxC : Int)
    (answer : List Char) (row col : Int) (dir : Dir) (res : CheckResult)
    (h : canPlace g mnR mxR mnC mxC answer row col dir = some res) :
    ∀ j, j < answer.length →
      mapGet g (posPair dir row col j) = some (answer.getD j default) ∨
        (mapGet g (posPair dir row col j) = none ∧
          perpTouch g dir (posR dir row j) (posC dir col j) = false) := by
  intro j hj
  have hb := canPlace_some_not_boundary g mnR mxR mnC mxC answer row col dir res h
  rw [canPlace_eq_of_boundary_false g mnR mxR mnC mxC answer row col dir hb] at h
  cases hscan : scanCells g dir row col answer 0 0 mnR mxR mnC mxC with
  | none => rw [hscan] at h; cases h
  | some v =>
    have hnone : ¬ (scanCells g dir row col answer 0 0 mnR mxR mnC mxC = none) := by
      rw [hscan]; intro hc; cases hc
    rw [scan_none_iff] at hnone
    push_neg at hnone
    have hnobad := hnone j hj
    unfold badAt at hnobad
    push_neg at hnobad
    cases hm : mapGet g (posPair dir row col j) with
    | some v' =>
      left
      have := hnobad.1 v' (by simpa [posPair, Nat.zero_add] using hm)
      rw [this]
    | none =>
      right
      refine ⟨rfl, ?_⟩
      have := hnobad.2 (by simpa [posPair, Nat.zero_add] using hm)
      simpa [Nat.zero_add] using this

theorem canPlace_some_inter_pos (g : List (Coord × Char)) (mnR mxR mnC mxC : Int)
    (answer : List Char) (row col : Int) (dir : Dir) (res : CheckResult)
    (h : canPlace g mnR mxR mnC mxC answer row col dir = some res)
    (hg : g ≠ []) : crossCount g answer row col dir ≠ 0 := by
  have hb := canPlace_some_not_boundary g mnR mxR mnC mxC answer row col dir res h
  rw [canPlace_eq_of_boundary_false g mnR mxR mnC mxC answer row col dir hb] at h
  cases hscan : scanCells g dir row col answer 0 0 mnR mxR mnC mxC with
  | none => rw [hscan] at h; cases h
  | some v =>
    rcases v with ⟨inter, a2, b2, c2, d2⟩
    rw [hscan] at h
    dsimp only at h
    by_cases hcond : g.length > 0 ∧ inter = 0
    · rw [if_pos hcond] at h; cases h
    · obtain ⟨hint, _, _, _, _⟩ :=
        scan_some_spec g dir row col answer 0 0 mnR mxR mnC mxC inter a2 b2 c2 d2 hscan
      intro hc
      apply hcond
      refine ⟨List.length_pos.mpr hg, ?_⟩
      rw [hint, idxList_zero]
      simpa [crossCount] using hc

theorem scanCells_nil_grid (dir : Dir) (row col : Int) :
    ∀ (letters : List Char) (i inter : Nat) (a b c d : Int),
      ∃ v, scanCells [] dir row col letters i inter a b c d = some v := by
  intro letters
  induction letters with
  | nil => intro i inter a b c d; exact ⟨_, rfl⟩
  | cons ch rest ih =>
    intro i inter a b c d
    rw [scanCells_perp]
    have hm : mapGet ([] : List (Coord × Char)) (posR dir row i, posC dir col i) = none := rfl
    rw [hm]
    have hp : perpTouch [] dir (posR dir row i) (posC dir col i) = false := by
      cases dir <;> rfl
    rw [hp]
    simpa using ih (i + 1) inter _ _ _ _

theorem canPlace_nil_grid (mnR mxR mnC mxC : Int) (answer : List Char)
    (row col : Int) (dir : Dir) :
    ∃ res, canPlace [] mnR mxR mnC mxC answer row col dir = some res := by
  have hb : ¬ startEndTouch [] answer row col dir := by
    cases dir <;> simp [startEndTouch, hasCell, mapGet]
  rw [canPlace_eq_of_boundary_false [] mnR mxR mnC mxC answer row col dir hb]
  obtain ⟨v, hv⟩ := scanCells_nil_grid dir row col answer 0 0 mnR mxR mnC mxC
  rw [hv]
  rcases v with ⟨inter, a2, b2, c2, d2⟩
  dsimp only
  rw [if_neg (by simp)]
  exact ⟨_, rfl⟩

theorem placeWordAt_ok_elim (st : GridState) (index : Nat) (answer : List Char)
    (row col : Int) (dir : Dir) (st' : GridState)
    (h : placeWordAt st index answer row col dir = Except.ok st') :
    (∃ res, canPlace st.grid st.minRow st.maxRow st.minCol st.maxCol answer row col dir
        = some res) ∧
    st'.grid = (writeCells dir row col answer 0 st.grid st.minRow st.maxRow st.minCol
        st.maxCol).1 ∧
    st'.placed = st.placed ++ [⟨index, row, col, dir, answer⟩] ∧
    st'.minRow = (writeCells dir row col answer 0 st.grid st.minRow st.maxRow st.minCol
        st.maxCol).2.1 ∧
    st'.maxRow = (writeCells dir row col answer 0 st.grid st.minRow st.maxRow st.minCol
        st.maxCol).2.2.1 ∧
    st'.minCol = (writeCells dir row col answer 0 st.grid st.minRow st.maxRow st.minCol
        st.maxCol).2.2.2.1 ∧
    st'.maxCol = (writeCells dir row col answer 0 st.grid st.minRow st.maxRow st.minCol
        st.maxCol).2.2.2.2 := by
  unfold placeWordAt at h
  by_cases hcond : (canPlace st.grid st.minRow st.maxRow st.minCol st.maxCol answer row
      col dir).isNone = true ∧ st.grid.length > 0
  · rw [if_pos hcond] at h
    cases h
  · rw [if_neg hcond] at h
    injection h with h
    subst h
    refine ⟨?_, rfl, rfl, rfl, rfl, rfl, rfl⟩
    push_neg at hcond
    cases hcp : canPlace st.grid st.minRow st.maxRow st.minCol st.maxCol answer row col dir with
    | some res => exact ⟨res, rfl⟩
    | none =>
      exfalso
      have h0 := hcond (by rw [hcp]; rfl)
      have hnil : st.grid = [] := by
        cases hg : st.grid with
        | nil => rfl
        | cons p rest => rw [hg] at h0; simp at h0
      rw [hnil] at hcp
      obtain ⟨res, hres⟩ := canPlace_nil_grid st.minRow st.maxRow st.minCol st.maxCol
        answer row col dir
      rw [hres] at hcp
      cases hcp

theorem foldl_min_le_init (f : Nat → Int) :
    ∀ (l : List Nat) (a : Int), l.foldl (fun acc j => min acc (f j)) a ≤ a := by
  intro l
  induction l with
  | nil => intro a; exact le_refl a
  | cons x xs ih =>
    intro a
    calc xs.foldl (fun acc j => min acc (f j)) (min a (f x)) ≤ min a (f x) := ih _
    _ ≤ a := min_le_left _ _

theorem foldl_min_le_mem (f : Nat → Int) :
    ∀ (l : List Nat) (a : Int) (j : Nat), j ∈ l →
      l.foldl (fun acc j => min acc (f j)) a ≤ f j := by
  intro l
  induction l with
  | nil => intro a j hj; cases hj
  | cons x xs ih =>
    intro a j hj
    rcases List.mem_cons.mp hj with hx | hxs
    · subst hx
      calc xs.foldl (fun acc j => min acc (f j)) (min a (f j)) ≤ min a (f j) :=
        foldl_min_le_init f xs _
      _ ≤ f j := min_le_right _ _
    · exact ih _ j hxs

theorem foldl_max_ge_init (f : Nat → Int) :
    ∀ (l : List Nat) (a : Int), a ≤ l.foldl (fun acc j => max acc (f j)) a := by
  intro l
  induction l with
  | nil => intro a; exact le_refl a
  | cons x xs ih =>
    intro a
    calc a ≤ max a (f x) := le_max_left _ _
    _ ≤ xs.foldl (fun acc j => max acc (f j)) (max a (f x)) := ih _

theorem foldl_max_ge_mem (f : Nat → Int) :
    ∀ (l : List Nat) (a : Int) (j : Nat), j ∈ l →
      f j ≤ l.foldl (fun acc j => max acc (f j)) a := by
  intro l
  induction l with
  | nil => intro a j hj; cases hj
  | cons x xs ih =>
    intro a j hj
    rcases List.mem_cons.mp hj with hx | hxs
    · subst hx
      calc f j ≤ max a (f j) := le_max_right _ _
      _ ≤ xs.foldl (fun acc j' => max acc (f j')) (max a (f j)) := foldl_max_ge_init f xs _
    · exact ih _ j hxs

theorem isRunOn_congr (f f' : Int → Bool) (a b : Int)
    (heq : ∀ x, a - 1 ≤ x → x ≤ b + 1 → f' x = f x)
    (h : isRunOn f' a b) : isRunOn f a b := by
  obtain ⟨hab, hcells, hlo, hhi⟩ := h
  refine ⟨hab, ?_, ?_, ?_⟩
  · intro x hx1 hx2
    rw [← heq x (by omega) (by omega)]
    exact hcells x hx1 hx2
  · rw [← heq (a - 1) (by omega) (by omega)]
    exact hlo
  · rw [← heq (b + 1) (by omega) (by omega)]
    exact hhi

theorem isRunOn_span (f : Int → Bool) (a b s e : Int)
    (hspan : ∀ x, s ≤ x → x ≤ e → f x = true)
    (hlo : f (s - 1) = false) (hhi : f (e + 1) = false)
    (h : isRunOn f a b) (x0 : Int) (hx0a : a ≤ x0) (hx0b : x0 ≤ b)
    (hx0s : s ≤ x0) (hx0e : x0 ≤ e) : a = s ∧ b = e := by
  obtain ⟨hab, hcells, hrlo, hrhi⟩ := h
  constructor
  · by_contra hne
    rcases lt_or_gt_of_ne hne with hlt | hgt
    · have : f (s - 1) = true := hcells (s - 1) (by omega) (by omega)
      rw [hlo] at this
      cases this
    · have : f (a - 1) = true := hspan (a - 1) (by omega) (by omega)
      rw [hrlo] at this
      cases this
  · by_contra hne
    rcases lt_or_gt_of_ne hne with hlt | hgt
    · have : f (b + 1) = true := hspan (b + 1) (by omega) (by omega)
      rw [hrhi] at this
      cases this
    · have : f (e + 1) = true := hcells (e + 1) (by omega) (by omega)
      rw [hhi] at this
      cases this

theorem isRunOn_isolated (f : Int → Bool) (a b x0 : Int)
    (hlo : f (x0 - 1) = false) (hhi : f (x0 + 1) = false)
    (h : isRunOn f a b) (hab : a < b) :
    ∀ y, a - 1 ≤ y → y ≤ b + 1 → y ≠ x0 := by
  obtain ⟨_, hcells, hrlo, hrhi⟩ := h
  intro y hy1 hy2 hy0
  subst hy0
  by_cases hmem : a ≤ y ∧ y ≤ b
  · rcases lt_or_le a y with hlt | hle
    · have : f (y - 1) = true := hcells (y - 1) (by omega) (by omega)
      rw [hlo] at this
      cases this
    · have hya : y = a := by omega
      have : f (y + 1) = true := hcells (y + 1) (by omega) (by omega)
      rw [hhi] at this
      cases this
  · rcases (by omega : y = a - 1 ∨ y = b + 1) with hya | hyb
    · have h1 : f (y + 1) = true := hcells (y + 1) (by omega) (by omega)
      rw [hhi] at h1
      cases h1
    · have h1 : f (y - 1) = true := hcells (y - 1) (by omega) (by omega)
      rw [hlo] at h1
      cases h1

theorem writeCells0_written (dir : Dir) (row col : Int) (answer : List Char)
    (g : List (Coord × Char)) (a b c d : Int) (j : Nat) (hj : j < answer.length) :
    mapGet (writeCells dir row col answer 0 g a b c d).1 (posPair dir row col j) =
      some (answer.getD j default) := by
  have := writeCells_grid_written dir row col answer 0 g a b c d j hj
  simpa [Nat.zero_add] using this

theorem writeCells0_untouched (dir : Dir) (row col : Int) (answer : List Char)
    (g : List (Coord × Char)) (a b c d : Int) (k : Coord)
    (hk : ∀ j, j < answer.length → k ≠ posPair dir row col j) :
    mapGet (writeCells dir row col answer 0 g a b c d).1 k = mapGet g k := by
  apply writeCells_grid_untouched dir row col answer 0 g a b c d k
  intro j hj
  have := hk j hj
  simpa [Nat.zero_add] using this

theorem writeCells0_grow (dir : Dir) (row col : Int) (answer : List Char)
    (g : List (Coord × Char)) (a b c d : Int) (k : Coord)
    (h : (mapGet (writeCells dir row col answer 0 g a b c d).1 k).isSome = true) :
    (mapGet g k).isSome = true ∨ ∃ j, j < answer.length ∧ k = posPair dir row col j := by
  rcases writeCells_keys_grow dir row col answer 0 g a b c d k h with hin | ⟨j, hj, hk⟩
  · exact Or.inl hin
  · exact Or.inr ⟨j, hj, by simpa [Nat.zero_add] using hk⟩

theorem commit_preserves_letters (g : List (Coord × Char)) (mnR mxR mnC mxC : Int)
    (answer : List Char) (row col : Int) (dir : Dir) (res : CheckResult)
    (hcp : canPlace g mnR mxR mnC mxC answer row col dir = some res) :
    ∀ k v, mapGet g k = some v →
      mapGet (writeCells dir row col answer 0 g mnR mxR mnC mxC).1 k = some v := by
  intro k v hv
  by_cases hk : ∃ j, j < answer.length ∧ k = posPair dir row col j
  · obtain ⟨j, hj, hkj⟩ := hk
    subst hkj
    rcases canPlace_some_ok_at g mnR mxR mnC mxC answer row col dir res hcp j hj with
      hsome | ⟨hnone, _⟩
    · rw [hv] at hsome
      injection hsome with he
      rw [writeCells0_written dir row col answer g mnR mxR mnC mxC j hj, ← he]
    · rw [hv] at hnone
      cases hnone
  · push_neg at hk
    rw [writeCells0_untouched dir row col answer g mnR mxR mnC mxC k hk]
    exact hv

theorem step_letters (g : List (Coord × Char)) (ps : List Placement)
    (mnR mxR mnC mxC : Int) (index : Nat) (answer : List Char) (row col : Int)
    (dir : Dir) (res : CheckResult)
    (hcp : canPlace g mnR mxR mnC mxC answer row col dir = some res)
    (hlet : lettersAtG g ps) :
    lettersAtG (writeCells dir row col answer 0 g mnR mxR mnC mxC).1
      (ps ++ [⟨index, row, col, dir, answer⟩]) := by
  intro p hp j hj
  rcases List.mem_append.mp hp with hold | hnew
  · exact commit_preserves_letters g mnR mxR mnC mxC answer row col dir res hcp _ _
      (hlet p hold j hj)
  · rw [List.mem_singleton] at hnew
    subst hnew
    exact writeCells0_written dir row col answer g mnR mxR mnC mxC j hj

theorem step_bounds (g : List (Coord × Char)) (mnR mxR mnC mxC : Int)
    (answer : List Char) (row col : Int) (dir : Dir)
    (hbd : inBoundsG g mnR mxR mnC mxC) :
    inBoundsG (writeCells dir row col answer 0 g mnR mxR mnC mxC).1
      (writeCells dir row col answer 0 g mnR mxR mnC mxC).2.1
      (writeCells dir row col answer 0 g mnR mxR mnC mxC).2.2.1
      (writeCells dir row col answer 0 g mnR mxR mnC mxC).2.2.2.1
      (writeCells dir row col answer 0 g mnR mxR mnC mxC).2.2.2.2 := by
  obtain ⟨hmnr, hmxr, hmnc, hmxc⟩ := writeCells_bounds dir row col answer 0 g mnR mxR mnC mxC
  intro r c hrc
  rw [hmnr, hmxr, hmnc, hmxc]
  rcases writeCells0_grow dir row col answer g mnR mxR mnC mxC (r, c) hrc with hold | ⟨j, hj, hk⟩
  · obtain ⟨h1, h2, h3, h4⟩ := hbd r c hold
    refine ⟨le_trans (foldl_min_le_init _ _ _) h1, le_trans h2 (foldl_max_ge_init _ _ _),
      le_trans (foldl_min_le_init _ _ _) h3, le_trans h4 (foldl_max_ge_init _ _ _)⟩
  · have hjm : j ∈ idxList 0 answer.length := by
      rw [idxList_zero]
      exact List.mem_range.mpr hj
    have hrc : r = posR dir row j ∧ c = posC dir col j := by
      simpa [posPair, Prod.ext_iff] using hk
    obtain ⟨hr, hc⟩ := hrc
    rw [hr, hc]
    exact ⟨foldl_min_le_mem _ _ _ j hjm, foldl_max_ge_mem _ _ _ j hjm,
      foldl_min_le_mem _ _ _ j hjm, foldl_max_ge_mem _ _ _ j hjm⟩

theorem step_sameStart (g : List (Coord × Char)) (ps : List Placement)
    (mnR mxR mnC mxC : Int) (index : Nat) (answer : List Char) (row col : Int)
    (dir : Dir) (res : CheckResult)
    (hcp : canPlace g mnR mxR mnC mxC answer row col dir = some res)
    (hlet : lettersAtG g ps)
    (hss : sameStartSameAnswer ps)
    (hlen : ∀ q ∈ ps, answer.length ≤ q.answer.length) :
    sameStartSameAnswer (ps ++ [⟨index, row, col, dir, answer⟩]) := by
  have hcore : ∀ q ∈ ps, q.row = row → q.col = col → q.dir = dir → answer = q.answer := by
    intro q hq hr hc hd
    have hm : answer.length ≤ q.answer.length := hlen q hq
    have hb := canPlace_some_not_boundary g mnR mxR mnC mxC answer row col dir res hcp
    have hmeq : q.answer.length = answer.length := by
      by_contra hne
      have hlt : answer.length < q.answer.length := by omega
      have hql := hlet q hq answer.length hlt
      rw [hd, hr, hc] at hql
      apply hb
      cases dir with
      | across =>
        simp only [startEndTouch]
        right
        rw [hasCell]
        simp only [posPair, posR, posC] at hql
        rw [hql]
        rfl
      | down =>
        simp only [startEndTouch]
        right
        rw [hasCell]
        simp only [posPair, posR, posC] at hql
        rw [hql]
        rfl
    have hgetd : ∀ j, j < answer.length → answer.getD j default = q.answer.getD j default := by
      intro j hj
      have hql := hlet q hq j (by omega)
      rw [hd, hr, hc] at hql
      rcases canPlace_some_ok_at g mnR mxR mnC mxC answer row col dir res hcp j hj with
        hsome | ⟨hnone, _⟩
      · rw [hql] at hsome
        injection hsome with he
        exact he.symm
      · rw [hql] at hnone
        cases hnone
    apply List.ext_getElem (by omega)
    intro i h1 h2
    have := hgetd i h1
    rw [List.getD_eq_getElem answer default h1, List.getD_eq_getElem q.answer default h2] at this
    exact this
  intro p hp q hq hr hc hd
  rcases List.mem_append.mp hp with hpo | hpn <;> rcases List.mem_append.mp hq with hqo | hqn
  · exact hss p hpo q hqo hr hc hd
  · rw [List.mem_singleton] at hqn
    subst hqn
    have := hcore p hpo (by simpa using hr) (by simpa using hc) (by simpa using hd)
    exact this.symm
  · rw [List.mem_singleton] at hpn
    subst hpn
    exact (hcore q hqo (by simpa using hr.symm) (by simpa using hc.symm)
      (by simpa using hd.symm))
  · rw [List.mem_singleton] at hpn hqn
    subst hpn
    subst hqn
    rfl

theorem across_untouched (g : List (Coord × Char)) (mnR mxR mnC mxC : Int)
    (answer : List Char) (row col : Int) :
    ∀ r c : Int, (r ≠ row ∨ (c < col ∨ col + (answer.length : Int) ≤ c)) →
      mapGet (writeCells Dir.across row col answer 0 g mnR mxR mnC mxC).1 (r, c) =
        mapGet g (r, c) := by
  intro r c hcond
  apply writeCells0_untouched
  intro j hj heq
  simp only [posPair, posR, posC, Prod.mk.injEq] at heq
  rcases hcond with h | h | h
  · exact h heq.1
  · omega
  · omega

theorem across_written (g : List (Coord × Char)) (mnR mxR mnC mxC : Int)
    (answer : List Char) (row col : Int) :
    ∀ x : Int, col ≤ x → x < col + (answer.length : Int) →
      hasCell (writeCells Dir.across row col answer 0 g mnR mxR mnC mxC).1 row x = true := by
  intro x h1 h2
  have hj : (x - col).toNat < answer.length := by omega
  have hx : x = col + ((x - col).toNat : Int) := by omega
  rw [hasCell, hx]
  have := writeCells0_written Dir.across row col answer g mnR mxR mnC mxC (x - col).toNat hj
  simp only [posPair, posR, posC] at this
  rw [this]
  rfl

theorem across_boundary (g : List (Coord × Char)) (mnR mxR mnC mxC : Int)
    (answer : List Char) (row col : Int) (res : CheckResult)
    (hcp : canPlace g mnR mxR mnC mxC answer row col Dir.across = some res) :
    hasCell g row (col - 1) = false ∧
      hasCell g row (col + (answer.length : Int)) = false := by
  have hb := canPlace_some_not_boundary g mnR mxR mnC mxC answer row col Dir.across res hcp
  simp only [startEndTouch, not_or, Bool.not_eq_true] at hb
  exact hb

theorem step_runsH_across (g : List (Coord × Char)) (ps : List Placement)
    (mnR mxR mnC mxC : Int) (index : Nat) (answer : List Char) (row col : Int)
    (res : CheckResult)
    (hcp : canPlace g mnR mxR mnC mxC answer row col Dir.across = some res)
    (hrH : runsHG g ps)
    (hne : answer ≠ []) :
    runsHG (writeCells Dir.across row col answer 0 g mnR mxR mnC mxC).1
      (ps ++ [⟨index, row, col, Dir.across, answer⟩]) := by
  have hn : 0 < answer.length := List.length_pos.mpr hne
  obtain ⟨hbl, hbr⟩ := across_boundary g mnR mxR mnC mxC answer row col res hcp
  have hunt := across_untouched g mnR mxR mnC mxC answer row col
  have hwr := across_written g mnR mxR mnC mxC answer row col
  have hbl' : hasCell (writeCells Dir.across row col answer 0 g mnR mxR mnC mxC).1
      row (col - 1) = false := by
    rw [hasCell, hunt row (col - 1) (Or.inr (Or.inl (by omega)))]
    exact hbl
  have hbr' : hasCell (writeCells Dir.across row col answer 0 g mnR mxR mnC mxC).1
      row (col + (answer.length : Int)) = false := by
    rw [hasCell, hunt row (col + (answer.length : Int)) (Or.inr (Or.inr (by omega)))]
    exact hbr
  intro r a b hrun hab
  by_cases hr : r = row
  · subst hr
    by_cases hint : ∃ x : Int, a ≤ x ∧ x ≤ b ∧ col ≤ x ∧ x ≤ col + (answer.length : Int) - 1
    · obtain ⟨x0, hx1, hx2, hx3, hx4⟩ := hint
      have hspan : ∀ x : Int, col ≤ x → x ≤ col + (answer.length : Int) - 1 →
          hasCell (writeCells Dir.across r col answer 0 g mnR mxR mnC mxC).1 r x = true :=
        fun x h1 h2 => hwr x h1 (by omega)
      have hend : col + (answer.length : Int) - 1 + 1 = col + (answer.length : Int) := by omega
      have := isRunOn_span _ a b col (col + (answer.length : Int) - 1) hspan
        (by simpa using hbl') (by rw [hend]; exact hbr') hrun x0 hx1 hx2 hx3 hx4
      obtain ⟨ha, hb2⟩ := this
      refine ⟨⟨index, r, col, Dir.across, answer⟩,
        List.mem_append_right _ (List.mem_singleton.mpr rfl), rfl, rfl, by rw [ha], ?_⟩
      simp only
      omega
    · have htr : ∀ x, a - 1 ≤ x → x ≤ b + 1 →
          hasCell (writeCells Dir.across r col answer 0 g mnR mxR mnC mxC).1 r x =
            hasCell g r x := by
        intro x h1 h2
        by_cases hxs : col ≤ x ∧ x ≤ col + (answer.length : Int) - 1
        · exfalso
          by_cases hxm : a ≤ x ∧ x ≤ b
          · exact hint ⟨x, hxm.1, hxm.2, hxs.1, hxs.2⟩
          · have htrue : hasCell
                (writeCells Dir.across r col answer 0 g mnR mxR mnC mxC).1 r x = true :=
              hwr x hxs.1 (by omega)
            rcases (by omega : x = a - 1 ∨ x = b + 1) with hx | hx
            · have hlo2 : hasCell
                  (writeCells Dir.across r col answer 0 g mnR mxR mnC mxC).1 r (a - 1) =
                    false := by
                have := hrun.2.2.1
                simpa using this
              rw [hx, hlo2] at htrue
              cases htrue
            · have hhi2 : hasCell
                  (writeCells Dir.across r col answer 0 g mnR mxR mnC mxC).1 r (b + 1) =
                    false := by
                have := hrun.2.2.2
                simpa using this
              rw [hx, hhi2] at htrue
              cases htrue
        · have hcnd : x < col ∨ col + (answer.length : Int) ≤ x := by omega
          rw [hasCell, hasCell, hunt r x (Or.inr hcnd)]
      have hold : isRunOn (fun x => hasCell g r x) a b :=
        isRunOn_congr _ _ a b htr hrun
      obtain ⟨q, hq, h1, h2, h3, h4⟩ := hrH r a b hold hab
      exact ⟨q, List.mem_append_left _ hq, h1, h2, h3, h4⟩
  · have htr : ∀ x, a - 1 ≤ x → x ≤ b + 1 →
        hasCell (writeCells Dir.across row col answer 0 g mnR mxR mnC mxC).1 r x =
          hasCell g r x := by
      intro x _ _
      rw [hasCell, hasCell, hunt r x (Or.inl hr)]
    have hold : isRunOn (fun x => hasCell g r x) a b :=
      isRunOn_congr _ _ a b htr hrun
    obtain ⟨q, hq, h1, h2, h3, h4⟩ := hrH r a b hold hab
    exact ⟨q, List.mem_append_left _ hq, h1, h2, h3, h4⟩

theorem step_runsV_across (g : List (Coord × Char)) (ps : List Placement)
    (mnR mxR mnC mxC : Int) (index : Nat) (answer : List Char) (row col : Int)
    (res : CheckResult)
    (hcp : canPlace g mnR mxR mnC mxC answer row col Dir.across = some res)
    (hrV : runsVG g ps) :
    runsVG (writeCells Dir.across row col answer 0 g mnR mxR mnC mxC).1
      (ps ++ [⟨index, row, col, Dir.across, answer⟩]) := by
  have hunt := across_untouched g mnR mxR mnC mxC answer row col
  have hwr := across_written g mnR mxR mnC mxC answer row col
  intro c a b hrun hab
  by_cases hc : col ≤ c ∧ c ≤ col + (answer.length : Int) - 1
  · have hj : (c - col).toNat < answer.length := by omega
    have hcj : c = col + (((c - col).toNat : Nat) : Int) := by omega
    rcases canPlace_some_ok_at g mnR mxR mnC mxC answer row col Dir.across res hcp
        (c - col).toNat hj with hsome | ⟨hnone, hperp⟩
    · have hpt : ∀ y, a - 1 ≤ y → y ≤ b + 1 →
          hasCell (writeCells Dir.across row col answer 0 g mnR mxR mnC mxC).1 y c =
            hasCell g y c := by
        intro y _ _
        by_cases hy : y = row
        · subst hy
          have h1 : mapGet (writeCells Dir.across y col answer 0 g mnR mxR mnC mxC).1
              (y, c) = some (answer.getD (c - col).toNat default) := by
            have hw := writeCells0_written Dir.across y col answer g mnR mxR mnC mxC
              (c - col).toNat hj
            simp only [posPair, posR, posC] at hw
            rw [← hcj] at hw
            exact hw
          have h2 : mapGet g (y, c) = some (answer.getD (c - col).toNat default) := by
            simp only [posPair, posR, posC] at hsome
            rw [← hcj] at hsome
            exact hsome
          rw [hasCell, hasCell, h1, h2]
        · rw [hasCell, hasCell, hunt y c (Or.inl hy)]
      have hold : isRunOn (fun y => hasCell g y c) a b :=
        isRunOn_congr _ _ a b hpt hrun
      obtain ⟨q, hq, h1, h2, h3, h4⟩ := hrV c a b hold hab
      exact ⟨q, List.mem_append_left _ hq, h1, h2, h3, h4⟩
    · simp only [posPair, posR, posC] at hnone hperp
      simp only [perpTouch, Bool.or_eq_false_iff] at hperp
      obtain ⟨hup, hdn⟩ := hperp
      rw [← hcj] at hup hdn
      have hup' : hasCell (writeCells Dir.across row col answer 0 g mnR mxR mnC mxC).1
          (row - 1) c = false := by
        rw [hasCell, hunt (row - 1) c (Or.inl (by omega))]
        exact hup
      have hdn' : hasCell (writeCells Dir.across row col answer 0 g mnR mxR mnC mxC).1
          (row + 1) c = false := by
        rw [hasCell, hunt (row + 1) c (Or.inl (by omega))]
        exact hdn
      have hiso := isRunOn_isolated
        (fun y => hasCell (writeCells Dir.across row col answer 0 g mnR mxR mnC mxC).1 y c)
        a b row hup' hdn' hrun hab
      have htr : ∀ y, a - 1 ≤ y → y ≤ b + 1 →
          hasCell (writeCells Dir.across row col answer 0 g mnR mxR mnC mxC).1 y c =
            hasCell g y c := by
        intro y h1 h2
        rw [hasCell, hasCell, hunt y c (Or.inl (hiso y h1 h2))]
      have hold : isRunOn (fun y => hasCell g y c) a b :=
        isRunOn_congr _ _ a b htr hrun
      obtain ⟨q, hq, h1, h2, h3, h4⟩ := hrV c a b hold hab
      exact ⟨q, List.mem_append_left _ hq, h1, h2, h3, h4⟩
  · have htr : ∀ y, a - 1 ≤ y → y ≤ b + 1 →
        hasCell (writeCells Dir.across row col answer 0 g mnR mxR mnC mxC).1 y c =
          hasCell g y c := by
      intro y _ _
      by_cases hy : y = row
      · rw [hasCell, hasCell, hunt y c (Or.inr (by omega))]
      · rw [hasCell, hasCell, hunt y c (Or.inl hy)]
    have hold : isRunOn (fun y => hasCell g y c) a b :=
      isRunOn_congr _ _ a b htr hrun
    obtain ⟨q, hq, h1, h2, h3, h4⟩ := hrV c a b hold hab
    exact ⟨q, List.mem_append_left _ hq, h1, h2, h3, h4⟩

theorem down_untouched (g : List (Coord × Char)) (mnR mxR mnC mxC : Int)
    (answer : List Char) (row col : Int) :
    ∀ r c : Int, (c ≠ col ∨ (r < row ∨ row + (answer.length : Int) ≤ r)) →
      mapGet (writeCells Dir.down row col answer 0 g mnR mxR mnC mxC).1 (r, c) =
        mapGet g (r, c) := by
  intro r c hcond
  apply writeCells0_untouched
  intro j hj heq
  simp only [posPair, posR, posC, Prod.mk.injEq] at heq
  rcases hcond with h | h | h
  · exact h heq.2
  · omega
  · omega

theorem down_written (g : List (Coord × Char)) (mnR mxR mnC mxC : Int)
    (answer : List Char) (row col : Int) :
    ∀ y : Int, row ≤ y → y < row + (answer.length : Int) →
      hasCell (writeCells Dir.down row col answer 0 g mnR mxR mnC mxC).1 y col = true := by
  intro y h1 h2
  have hj : (y - row).toNat < answer.length := by omega
  have hy : y = row + ((y - row).toNat : Int) := by omega
  rw [hasCell, hy]
  have := writeCells0_written Dir.down row col answer g mnR mxR mnC mxC (y - row).toNat hj
  simp only [posPair, posR, posC] at this
  rw [this]
  rfl

theorem down_boundary (g : List (Coord × Char)) (mnR mxR mnC mxC : Int)
    (answer : List Char) (row col : Int) (res : CheckResult)
    (hcp : canPlace g mnR mxR mnC mxC answer row col Dir.down = some res) :
    hasCell g (row - 1) col = false ∧
      hasCell g (row + (answer.length : Int)) col = false := by
  have hb := canPlace_some_not_boundary g mnR mxR mnC mxC answer row col Dir.down res hcp
  simp only [startEndTouch, not_or, Bool.not_eq_true] at hb
  exact hb

theorem step_runsV_down (g : List (Coord × Char)) (ps : List Placement)
    (mnR mxR mnC mxC : Int) (index : Nat) (answer : List Char) (row col : Int)
    (res : CheckResult)
    (hcp : canPlace g mnR mxR mnC mxC answer row col Dir.down = some res)
    (hrV : runsVG g ps)
    (hne : answer ≠ []) :
    runsVG (writeCells Dir.down row col answer 0 g mnR mxR mnC mxC).1
      (ps ++ [⟨index, row, col, Dir.down, answer⟩]) := by
  have hn : 0 < answer.length := List.length_pos.mpr hne
  obtain ⟨hbl, hbr⟩ := down_boundary g mnR mxR mnC mxC answer row col res hcp
  have hunt := down_untouched g mnR mxR mnC mxC answer row col
  have hwr := down_written g mnR mxR mnC mxC answer row col
  have hbl' : hasCell (writeCells Dir.down row col answer 0 g mnR mxR mnC mxC).1
      (row - 1) col = false := by
    rw [hasCell, hunt (row - 1) col (Or.inr (Or.inl (by omega)))]
    exact hbl
  have hbr' : hasCell (writeCells Dir.down row col answer 0 g mnR mxR mnC mxC).1
      (row + (answer.length : Int)) col = false := by
    rw [hasCell, hunt (row + (answer.length : Int)) col (Or.inr (Or.inr (by omega)))]
    exact hbr
  intro c a b hrun hab
  by_cases hc : c = col
  · subst hc
    by_cases hint : ∃ y : Int, a ≤ y ∧ y ≤ b ∧ row ≤ y ∧ y ≤ row + (answer.length : Int) - 1
    · obtain ⟨y0, hy1, hy2, hy3, hy4⟩ := hint
      have hspan : ∀ y : Int, row ≤ y → y ≤ row + (answer.length : Int) - 1 →
          hasCell (writeCells Dir.down row c answer 0 g mnR mxR mnC mxC).1 y c = true :=
        fun y h1 h2 => hwr y h1 (by omega)
      have hend : row + (answer.length : Int) - 1 + 1 = row + (answer.length : Int) := by omega
      have := isRunOn_span _ a b row (row + (answer.length : Int) - 1) hspan
        (by simpa using hbl') (by rw [hend]; exact hbr') hrun y0 hy1 hy2 hy3 hy4
      obtain ⟨ha, hb2⟩ := this
      refine ⟨⟨index, row, c, Dir.down, answer⟩,
        List.mem_append_right _ (List.mem_singleton.mpr rfl), rfl, rfl, by rw [ha], ?_⟩
      simp only
      omega
    · have htr : ∀ y, a - 1 ≤ y → y ≤ b + 1 →
          hasCell (writeCells Dir.down row c answer 0 g mnR mxR mnC mxC).1 y c =
            hasCell g y c := by
        intro y h1 h2
        by_cases hys : row ≤ y ∧ y ≤ row + (answer.length : Int) - 1
        · exfalso
          by_cases hym : a ≤ y ∧ y ≤ b
          · exact hint ⟨y, hym.1, hym.2, hys.1, hys.2⟩
          · have htrue : hasCell
                (writeCells Dir.down row c answer 0 g mnR mxR mnC mxC).1 y c = true :=
              hwr y hys.1 (by omega)
            rcases (by omega : y = a - 1 ∨ y = b + 1) with hy | hy
            · have hlo2 : hasCell
                  (writeCells Dir.down row c answer 0 g mnR mxR mnC mxC).1 (a - 1) c =
                    false := by
                have := hrun.2.2.1
                simpa using this
              rw [hy, hlo2] at htrue
              cases htrue
            · have hhi2 : hasCell
                  (writeCells Dir.down row c answer 0 g mnR mxR mnC mxC).1 (b + 1) c =
                    false := by
                have := hrun.2.2.2
                simpa using this
              rw [hy, hhi2] at htrue
              cases htrue
        · have hcnd : y < row ∨ row + (answer.length : Int) ≤ y := by omega
          rw [hasCell, hasCell, hunt y c (Or.inr hcnd)]
      have hold : isRunOn (fun y => hasCell g y c) a b :=
        isRunOn_congr _ _ a b htr hrun
      obtain ⟨q, hq, h1, h2, h3, h4⟩ := hrV c a b hold hab
      exact ⟨q, List.mem_append_left _ hq, h1, h2, h3, h4⟩
  · have htr : ∀ y, a - 1 ≤ y → y ≤ b + 1 →
        hasCell (writeCells Dir.down row col answer 0 g mnR mxR mnC mxC).1 y c =
          hasCell g y c := by
      intro y _ _
      rw [hasCell, hasCell, hunt y c (Or.inl hc)]
    have hold : isRunOn (fun y => hasCell g y c) a b :=
      isRunOn_congr _ _ a b htr hrun
    obtain ⟨q, hq, h1, h2, h3, h4⟩ := hrV c a b hold hab
    exact ⟨q, List.mem_append_left _ hq, h1, h2, h3, h4⟩

theorem step_runsH_down (g : List (Coord × Char)) (ps : List Placement)
    (mnR mxR mnC mxC : Int) (index : Nat) (answer : List Char) (row col : Int)
    (res : CheckResult)
    (hcp : canPlace g mnR mxR mnC mxC answer row col Dir.down = some res)
    (hrH : runsHG g ps) :
    runsHG (writeCells Dir.down row col answer 0 g mnR mxR mnC mxC).1
      (ps ++ [⟨index, row, col, Dir.down, answer⟩]) := by
  have hunt := down_untouched g mnR mxR mnC mxC answer row col
  intro r a b hrun hab
  by_cases hr : row ≤ r ∧ r ≤ row + (answer.length : Int) - 1
  · have hj : (r - row).toNat < answer.length := by omega
    have hrj : r = row + (((r - row).toNat : Nat) : Int) := by omega
    rcases canPlace_some_ok_at g mnR mxR mnC mxC answer row col Dir.down res hcp
        (r - row).toNat hj with hsome | ⟨hnone, hperp⟩
    · have hpt : ∀ x, a - 1 ≤ x → x ≤ b + 1 →
          hasCell (writeCells Dir.down row col answer 0 g mnR mxR mnC mxC).1 r x =
            hasCell g r x := by
        intro x _ _
        by_cases hx : x = col
        · subst hx
          have h1 : mapGet (writeCells Dir.down row x answer 0 g mnR mxR mnC mxC).1
              (r, x) = some (answer.getD (r - row).toNat default) := by
            have hw := writeCells0_written Dir.down row x answer g mnR mxR mnC mxC
              (r - row).toNat hj
            simp only [posPair, posR, posC] at hw
            rw [← hrj] at hw
            exact hw
          have h2 : mapGet g (r, x) = some (answer.getD (r - row).toNat default) := by
            simp only [posPair, posR, posC] at hsome
            rw [← hrj] at hsome
            exact hsome
          rw [hasCell, hasCell, h1, h2]
        · rw [hasCell, hasCell, hunt r x (Or.inl hx)]
      have hold : isRunOn (fun x => hasCell g r x) a b :=
        isRunOn_congr _ _ a b hpt hrun
      obtain ⟨q, hq, h1, h2, h3, h4⟩ := hrH r a b hold hab
      exact ⟨q, List.mem_append_left _ hq, h1, h2, h3, h4⟩
    · simp only [posPair, posR, posC] at hnone hperp
      simp only [perpTouch, Bool.or_eq_false_iff] at hperp
      obtain ⟨hlt, hrt⟩ := hperp
      rw [← hrj] at hlt hrt
      have hlt' : hasCell (writeCells Dir.down row col answer 0 g mnR mxR mnC mxC).1
          r (col - 1) = false := by
        rw [hasCell, hunt r (col - 1) (Or.inl (by omega))]
        exact hlt
      have hrt' : hasCell (writeCells Dir.down row col answer 0 g mnR mxR mnC mxC).1
          r (col + 1) = false := by
        rw [hasCell, hunt r (col + 1) (Or.inl (by omega))]
        exact hrt
      have hiso := isRunOn_isolated
        (fun x => hasCell (writeCells Dir.down row col answer 0 g mnR mxR mnC mxC).1 r x)
        a b col hlt' hrt' hrun hab
      have htr : ∀ x, a - 1 ≤ x → x ≤ b + 1 →
          hasCell (writeCells Dir.down row col answer 0 g mnR mxR mnC mxC).1 r x =
            hasCell g r x := by
        intro x h1 h2
        rw [hasCell, hasCell, hunt r x (Or.inl (hiso x h1 h2))]
      have hold : isRunOn (fun x => hasCell g r x) a b :=
        isRunOn_congr _ _ a b htr hrun
      obtain ⟨q, hq, h1, h2, h3, h4⟩ := hrH r a b hold hab
      exact ⟨q, List.mem_append_left _ hq, h1, h2, h3, h4⟩
  · have htr : ∀ x, a - 1 ≤ x → x ≤ b + 1 →
        hasCell (writeCells Dir.down row col answer 0 g mnR mxR mnC mxC).1 r x =
          hasCell g r x := by
      intro x _ _
      by_cases hx : x = col
      · rw [hasCell, hasCell, hunt r x (Or.inr (by omega))]
      · rw [hasCell, hasCell, hunt r x (Or.inl hx)]
    have hold : isRunOn (fun x => hasCell g r x) a b :=
      isRunOn_congr _ _ a b htr hrun
    obtain ⟨q, hq, h1, h2, h3, h4⟩ := hrH r a b hold hab
    exact ⟨q, List.mem_append_left _ hq, h1, h2, h3, h4⟩

theorem runsHG_mono (g : List (Coord × Char)) (ps l : List Placement)
    (h : runsHG g ps) : runsHG g (ps ++ l) := by
  intro r a b hr hab
  obtain ⟨q, hq, h1, h2, h3, h4⟩ := h r a b hr hab
  exact ⟨q, List.mem_append_left _ hq, h1, h2, h3, h4⟩

theorem runsVG_mono (g : List (Coord × Char)) (ps l : List Placement)
    (h : runsVG g ps) : runsVG g (ps ++ l) := by
  intro c a b hr hab
  obtain ⟨q, hq, h1, h2, h3, h4⟩ := h c a b hr hab
  exact ⟨q, List.mem_append_left _ hq, h1, h2, h3, h4⟩

theorem Inv_step (entries : List Entry) (st st' : GridState) (index : Nat)
    (answer : List Char) (row col : Int) (dir : Dir)
    (hInv : Inv entries st)
    (hans : index < entries.length ∧ answer = (entries.getD index default).answer)
    (hidx : index ∉ st.placed.map Placement.index)
    (hlen : ∀ q ∈ st.placed, answer.length ≤ q.answer.length)
    (h : placeWordAt st index answer row col dir = Except.ok st') :
    Inv entries st' := by
  obtain ⟨⟨res, hcp⟩, hg, hp, hb1, hb2, hb3, hb4⟩ :=
    placeWordAt_ok_elim st index answer row col dir st' h
  constructor
  · rw [hg]
    exact writeCells_keysNodup dir row col answer 0 st.grid _ _ _ _ hInv.keys
  · rw [hg, hp]
    exact step_letters st.grid st.placed _ _ _ _ index answer row col dir res hcp hInv.letters
  · rw [hg, hb1, hb2, hb3, hb4]
    exact step_bounds st.grid _ _ _ _ answer row col dir hInv.bounds
  · rw [hp]
    intro p hpm
    rcases List.mem_append.mp hpm with hold | hnew
    · exact hInv.link p hold
    · rw [List.mem_singleton] at hnew
      subst hnew
      exact hans
  · rw [hp, List.map_append]
    rw [List.nodup_append]
    refine ⟨hInv.idx, List.nodup_singleton _, ?_⟩
    intro i hi hik
    rw [List.map_singleton, List.mem_singleton] at hik
    subst hik
    exact hidx hi
  · rw [hp]
    exact step_sameStart st.grid st.placed _ _ _ _ index answer row col dir res hcp
      hInv.letters hInv.sameStart hlen
  · rw [hg, hp]
    cases dir with
    | across =>
      by_cases hne : answer = []
      · subst hne
        simp only [writeCells]
        exact runsHG_mono st.grid st.placed _ hInv.runsH
      · exact step_runsH_across st.grid st.placed _ _ _ _ index answer row col res hcp
          hInv.runsH hne
    | down =>
      exact step_runsH_down st.grid st.placed _ _ _ _ index answer row col res hcp hInv.runsH
  · rw [hg, hp]
    cases dir with
    | across =>
      exact step_runsV_across st.grid st.placed _ _ _ _ index answer row col res hcp hInv.runsV
    | down =>
      by_cases hne : answer = []
      · subst hne
        simp only [writeCells]
        exact runsVG_mono st.grid st.placed _ hInv.runsV
      · exact step_runsV_down st.grid st.placed _ _ _ _ index answer row col res hcp
          hInv.runsV hne

theorem placeLoop_inv (entries : List Entry) :
    ∀ (order : List (Nat × Nat)) (st st' : GridState),
      Inv entries st →
      (∀ o ∈ order, o.1 < entries.length ∧
        o.2 = (entries.getD o.1 default).answer.length) →
      (order.map Prod.fst).Nodup →
      (∀ i ∈ order.map Prod.fst, i ∉ st.placed.map Placement.index) →
      List.Pairwise (fun a b => b.2 ≤ a.2) order →
      (∀ q ∈ st.placed, ∀ o ∈ order, o.2 ≤ q.answer.length) →
      placeLoop entries order st = Except.ok st' →
      Inv entries st' ∧
        st'.placed.map Placement.index =
          st.placed.map Placement.index ++ order.map Prod.fst := by
  intro order
  induction order with
  | nil =>
    intro st st' hInv _ _ _ _ _ h
    simp only [placeLoop] at h
    injection h with h
    subst h
    exact ⟨hInv, by simp⟩
  | cons o rest ih =>
    rcases o with ⟨idx, len⟩
    intro st st' hInv ho hnd hdis hpw hlen h
    simp only [placeLoop] at h
    have hlen' : len = (entries.getD idx default).answer.length :=
      (ho _ (List.mem_cons_self _ _)).2
    have hexists : ∃ (r0 c0 : Int) (d0 : Dir) (st1 : GridState),
        placeWordAt st idx (entries.getD idx default).answer r0 c0 d0 = Except.ok st1 ∧
        placeLoop entries rest st1 = Except.ok st' := by
      cases hbp : bestPlacement st (entries.getD idx default).answer with
      | some cand =>
        rw [hbp] at h
        dsimp only at h
        cases hpl : placeWordAt st idx (entries.getD idx default).answer cand.row
            cand.col cand.dir with
        | error e =>
          rw [hpl] at h
          exact Except.noConfusion h
        | ok st1 =>
          rw [hpl] at h
          exact ⟨_, _, _, st1, hpl, h⟩
      | none =>
        rw [hbp] at h
        dsimp only at h
        cases hpl : placeWordAt st idx (entries.getD idx default).answer (st.maxRow + 2)
            st.minCol Dir.across with
        | error e =>
          rw [hpl] at h
          exact Except.noConfusion h
        | ok st1 =>
          rw [hpl] at h
          exact ⟨_, _, _, st1, hpl, h⟩
    obtain ⟨r0, c0, d0, st1, hpw1, hrest⟩ := hexists
    have hInv1 : Inv entries st1 :=
      Inv_step entries st st1 idx (entries.getD idx default).answer r0 c0 d0 hInv
        ⟨(ho _ (List.mem_cons_self _ _)).1, rfl⟩
        (hdis idx (by simp))
        (fun q hq => by
          have := hlen q hq (idx, len) (List.mem_cons_self _ _)
          omega)
        hpw1
    obtain ⟨⟨hres, hcp⟩, hg, hp, _, _, _, _⟩ :=
      placeWordAt_ok_elim st idx (entries.getD idx default).answer r0 c0 d0 st1 hpw1
    have hndrest : (rest.map Prod.fst).Nodup := by
      simp only [List.map_cons, List.nodup_cons] at hnd
      exact hnd.2
    have hidxnotin : idx ∉ rest.map Prod.fst := by
      simp only [List.map_cons, List.nodup_cons] at hnd
      exact hnd.1
    have hresult := ih st1 st' hInv1
      (fun o ho' => ho o (List.mem_cons_of_mem _ ho'))
      hndrest
      (fun i hi hmem => by
        rw [hp, List.map_append] at hmem
        rcases List.mem_append.mp hmem with hm1 | hm2
        · exact hdis i (List.mem_cons_of_mem _ hi) hm1
        · rw [List.map_singleton, List.mem_singleton] at hm2
          subst hm2
          exact hidxnotin hi)
      (List.Pairwise.of_cons hpw)
      (fun q hq o ho' => by
        rw [hp] at hq
        rcases List.mem_append.mp hq with hq1 | hq2
        · exact hlen q hq1 o (List.mem_cons_of_mem _ ho')
        · rw [List.mem_singleton] at hq2
          subst hq2
          simp only
          rw [← hlen']
          rcases List.pairwise_cons.mp hpw with ⟨hhead, _⟩
          exact hhead o ho')
      hrest
    refine ⟨hresult.1, ?_⟩
    rw [hresult.2, hp, List.map_append, List.map_singleton]
    simp

theorem insertByLen_perm (x : Nat × Nat) :
    ∀ l : List (Nat × Nat), (insertByLen x l).Perm (x :: l) := by
  intro l
  induction l with
  | nil => simp [insertByLen]
  | cons y ys ih =>
    simp only [insertByLen]
    by_cases hc : y.2 ≤ x.2
    · rw [if_pos hc]
    · rw [if_neg hc]
      exact List.Perm.trans (List.Perm.cons y ih) (List.Perm.swap x y ys)

theorem sortByLenDesc_perm :
    ∀ l : List (Nat × Nat), (sortByLenDesc l).Perm l := by
  intro l
  induction l with
  | nil => simp [sortByLenDesc]
  | cons x xs ih =>
    simp only [sortByLenDesc, List.foldr_cons]
    exact List.Perm.trans (insertByLen_perm x _) (List.Perm.cons x ih)

theorem insertByLen_pairwise (x : Nat × Nat) :
    ∀ l : List (Nat × Nat), List.Pairwise (fun a b => b.2 ≤ a.2) l →
      List.Pairwise (fun a b => b.2 ≤ a.2) (insertByLen x l) := by
  intro l
  induction l with
  | nil => intro _; simp [insertByLen]
  | cons y ys ih =>
    intro hpw
    rcases List.pairwise_cons.mp hpw with ⟨hhead, htail⟩
    simp only [insertByLen]
    by_cases hc : y.2 ≤ x.2
    · rw [if_pos hc]
      refine List.pairwise_cons.mpr ⟨?_, hpw⟩
      intro z hz
      rcases List.mem_cons.mp hz with hz | hz
      · subst hz; exact hc
      · exact le_trans (hhead z hz) hc
    · rw [if_neg hc]
      refine List.pairwise_cons.mpr ⟨?_, ih htail⟩
      intro z hz
      have hz' := (insertByLen_perm x ys).mem_iff.mp hz
      rcases List.mem_cons.mp hz' with hz' | hz'
      · subst hz'; omega
      · exact hhead z hz'

theorem sortByLenDesc_pairwise :
    ∀ l : List (Nat × Nat), List.Pairwise (fun a b => b.2 ≤ a.2) (sortByLenDesc l) := by
  intro l
  induction l with
  | nil => simp [sortByLenDesc]
  | cons x xs ih =>
    simp only [sortByLenDesc, List.foldr_cons]
    exact insertByLen_pairwise x _ ih

theorem sortOrder_perm (entries : List Entry) :
    (sortOrder entries).Perm (entries.enum.map fun p => (p.1, p.2.answer.length)) :=
  sortByLenDesc_perm _

theorem sortOrder_pairwise (entries : List Entry) :
    List.Pairwise (fun a b => b.2 ≤ a.2) (sortOrder entries) :=
  sortByLenDesc_pairwise _

theorem sortOrder_fst_perm (entries : List Entry) :
    ((sortOrder entries).map Prod.fst).Perm (List.range entries.length) := by
  have h1 := (sortOrder_perm entries).map Prod.fst
  have h2 : (entries.enum.map fun p => (p.1, p.2.answer.length)).map Prod.fst =
      List.range entries.length := by
    rw [List.map_map]
    have : (Prod.fst ∘ fun p : Nat × Entry => (p.1, p.2.answer.length)) =
        Prod.fst := by
      funext p
      rfl
    rw [this, List.enum_map_fst]
  rw [h2] at h1
  exact h1

theorem sortOrder_fst_nodup (entries : List Entry) :
    ((sortOrder entries).map Prod.fst).Nodup :=
  (sortOrder_fst_perm entries).nodup_iff.mpr (List.nodup_range _)

theorem sortOrder_mem (entries : List Entry) (o : Nat × Nat)
    (ho : o ∈ sortOrder entries) :
    o.1 < entries.length ∧ o.2 = (entries.getD o.1 default).answer.length := by
  have hmem := (sortOrder_perm entries).mem_iff.mp ho
  rw [List.mem_map] at hmem
  obtain ⟨p, hp, heq⟩ := hmem
  rw [List.mem_enum_iff_getElem?] at hp
  subst heq
  simp only
  have hlt : p.1 < entries.length := by
    by_contra hge
    rw [List.getElem?_eq_none (by omega)] at hp
    cases hp
  refine ⟨hlt, ?_⟩
  rw [List.getElem?_eq_getElem hlt] at hp
  injection hp with hp
  rw [List.getD_eq_getElem entries default hlt, hp]

theorem Inv_init (entries : List Entry) : Inv entries ⟨[], [], 0, 0, 0, 0⟩ := by
  constructor
  · simp
  · intro p hp
    cases hp
  · intro r c hrc
    simp [hasCell, mapGet] at hrc
  · intro p hp
    cases hp
  · simp
  · intro p hp
    cases hp
  · intro r a b hr hab
    have := hr.2.1 a (le_refl a) (by omega)
    simp [hasCell, mapGet] at this
  · intro c a b hr hab
    have := hr.2.1 a (le_refl a) (by omega)
    simp [hasCell, mapGet] at this

theorem buildGrid_inv (entries : List Entry) (st' : GridState)
    (h : buildGrid entries = Except.ok st') :
    Inv entries st' ∧
      st'.placed.map Placement.index = (sortOrder entries).map Prod.fst := by
  unfold buildGrid at h
  cases hso : sortOrder entries with
  | nil =>
    rw [hso] at h
    cases h
  | cons first rest =>
    rw [hso] at h
    dsimp only at h
    cases hseed : placeWordAt ⟨[], [], 0, 0, 0, 0⟩ first.1
        (entries.getD first.1 default).answer 0 0 Dir.across with
    | error e =>
      rw [hseed] at h
      exact Except.noConfusion h
    | ok st1 =>
      rw [hseed] at h
      have hmemfirst : first ∈ sortOrder entries := by
        rw [hso]
        exact List.mem_cons_self _ _
      have hfirst := sortOrder_mem entries first hmemfirst
      have hInv1 := Inv_step entries ⟨[], [], 0, 0, 0, 0⟩ st1 first.1
        (entries.getD first.1 default).answer 0 0 Dir.across (Inv_init entries)
        ⟨hfirst.1, rfl⟩ (by simp) (by intro q hq; cases hq) hseed
      obtain ⟨_, _, hp1, _, _, _, _⟩ :=
        placeWordAt_ok_elim ⟨[], [], 0, 0, 0, 0⟩ first.1
          (entries.getD first.1 default).answer 0 0 Dir.across st1 hseed
      have hpw := sortOrder_pairwise entries
      rw [hso] at hpw
      rcases List.pairwise_cons.mp hpw with ⟨hpwhead, hpwtail⟩
      have hnd := sortOrder_fst_nodup entries
      rw [hso, List.map_cons, List.nodup_cons] at hnd
      have hloop := placeLoop_inv entries rest st1 st' hInv1
        (fun o ho' => sortOrder_mem entries o (by rw [hso]; exact List.mem_cons_of_mem _ ho'))
        hnd.2
        (fun i hi hmem => by
          rw [hp1] at hmem
          simp only [List.nil_append, List.map_singleton, List.mem_singleton] at hmem
          subst hmem
          exact hnd.1 hi)
        hpwtail
        (fun q hq o ho' => by
          rw [hp1] at hq
          simp only [List.nil_append, List.mem_singleton] at hq
          subst hq
          simp only
          rw [← hfirst.2]
          exact hpwhead o ho')
        h
      refine ⟨hloop.1, ?_⟩
      rw [hloop.2, hp1]
      simp only [List.nil_append, List.map_singleton, List.map_cons]
      rfl

theorem buildGrid_indices_cover (entries : List Entry) (st' : GridState)
    (h : buildGrid entries = Except.ok st') :
    ∀ i, i < entries.length → i ∈ st'.placed.map Placement.index := by
  intro i hi
  rw [(buildGrid_inv entries st' h).2]
  exact (sortOrder_fst_perm entries).mem_iff.mpr (List.mem_range.mpr hi)

theorem skGet_eq_none_iff (m : List (StartKey × Nat)) (k : StartKey) :
    skGet m k = none ↔ k ∉ m.map Prod.fst := by
  induction m with
  | nil => simp [skGet]
  | cons p rest ih =>
    rcases p with ⟨k0, v0⟩
    by_cases hk : k0 = k
    · subst hk
      simp [skGet]
    · simp [skGet, hk, ih, Ne.symm hk]

theorem buildStartMap_ok_nodup (mnR mnC : Int) :
    ∀ (ps : List Placement) (m stm : List (StartKey × Nat)),
      (m.map Prod.fst).Nodup →
      buildStartMap mnR mnC ps m = Except.ok stm →
      ((m.map Prod.fst) ++
        ps.map (fun p => ((p.row - mnR, p.col - mnC, p.dir) : StartKey))).Nodup := by
  intro ps
  induction ps with
  | nil =>
    intro m stm hm _
    simpa using hm
  | cons p rest ih =>
    intro m stm hm h
    simp only [buildStartMap] at h
    by_cases hk : (skGet m (p.row - mnR, p.col - mnC, p.dir)).isSome = true
    · rw [if_pos hk] at h
      cases h
    · rw [if_neg hk] at h
      have hknot : (p.row - mnR, p.col - mnC, p.dir) ∉ m.map Prod.fst := by
        rw [← skGet_eq_none_iff]
        cases hsk : skGet m (p.row - mnR, p.col - mnC, p.dir) with
        | none => rfl
        | some v => rw [hsk] at hk; simp at hk
      have hm' : ((m ++ [((p.row - mnR, p.col - mnC, p.dir), p.index)]).map
          Prod.fst).Nodup := by
        rw [List.map_append, List.map_singleton, List.nodup_append]
        refine ⟨hm, List.nodup_singleton _, ?_⟩
        intro a ha hak
        rw [List.mem_singleton] at hak
        subst hak
        exact hknot ha
      have := ih _ stm hm' h
      rw [List.map_append, List.map_singleton, List.append_assoc,
        List.singleton_append] at this
      simpa using this

theorem buildJson_error_of_startMap (entries : List Entry) (gi : GridState) (e : String)
    (h : buildStartMap gi.minRow gi.minCol gi.placed [] = Except.error e) :
    buildJson entries gi = Except.error e := by
  unfold buildJson
  rw [h]
  rfl

theorem distinct_answers_getD (entries : List Entry)
    (hdist : List.Pairwise (fun e1 e2 => e1.answer ≠ e2.answer) entries)
    (i j : Nat) (hi : i < entries.length) (hj : j < entries.length) (hij : i ≠ j) :
    (entries.getD i default).answer ≠ (entries.getD j default).answer := by
  rw [List.getD_eq_getElem entries default hi, List.getD_eq_getElem entries default hj]
  rw [List.pairwise_iff_getElem] at hdist
  rcases Nat.lt_or_ge i j with hlt | hge
  · exact hdist i j hi hj hlt
  · have hlt : j < i := by omega
    exact (hdist j i hj hi hlt).symm

/-- C3, amended: with pairwise-distinct answers no two committed
placements share a `(startRow, startCol, direction)` triple; and whenever
two placements do share a triple (possible with repeated answers),
`buildJson` aborts with an error while indexing the placements. -/
theorem C3_unique_starts_amended (entries : List Entry) :
    (∀ st : GridState,
      List.Pairwise (fun e1 e2 => e1.answer ≠ e2.answer) entries →
      buildGrid entries = Except.ok st →
      (st.placed.map fun p => (p.row, p.col, p.dir)).Nodup) ∧
    (∀ gi : GridState,
      ¬ (gi.placed.map fun p =>
          ((p.row - gi.minRow, p.col - gi.minCol, p.dir) : StartKey)).Nodup →
      ∃ e, buildJson entries gi = Except.error e) := by
  constructor
  · intro st hdist hgrid
    obtain ⟨hInv, _⟩ := buildGrid_inv entries st hgrid
    have hidx : st.placed.Pairwise (fun p q => p.index ≠ q.index) :=
      (List.pairwise_map).mp hInv.idx
    rw [List.Nodup, List.pairwise_map]
    refine List.Pairwise.imp_of_mem ?_ hidx
    intro p q hp hq hne heq
    simp only [Prod.mk.injEq] at heq
    have hans : p.answer = q.answer :=
      hInv.sameStart p hp q hq heq.1 heq.2.1 heq.2.2
    obtain ⟨hpi, hpa⟩ := hInv.link p hp
    obtain ⟨hqi, hqa⟩ := hInv.link q hq
    apply distinct_answers_getD entries hdist p.index q.index hpi hqi hne
    rw [← hpa, ← hqa]
    exact hans
  · intro gi hcoll
    cases hbsm : buildStartMap gi.minRow gi.minCol gi.placed [] with
    | error e => exact ⟨e, buildJson_error_of_startMap entries gi e hbsm⟩
    | ok stm =>
      exfalso
      apply hcoll
      have := buildStartMap_ok_nodup gi.minRow gi.minCol gi.placed [] stm (by simp) hbsm
      simpa using this

/-- Witness for `C3_unique_starts_amended`: the singleton `CAT` build has
no-collision placements, and the duplicated-`AB` grid state aborts. -/
theorem C3_unique_starts_amended_witness :
    (catSeedState.placed.map fun p => (p.row, p.col, p.dir)).Nodup ∧
    (∃ e, buildJson [catEntry]
        ⟨[((0, 0), 'A'), ((0, 1), 'B')],
         [⟨0, 0, 0, .across, "AB".data⟩, ⟨1, 0, 0, .across, "AB".data⟩],
         0, 0, 0, 1⟩ = Except.error e) :=
  ⟨(C3_unique_starts_amended [catEntry]).1 catSeedState (by simp) rfl,
   (C3_unique_starts_amended [catEntry]).2 _ (by decide)⟩

theorem mapGet_foldl_shift (mnR mnC : Int) :
    ∀ (g : List (Coord × Char)) (m : List (Coord × Char)) (r c : Int),
      (g.map Prod.fst).Nodup →
      mapGet (g.foldl (fun m p => mapSet m (p.1.1 - mnR, p.1.2 - mnC) p.2) m) (r, c) =
        (match mapGet g (r + mnR, c + mnC) with
         | some v => some v
         | none => mapGet m (r, c)) := by
  intro g
  induction g with
  | nil =>
    intro m r c _
    rfl
  | cons p rest ih =>
    rcases p with ⟨⟨pr, pc⟩, pv⟩
    intro m r c hnd
    simp only [List.map_cons, List.nodup_cons] at hnd
    simp only [List.foldl_cons]
    rw [ih _ r c hnd.2]
    by_cases hk : (pr, pc) = (r + mnR, c + mnC)
    · have hrc : pr = r + mnR ∧ pc = c + mnC := by
        simpa [Prod.ext_iff] using hk
      have hg1 : mapGet ((( pr, pc), pv) :: rest) (r + mnR, c + mnC) = some pv := by
        simp only [mapGet, if_pos hk]
      rw [hg1]
      have hrest : mapGet rest (r + mnR, c + mnC) = none := by
        rw [mapGet_eq_none_iff]
        rw [← hk]
        exact hnd.1
      rw [hrest]
      have hkey : ((pr - mnR, pc - mnC) : Coord) = (r, c) := by
        rcases hrc with ⟨h1, h2⟩
        simp [Prod.ext_iff]
        omega
      rw [hkey, mapGet_mapSet_self]
    · have hg1 : mapGet (((pr, pc), pv) :: rest) (r + mnR, c + mnC) =
          mapGet rest (r + mnR, c + mnC) := by
        simp only [mapGet, if_neg hk]
      rw [hg1]
      cases hrest : mapGet rest (r + mnR, c + mnC) with
      | some v => rfl
      | none =>
        have hkne : ((pr - mnR, pc - mnC) : Coord) ≠ (r, c) := by
          intro hc
          apply hk
          simp only [Prod.ext_iff] at hc ⊢
          omega
        rw [mapGet_mapSet_ne _ _ _ _ (Ne.symm hkne)]

theorem mapGet_letterAtOf (g : List (Coord × Char)) (mnR mnC : Int)
    (hnd : (g.map Prod.fst).Nodup) (r c : Int) :
    mapGet (letterAtOf g mnR mnC) (r, c) = mapGet g (r + mnR, c + mnC) := by
  unfold letterAtOf
  rw [mapGet_foldl_shift mnR mnC g [] r c hnd]
  cases mapGet g (r + mnR, c + mnC) <;> rfl

theorem takeRun_across_spec (letterAt : List (Coord × Char)) (rows cols : Int) (r : Int) :
    ∀ (L : Nat) (c : Int) (fuel : Nat), L < fuel →
      0 ≤ r → r < rows → 0 ≤ c → c + L ≤ cols →
      (∀ i : Nat, i < L → hasLetterB letterAt r (c + i) = true) →
      (hasLetterB letterAt r (c + L) = false ∨ cols ≤ c + L) →
      takeRun letterAt rows cols Dir.across fuel r c =
        (List.range L).map fun i : Nat => (⟨r, c + (i : Int)⟩ : CellRef) := by
  intro L
  induction L with
  | zero =>
    intro c fuel hfuel hr0 hr1 hc0 hcL hcells hstop
    cases fuel with
    | zero => omega
    | succ fuel' =>
      simp only [takeRun, List.range_zero, List.map_nil]
      rw [if_neg]
      simp only [Bool.and_eq_true, not_and, decide_eq_true_eq]
      intro hbounds hlet
      rcases hstop with hs | hs
      · have hs' : hasLetterB letterAt r c = false := by simpa using hs
        rw [hlet] at hs'
        cases hs'
      · push_cast at hs
        omega
  | succ L' ih =>
    intro c fuel hfuel hr0 hr1 hc0 hcL hcells hstop
    cases fuel with
    | zero => omega
    | succ fuel' =>
      simp only [takeRun]
      rw [if_pos]
      · have hrec := ih (c + 1) fuel' (by omega) hr0 hr1 (by omega) (by omega)
          (fun i hi => by
            have := hcells (i + 1) (by omega)
            have harith : c + ((i : Int) + 1) = c + 1 + i := by omega
            rw [← harith]
            simpa using this)
          (by
            rcases hstop with hs | hs
            · left
              have harith : c + 1 + (L' : Int) = c + ((L' : Int) + 1) := by omega
              rw [harith]
              simpa using hs
            · right
              omega)
        rw [hrec]
        rw [List.range_succ_eq_map, List.map_cons, List.map_map]
        congr 1
        · simp
        · apply List.map_congr_left
          intro i _
          simp only [Function.comp_def, Nat.succ_eq_add_one]
          congr 1 <;> push_cast <;> omega
      · simp only [Bool.and_eq_true, decide_eq_true_eq]
        refine ⟨⟨⟨⟨by omega, by omega⟩, by omega⟩, by omega⟩, ?_⟩
        have := hcells 0 (by omega)
        simpa using this

theorem takeRun_down_spec (letterAt : List (Coord × Char)) (rows cols : Int) (c : Int) :
    ∀ (L : Nat) (r : Int) (fuel : Nat), L < fuel →
      0 ≤ c → c < cols → 0 ≤ r → r + L ≤ rows →
      (∀ i : Nat, i < L → hasLetterB letterAt (r + i) c = true) →
      (hasLetterB letterAt (r + L) c = false ∨ rows ≤ r + L) →
      takeRun letterAt rows cols Dir.down fuel r c =
        (List.range L).map fun i : Nat => (⟨r + (i : Int), c⟩ : CellRef) := by
  intro L
  induction L with
  | zero =>
    intro r fuel hfuel hc0 hc1 hr0 hrL hcells hstop
    cases fuel with
    | zero => omega
    | succ fuel' =>
      simp only [takeRun, List.range_zero, List.map_nil]
      rw [if_neg]
      simp only [Bool.and_eq_true, not_and, decide_eq_true_eq]
      intro hbounds hlet
      rcases hstop with hs | hs
      · have hs' : hasLetterB letterAt r c = false := by simpa using hs
        rw [hlet] at hs'
        cases hs'
      · push_cast at hs
        omega
  | succ L' ih =>
    intro r fuel hfuel hc0 hc1 hr0 hrL hcells hstop
    cases fuel with
    | zero => omega
    | succ fuel' =>
      simp only [takeRun]
      rw [if_pos]
      · have hrec := ih (r + 1) fuel' (by omega) hc0 hc1 (by omega) (by omega)
          (fun i hi => by
            have := hcells (i + 1) (by omega)
            have harith : r + ((i : Int) + 1) = r + 1 + i := by omega
            rw [← harith]
            simpa using this)
          (by
            rcases hstop with hs | hs
            · left
              have harith : r + 1 + (L' : Int) = r + ((L' : Int) + 1) := by omega
              rw [harith]
              simpa using hs
            · right
              omega)
        rw [hrec]
        rw [List.range_succ_eq_map, List.map_cons, List.map_map]
        congr 1
        · simp
        · apply List.map_congr_left
          intro i _
          simp only [Function.comp_def, Nat.succ_eq_add_one]
          congr 1 <;> push_cast <;> omega
      · simp only [Bool.and_eq_true, decide_eq_true_eq]
        refine ⟨⟨⟨⟨by omega, by omega⟩, by omega⟩, by omega⟩, ?_⟩
        have := hcells 0 (by omega)
        simpa using this

theorem assignNumber_frame (ss : ScanState) (r c : Int) :
    (assignNumber ss r c).2.acrossClues = ss.acrossClues ∧
      (assignNumber ss r c).2.downClues = ss.downClues ∧
      (assignNumber ss r c).2.used = ss.used := by
  unfold assignNumber
  cases numGet ss.numbered (r, c) <;> simp

theorem scanCell_across_prov (entries : List Entry) (letterAt : List (Coord × Char))
    (stm : List (StartKey × Nat)) (rows cols : Int) (ss ss' : ScanState)
    (rc : Int × Int) (h : scanCell entries letterAt stm rows cols ss rc = Except.ok ss') :
    ∀ cl ∈ ss'.acrossClues, cl ∈ ss.acrossClues ∨
      (hasLetterB letterAt rc.1 rc.2 = true ∧
        startsAcrossP letterAt rc.1 rc.2 ∧
        ∃ idx, skGet stm (rc.1, rc.2, Dir.across) = some idx ∧
          cl.text = (entries.getD idx default).clue ∧
          cl.cells = takeRun letterAt rows cols Dir.across
            (rows.toNat + cols.toNat + 1) rc.1 rc.2) := by
  intro cl hcl
  unfold scanCell at h
  by_cases h0 : hasLetterB letterAt rc.1 rc.2 = true
  · rw [if_neg (by simpa using h0)] at h
    by_cases hsa : startsAcrossP letterAt rc.1 rc.2
    · rw [if_neg (by simp only [startsAcrossP] at hsa; tauto)] at h
      dsimp only at h
      rcases hsa with ⟨hsa1, hsa2⟩
      rw [if_pos ⟨hsa1, hsa2⟩] at h
      cases hlook : skGet stm (rc.1, rc.2, Dir.across) with
      | none =>
        rw [hlook] at h
        cases h
      | some idx =>
        rw [hlook] at h
        dsimp only at h
        by_cases hsd : startsDownP letterAt rc.1 rc.2
        · rcases hsd with ⟨hsd1, hsd2⟩
          rw [if_pos ⟨hsd1, hsd2⟩] at h
          cases hlookd : skGet stm (rc.1, rc.2, Dir.down) with
          | none =>
            rw [hlookd] at h
            cases h
          | some idxd =>
            rw [hlookd] at h
            injection h with h
            subst h
            simp only [List.mem_append, List.mem_singleton] at hcl
            rcases hcl with hcl | hcl
            · rw [(assignNumber_frame ss rc.1 rc.2).1] at hcl
              exact Or.inl hcl
            · subst hcl
              exact Or.inr ⟨h0, ⟨hsa1, hsa2⟩, idx, rfl, rfl, rfl⟩
        · rw [if_neg (by simp only [startsDownP] at hsd ⊢; tauto)] at h
          injection h with h
          subst h
          simp only [List.mem_append, List.mem_singleton] at hcl
          rcases hcl with hcl | hcl
          · rw [(assignNumber_frame ss rc.1 rc.2).1] at hcl
            exact Or.inl hcl
          · subst hcl
            exact Or.inr ⟨h0, ⟨hsa1, hsa2⟩, idx, rfl, rfl, rfl⟩
    · rw [startsAcrossP] at hsa
      by_cases hsd : startsDownP letterAt rc.1 rc.2
      · rw [if_neg (by simp only [startsDownP] at hsd; tauto)] at h
        dsimp only at h
        rw [if_neg hsa] at h
        dsimp only at h
        rcases hsd with ⟨hsd1, hsd2⟩
        rw [if_pos ⟨hsd1, hsd2⟩] at h
        cases hlookd : skGet stm (rc.1, rc.2, Dir.down) with
        | none =>
          rw [hlookd] at h
          cases h
        | some idxd =>
          rw [hlookd] at h
          injection h with h
          subst h
          left
          have hcl2 : cl ∈ (assignNumber ss rc.1 rc.2).2.acrossClues := by simpa using hcl
          rw [(assignNumber_frame ss rc.1 rc.2).1] at hcl2
          exact hcl2
      · rw [if_pos ⟨fun hx => hsa (by tauto), fun hx => hsd (by simpa [startsDownP] using hx)⟩] at h
        injection h with h
        subst h
        exact Or.inl hcl
  · rw [if_pos (by simpa using h0)] at h
    injection h with h
    subst h
    exact Or.inl hcl

theorem scanCell_cases (entries : List Entry) (letterAt : List (Coord × Char))
    (stm : List (StartKey × Nat)) (rows cols : Int) (ss ss' : ScanState)
    (rc : Int × Int) (h : scanCell entries letterAt stm rows cols ss rc = Except.ok ss') :
    (ss' = ss) ∨
    (hasLetterB letterAt rc.1 rc.2 = true ∧ ∃ (num : Nat) (ea ed : Option Nat),
      (∀ i, ea = some i → startsAcrossP letterAt rc.1 rc.2 ∧
        skGet stm (rc.1, rc.2, Dir.across) = some i) ∧
      (∀ i, ed = some i → startsDownP letterAt rc.1 rc.2 ∧
        skGet stm (rc.1, rc.2, Dir.down) = some i) ∧
      ¬ (ea = none ∧ ed = none) ∧
      ss'.acrossClues = ss.acrossClues ++ (match ea with
        | some i => [⟨num, (entries.getD i default).clue,
            takeRun letterAt rows cols Dir.across (rows.toNat + cols.toNat + 1) rc.1 rc.2⟩]
        | none => []) ∧
      ss'.downClues = ss.downClues ++ (match ed with
        | some i => [⟨num, (entries.getD i default).clue,
            takeRun letterAt rows cols Dir.down (rows.toNat + cols.toNat + 1) rc.1 rc.2⟩]
        | none => []) ∧
      ss'.used = (match ed with
        | some i2 => setAdd (match ea with
            | some i1 => setAdd ss.used i1
            | none => ss.used) i2
        | none => match ea with
            | some i1 => setAdd ss.used i1
            | none => ss.used)) := by
  unfold scanCell at h
  by_cases h0 : hasLetterB letterAt rc.1 rc.2 = true
  · rw [if_neg (by simpa using h0)] at h
    obtain ⟨hfa, hfd, hfu⟩ := assignNumber_frame ss rc.1 rc.2
    by_cases hsa : startsAcrossP letterAt rc.1 rc.2
    · rw [if_neg (by simp only [startsAcrossP] at hsa; tauto)] at h
      dsimp only at h
      rcases hsa with ⟨hsa1, hsa2⟩
      rw [if_pos ⟨hsa1, hsa2⟩] at h
      cases hlook : skGet stm (rc.1, rc.2, Dir.across) with
      | none =>
        rw [hlook] at h
        cases h
      | some idx =>
        rw [hlook] at h
        dsimp only at h
        by_cases hsd : startsDownP letterAt rc.1 rc.2
        · rcases hsd with ⟨hsd1, hsd2⟩
          rw [if_pos ⟨hsd1, hsd2⟩] at h
          cases hlookd : skGet stm (rc.1, rc.2, Dir.down) with
          | none =>
            rw [hlookd] at h
            cases h
          | some idxd =>
            rw [hlookd] at h
            injection h with h
            subst h
            refine Or.inr ⟨h0, (assignNumber ss rc.1 rc.2).1, some idx, some idxd,
              ?_, ?_, by simp, ?_, ?_, ?_⟩
            · intro i hi
              injection hi with hi
              subst hi
              exact ⟨⟨hsa1, hsa2⟩, rfl⟩
            · intro i hi
              injection hi with hi
              subst hi
              exact ⟨⟨hsd1, hsd2⟩, rfl⟩
            · simp [hfa]
            · simp [hfd]
            · simp [hfu]
        · rw [if_neg (by simp only [startsDownP] at hsd ⊢; tauto)] at h
          injection h with h
          subst h
          refine Or.inr ⟨h0, (assignNumber ss rc.1 rc.2).1, some idx, none,
            ?_, by simp, by simp, ?_, ?_, ?_⟩
          · intro i hi
            injection hi with hi
            subst hi
            exact ⟨⟨hsa1, hsa2⟩, rfl⟩
          · simp [hfa]
          · simp [hfd]
          · simp [hfu]
    · rw [startsAcrossP] at hsa
      by_cases hsd : startsDownP letterAt rc.1 rc.2
      · rw [if_neg (by simp only [startsDownP] at hsd; tauto)] at h
        dsimp only at h
        rw [if_neg hsa] at h
        dsimp only at h
        rcases hsd with ⟨hsd1, hsd2⟩
        rw [if_pos ⟨hsd1, hsd2⟩] at h
        cases hlookd : skGet stm (rc.1, rc.2, Dir.down) with
        | none =>
          rw [hlookd] at h
          cases h
        | some idxd =>
          rw [hlookd] at h
          injection h with h
          subst h
          refine Or.inr ⟨h0, (assignNumber ss rc.1 rc.2).1, none, some idxd,
            by simp, ?_, by simp, ?_, ?_, ?_⟩
          · intro i hi
            injection hi with hi
            subst hi
            exact ⟨⟨hsd1, hsd2⟩, rfl⟩
          · simp [hfa]
          · simp [hfd]
          · simp [hfu]
      · rw [if_pos ⟨fun hx => hsa (by tauto),
          fun hx => hsd (by simpa [startsDownP] using hx)⟩] at h
        injection h with h
        subst h
        exact Or.inl rfl
  · rw [if_pos (by simpa using h0)] at h
    injection h with h
    subst h
    exact Or.inl rfl

theorem mem_setAdd (s : List Nat) (x i : Nat) :
    i ∈ setAdd s x ↔ i ∈ s ∨ i = x := by
  unfold setAdd
  by_cases hx : x ∈ s
  · rw [if_pos hx]
    constructor
    · exact Or.inl
    · rintro (h | h)
      · exact h
      · subst h; exact hx
  · rw [if_neg hx]
    simp

theorem setAdd_nodup (s : List Nat) (x : Nat) (h : s.Nodup) : (setAdd s x).Nodup := by
  unfold setAdd
  by_cases hx : x ∈ s
  · rw [if_pos hx]; exact h
  · rw [if_neg hx]
    rw [List.nodup_append]
    exact ⟨h, List.nodup_singleton x, by
      intro a ha hax
      rw [List.mem_singleton] at hax
      subst hax
      exact hx ha⟩

theorem setAdd_length_not_mem (s : List Nat) (x : Nat) (h : x ∉ s) :
    (setAdd s x).length = s.length + 1 := by
  unfold setAdd
  rw [if_neg h]
  simp

theorem scanCell_down_prov (entries : List Entry) (letterAt : List (Coord × Char))
    (stm : List (StartKey × Nat)) (rows cols : Int) (ss ss' : ScanState)
    (rc : Int × Int) (h : scanCell entries letterAt stm rows cols ss rc = Except.ok ss') :
    ∀ cl ∈ ss'.downClues, cl ∈ ss.downClues ∨
      (hasLetterB letterAt rc.1 rc.2 = true ∧
        startsDownP letterAt rc.1 rc.2 ∧
        ∃ idx, skGet stm (rc.1, rc.2, Dir.down) = some idx ∧
          cl.text = (entries.getD idx default).clue ∧
          cl.cells = takeRun letterAt rows cols Dir.down
            (rows.toNat + cols.toNat + 1) rc.1 rc.2) := by
  intro cl hcl
  rcases scanCell_cases entries letterAt stm rows cols ss ss' rc h with heq |
    ⟨h0, num, ea, ed, hea, hed, _, _, hdown, _⟩
  · subst heq
    exact Or.inl hcl
  · rw [hdown] at hcl
    cases ed with
    | none =>
      simp only [List.append_nil] at hcl
      exact Or.inl hcl
    | some idxd =>
      simp only [List.mem_append, List.mem_singleton] at hcl
      rcases hcl with hcl | hcl
      · exact Or.inl hcl
      · subst hcl
        obtain ⟨hsd, hlook⟩ := hed idxd rfl
        exact Or.inr ⟨h0, hsd, idxd, hlook, rfl, rfl⟩

theorem scanCell_used_prov (entries : List Entry) (letterAt : List (Coord × Char))
    (stm : List (StartKey × Nat)) (rows cols : Int) (ss ss' : ScanState)
    (rc : Int × Int) (h : scanCell entries letterAt stm rows cols ss rc = Except.ok ss') :
    ∀ i ∈ ss'.used, i ∈ ss.used ∨
      (hasLetterB letterAt rc.1 rc.2 = true ∧
        ((startsAcrossP letterAt rc.1 rc.2 ∧
            skGet stm (rc.1, rc.2, Dir.across) = some i) ∨
          (startsDownP letterAt rc.1 rc.2 ∧
            skGet stm (rc.1, rc.2, Dir.down) = some i))) := by
  intro i hi
  rcases scanCell_cases entries letterAt stm rows cols ss ss' rc h with heq |
    ⟨h0, num, ea, ed, hea, hed, _, _, _, hused⟩
  · subst heq
    exact Or.inl hi
  · rw [hused] at hi
    cases ed with
    | none =>
      cases ea with
      | none => exact Or.inl hi
      | some idxa =>
        rw [mem_setAdd] at hi
        rcases hi with hi | hi
        · exact Or.inl hi
        · subst hi
          exact Or.inr ⟨h0, Or.inl (hea _ rfl)⟩
    | some idxd =>
      rw [mem_setAdd] at hi
      rcases hi with hi | hi
      · cases ea with
        | none => exact Or.inl hi
        | some idxa =>
          rw [mem_setAdd] at hi
          rcases hi with hi | hi
          · exact Or.inl hi
          · subst hi
            exact Or.inr ⟨h0, Or.inl (hea _ rfl)⟩
      · subst hi
        exact Or.inr ⟨h0, Or.inr (hed _ rfl)⟩

theorem scanAll_across_prov (entries : List Entry) (letterAt : List (Coord × Char))
    (stm : List (StartKey × Nat)) (rows cols : Int) :
    ∀ (coords : List (Int × Int)) (ss ss' : ScanState),
      scanAll entries letterAt stm rows cols coords ss = Except.ok ss' →
      ∀ cl ∈ ss'.acrossClues, cl ∈ ss.acrossClues ∨
        ∃ rc ∈ coords, hasLetterB letterAt rc.1 rc.2 = true ∧
          startsAcrossP letterAt rc.1 rc.2 ∧
          ∃ idx, skGet stm (rc.1, rc.2, Dir.across) = some idx ∧
            cl.text = (entries.getD idx default).clue ∧
            cl.cells = takeRun letterAt rows cols Dir.across
              (rows.toNat + cols.toNat + 1) rc.1 rc.2 := by
  intro coords
  induction coords with
  | nil =>
    intro ss ss' h cl hcl
    simp only [scanAll] at h
    injection h with h
    subst h
    exact Or.inl hcl
  | cons rc rest ih =>
    intro ss ss' h cl hcl
    simp only [scanAll] at h
    cases hsc : scanCell entries letterAt stm rows cols ss rc with
    | error e => rw [hsc] at h; exact Except.noConfusion h
    | ok ss1 =>
      rw [hsc] at h
      rcases ih ss1 ss' h cl hcl with hin | ⟨rc', hrc', hrest⟩
      · rcases scanCell_across_prov entries letterAt stm rows cols ss ss1 rc hsc cl hin with
          hold | hemit
        · exact Or.inl hold
        · exact Or.inr ⟨rc, List.mem_cons_self _ _, hemit⟩
      · exact Or.inr ⟨rc', List.mem_cons_of_mem _ hrc', hrest⟩

theorem scanAll_down_prov (entries : List Entry) (letterAt : List (Coord × Char))
    (stm : List (StartKey × Nat)) (rows cols : Int) :
    ∀ (coords : List (Int × Int)) (ss ss' : ScanState),
      scanAll entries letterAt stm rows cols coords ss = Except.ok ss' →
      ∀ cl ∈ ss'.downClues, cl ∈ ss.downClues ∨
        ∃ rc ∈ coords, hasLetterB letterAt rc.1 rc.2 = true ∧
          startsDownP letterAt rc.1 rc.2 ∧
          ∃ idx, skGet stm (rc.1, rc.2, Dir.down) = some idx ∧
            cl.text = (entries.getD idx default).clue ∧
            cl.cells = takeRun letterAt rows cols Dir.down
              (rows.toNat + cols.toNat + 1) rc.1 rc.2 := by
  intro coords
  induction coords with
  | nil =>
    intro ss ss' h cl hcl
    simp only [scanAll] at h
    injection h with h
    subst h
    exact Or.inl hcl
  | cons rc rest ih =>
    intro ss ss' h cl hcl
    simp only [scanAll] at h
    cases hsc : scanCell entries letterAt stm rows cols ss rc with
    | error e => rw [hsc] at h; exact Except.noConfusion h
    | ok ss1 =>
      rw [hsc] at h
      rcases ih ss1 ss' h cl hcl with hin | ⟨rc', hrc', hrest⟩
      · rcases scanCell_down_prov entries letterAt stm rows cols ss ss1 rc hsc cl hin with
          hold | hemit
        · exact Or.inl hold
        · exact Or.inr ⟨rc, List.mem_cons_self _ _, hemit⟩
      · exact Or.inr ⟨rc', List.mem_cons_of_mem _ hrc', hrest⟩

theorem scanAll_used_prov (entries : List Entry) (letterAt : List (Coord × Char))
    (stm : List (StartKey × Nat)) (rows cols : Int) :
    ∀ (coords : List (Int × Int)) (ss ss' : ScanState),
      scanAll entries letterAt stm rows cols coords ss = Except.ok ss' →
      ∀ i ∈ ss'.used, i ∈ ss.used ∨
        ∃ rc ∈ coords, hasLetterB letterAt rc.1 rc.2 = true ∧
          ((startsAcrossP letterAt rc.1 rc.2 ∧
              skGet stm (rc.1, rc.2, Dir.across) = some i) ∨
            (startsDownP letterAt rc.1 rc.2 ∧
              skGet stm (rc.1, rc.2, Dir.down) = some i)) := by
  intro coords
  induction coords with
  | nil =>
    intro ss ss' h i hi
    simp only [scanAll] at h
    injection h with h
    subst h
    exact Or.inl hi
  | cons rc rest ih =>
    intro ss ss' h i hi
    simp only [scanAll] at h
    cases hsc : scanCell entries letterAt stm rows cols ss rc with
    | error e => rw [hsc] at h; exact Except.noConfusion h
    | ok ss1 =>
      rw [hsc] at h
      rcases ih ss1 ss' h i hi with hin | ⟨rc', hrc', hrest⟩
      · rcases scanCell_used_prov entries letterAt stm rows cols ss ss1 rc hsc i hin with
          hold | hemit
        · exact Or.inl hold
        · exact Or.inr ⟨rc, List.mem_cons_self _ _, hemit⟩
      · exact Or.inr ⟨rc', List.mem_cons_of_mem _ hrc', hrest⟩

theorem skGet_mem (m : List (StartKey × Nat)) (k : StartKey) (v : Nat)
    (h : skGet m k = some v) : (k, v) ∈ m := by
  induction m with
  | nil => cases h
  | cons p rest ih =>
    rcases p with ⟨k0, v0⟩
    by_cases hk : k0 = k
    · subst hk
      simp only [skGet, if_pos rfl] at h
      injection h with h
      subst h
      exact List.mem_cons_self _ _
    · simp only [skGet, if_neg hk] at h
      exact List.mem_cons_of_mem _ (ih h)

theorem skGet_append_singleton (m : List (StartKey × Nat)) (k0 : StartKey) (v0 : Nat)
    (k : StartKey) :
    skGet (m ++ [(k0, v0)]) k =
      (match skGet m k with
       | some v => some v
       | none => if k0 = k then some v0 else none) := by
  induction m with
  | nil => rfl
  | cons p rest ih =>
    rcases p with ⟨k1, v1⟩
    by_cases hk : k1 = k
    · subst hk
      simp [skGet]
    · simp only [List.cons_append, skGet, if_neg hk]
      exact ih

theorem buildStartMap_values (mnR mnC : Int) :
    ∀ (ps : List Placement) (m stm : List (StartKey × Nat)),
      buildStartMap mnR mnC ps m = Except.ok stm →
      ∀ k i, skGet stm k = some i →
        skGet m k = some i ∨
          ∃ p ∈ ps, p.index = i ∧ k = ((p.row - mnR, p.col - mnC, p.dir) : StartKey) := by
  intro ps
  induction ps with
  | nil =>
    intro m stm h k i hk
    simp only [buildStartMap] at h
    injection h with h
    subst h
    exact Or.inl hk
  | cons p rest ih =>
    intro m stm h k i hk
    simp only [buildStartMap] at h
    by_cases hc : (skGet m (p.row - mnR, p.col - mnC, p.dir)).isSome = true
    · rw [if_pos hc] at h
      cases h
    · rw [if_neg hc] at h
      rcases ih _ stm h k i hk with hin | ⟨q, hq, h1, h2⟩
      · rw [skGet_append_singleton] at hin
        cases hm : skGet m k with
        | some v =>
          rw [hm] at hin
          exact Or.inl hin
        | none =>
          rw [hm] at hin
          by_cases hk0 : (p.row - mnR, p.col - mnC, p.dir) = k
          · rw [if_pos hk0] at hin
            injection hin with hin
            exact Or.inr ⟨p, List.mem_cons_self _ _, hin.symm ▸ rfl, hk0.symm⟩
          · rw [if_neg hk0] at hin
            cases hin
      · exact Or.inr ⟨q, List.mem_cons_of_mem _ hq, h1, h2⟩

theorem buildStartMap_snd (mnR mnC : Int) :
    ∀ (ps : List Placement) (m stm : List (StartKey × Nat)),
      buildStartMap mnR mnC ps m = Except.ok stm →
      stm.map Prod.snd = m.map Prod.snd ++ ps.map Placement.index := by
  intro ps
  induction ps with
  | nil =>
    intro m stm h
    simp only [buildStartMap] at h
    injection h with h
    subst h
    simp
  | cons p rest ih =>
    intro m stm h
    simp only [buildStartMap] at h
    by_cases hc : (skGet m (p.row - mnR, p.col - mnC, p.dir)).isSome = true
    · rw [if_pos hc] at h
      cases h
    · rw [if_neg hc] at h
      have := ih _ stm h
      rw [this, List.map_append, List.map_singleton, List.append_assoc,
        List.singleton_append, List.map_cons]

theorem skGet_inj_of_snd_nodup (stm : List (StartKey × Nat))
    (hnd : (stm.map Prod.snd).Nodup) :
    ∀ k1 k2 v, skGet stm k1 = some v → skGet stm k2 = some v → k1 = k2 := by
  intro k1 k2 v h1 h2
  have hm1 := skGet_mem stm k1 v h1
  have hm2 := skGet_mem stm k2 v h2
  have := List.inj_on_of_nodup_map hnd hm1 hm2 rfl
  exact congrArg Prod.fst this

theorem scanCell_counting (entries : List Entry) (letterAt : List (Coord × Char))
    (stm : List (StartKey × Nat)) (rows cols : Int) (ss ss' : ScanState)
    (rc : Int × Int)
    (hinj : ∀ k1 k2 v, skGet stm k1 = some v → skGet stm k2 = some v → k1 = k2)
    (hfresh : ∀ (d : Dir) (i : Nat), skGet stm (rc.1, rc.2, d) = some i → i ∉ ss.used)
    (hnd : ss.used.Nodup)
    (h : scanCell entries letterAt stm rows cols ss rc = Except.ok ss') :
    ss'.used.Nodup ∧
      ss'.used.length + ss.acrossClues.length + ss.downClues.length =
        ss.used.length + ss'.acrossClues.length + ss'.downClues.length ∧
      (∀ i ∈ ss'.used, i ∈ ss.used ∨ ∃ d, skGet stm (rc.1, rc.2, d) = some i) := by
  rcases scanCell_cases entries letterAt stm rows cols ss ss' rc h with heq |
    ⟨h0, num, ea, ed, hea, hed, hne, hacross, hdown, hused⟩
  · subst heq
    exact ⟨hnd, by omega, fun i hi => Or.inl hi⟩
  · cases ea with
    | none =>
      cases ed with
      | none =>
        exact absurd ⟨rfl, rfl⟩ hne
      | some idxd =>
        obtain ⟨_, hlookd⟩ := hed idxd rfl
        have hdnotin : idxd ∉ ss.used := hfresh Dir.down idxd hlookd
        refine ⟨?_, ?_, ?_⟩
        · rw [hused]
          exact setAdd_nodup _ _ hnd
        · rw [hused, hacross, hdown, setAdd_length_not_mem _ _ hdnotin]
          simp only [List.append_nil, List.length_append, List.length_singleton]
          omega
        · intro i hi
          rw [hused, mem_setAdd] at hi
          rcases hi with hi | hi
          · exact Or.inl hi
          · subst hi
            exact Or.inr ⟨Dir.down, hlookd⟩
    | some idxa =>
      obtain ⟨_, hlooka⟩ := hea idxa rfl
      have hanotin : idxa ∉ ss.used := hfresh Dir.across idxa hlooka
      cases ed with
      | none =>
        refine ⟨?_, ?_, ?_⟩
        · rw [hused]
          exact setAdd_nodup _ _ hnd
        · rw [hused, hacross, hdown, setAdd_length_not_mem _ _ hanotin]
          simp only [List.append_nil, List.length_append, List.length_singleton]
          omega
        · intro i hi
          rw [hused, mem_setAdd] at hi
          rcases hi with hi | hi
          · exact Or.inl hi
          · subst hi
            exact Or.inr ⟨Dir.across, hlooka⟩
      | some idxd =>
        obtain ⟨_, hlookd⟩ := hed idxd rfl
        have hdnotin : idxd ∉ ss.used := hfresh Dir.down idxd hlookd
        have hda : idxd ≠ idxa := by
          intro hdup
          subst hdup
          have := hinj _ _ _ hlooka hlookd
          simp only [Prod.mk.injEq] at this
          cases this.2.2
        refine ⟨?_, ?_, ?_⟩
        · rw [hused]
          exact setAdd_nodup _ _ (setAdd_nodup _ _ hnd)
        · rw [hused, hacross, hdown]
          rw [setAdd_length_not_mem _ _ (by
            rw [mem_setAdd]
            rintro (hc | hc)
            · exact hdnotin hc
            · exact hda hc)]
          rw [setAdd_length_not_mem _ _ hanotin]
          simp only [List.length_append, List.length_singleton]
          omega
        · intro i hi
          rw [hused, mem_setAdd, mem_setAdd] at hi
          rcases hi with (hi | hi) | hi
          · exact Or.inl hi
          · subst hi
            exact Or.inr ⟨Dir.across, hlooka⟩
          · subst hi
            exact Or.inr ⟨Dir.down, hlookd⟩

theorem scanAll_counting (entries : List Entry) (letterAt : List (Coord × Char))
    (stm : List (StartKey × Nat)) (rows cols : Int)
    (hinj : ∀ k1 k2 v, skGet stm k1 = some v → skGet stm k2 = some v → k1 = k2) :
    ∀ (coords : List (Int × Int)) (ss ss' : ScanState),
      coords.Nodup →
      scanAll entries letterAt stm rows cols coords ss = Except.ok ss' →
      ss.used.Nodup →
      (∀ i ∈ ss.used, ∃ rc : Int × Int, rc ∉ coords ∧
        ∃ d, skGet stm (rc.1, rc.2, d) = some i) →
      ss'.used.Nodup ∧
        ss'.used.length + ss.acrossClues.length + ss.downClues.length =
          ss.used.length + ss'.acrossClues.length + ss'.downClues.length := by
  intro coords
  induction coords with
  | nil =>
    intro ss ss' _ h hnd _
    simp only [scanAll] at h
    injection h with h
    subst h
    exact ⟨hnd, by omega⟩
  | cons rc rest ih =>
    intro ss ss' hcnd h hnd hsrc
    simp only [List.nodup_cons] at hcnd
    simp only [scanAll] at h
    cases hsc : scanCell entries letterAt stm rows cols ss rc with
    | error e => rw [hsc] at h; exact Except.noConfusion h
    | ok ss1 =>
      rw [hsc] at h
      have hfresh : ∀ (d : Dir) (i : Nat), skGet stm (rc.1, rc.2, d) = some i →
          i ∉ ss.used := by
        intro d i hlook hiu
        obtain ⟨rc', hrc', d', hlook'⟩ := hsrc i hiu
        have := hinj _ _ _ hlook hlook'
        simp only [Prod.mk.injEq] at this
        apply hrc'
        have : rc' = rc := by
          rcases this with ⟨h1, h2, _⟩
          rcases rc with ⟨r1, c1⟩
          rcases rc' with ⟨r2, c2⟩
          simp only at h1 h2
          simp [h1, h2]
        rw [this]
        exact List.mem_cons_self _ _
      obtain ⟨hnd1, hbal1, hsrc1⟩ :=
        scanCell_counting entries letterAt stm rows cols ss ss1 rc hinj hfresh hnd hsc
      have hsrc1' : ∀ i ∈ ss1.used, ∃ rc' : Int × Int, rc' ∉ rest ∧
          ∃ d, skGet stm (rc'.1, rc'.2, d) = some i := by
        intro i hi
        rcases hsrc1 i hi with hin | ⟨d, hlook⟩
        · obtain ⟨rc', hrc', hd⟩ := hsrc i hin
          exact ⟨rc', fun hc => hrc' (List.mem_cons_of_mem _ hc), hd⟩
        · exact ⟨rc, hcnd.1, d, hlook⟩
      have := ih ss1 ss' hcnd.2 h hnd1 hsrc1'
      refine ⟨this.1, by omega⟩

theorem mem_coordFold (cols : Int) :
    ∀ (l : List Nat) (rc : Int × Int),
      rc ∈ l.foldr (fun r acc =>
          ((List.range cols.toNat).map fun c => (((r : Nat) : Int), ((c : Nat) : Int))) ++ acc)
        [] ↔
      ∃ rn ∈ l, ∃ cn, cn < cols.toNat ∧ rc = (((rn : Nat) : Int), ((cn : Nat) : Int)) := by
  intro l
  induction l with
  | nil => simp
  | cons r rest ih =>
    intro rc
    simp only [List.foldr_cons, List.mem_append, List.mem_map, List.mem_range, ih]
    constructor
    · rintro (⟨cn, hcn, heq⟩ | ⟨rn, hrn, cn, hcn, heq⟩)
      · exact ⟨r, List.mem_cons_self _ _, cn, hcn, heq.symm⟩
      · exact ⟨rn, List.mem_cons_of_mem _ hrn, cn, hcn, heq⟩
    · rintro ⟨rn, hrn, cn, hcn, heq⟩
      rcases List.mem_cons.mp hrn with hr | hr
      · subst hr
        exact Or.inl ⟨cn, hcn, heq.symm⟩
      · exact Or.inr ⟨rn, hr, cn, hcn, heq⟩

theorem mem_coordList (rows cols : Int) (rc : Int × Int) :
    rc ∈ coordList rows cols ↔
      ∃ rn, rn < rows.toNat ∧ ∃ cn, cn < cols.toNat ∧
        rc = (((rn : Nat) : Int), ((cn : Nat) : Int)) := by
  unfold coordList
  rw [mem_coordFold]
  constructor
  · rintro ⟨rn, hrn, cn, hcn, heq⟩
    exact ⟨rn, List.mem_range.mp hrn, cn, hcn, heq⟩
  · rintro ⟨rn, hrn, cn, hcn, heq⟩
    exact ⟨rn, List.mem_range.mpr hrn, cn, hcn, heq⟩

theorem coordFold_nodup (cols : Int) :
    ∀ (l : List Nat), l.Nodup →
      (l.foldr (fun r acc =>
          ((List.range cols.toNat).map fun c => (((r : Nat) : Int), ((c : Nat) : Int))) ++ acc)
        []).Nodup := by
  intro l
  induction l with
  | nil => intro _; simp
  | cons r rest ih =>
    intro hnd
    simp only [List.nodup_cons] at hnd
    simp only [List.foldr_cons]
    rw [List.nodup_append]
    refine ⟨?_, ih hnd.2, ?_⟩
    · refine List.Nodup.map ?_ (List.nodup_range _)
      intro c1 c2 heq
      simp only [Prod.mk.injEq] at heq
      omega
    · intro a ha hb
      rw [List.mem_map] at ha
      obtain ⟨cn, _, heq⟩ := ha
      rw [mem_coordFold] at hb
      obtain ⟨rn, hrn, cn', _, heq'⟩ := hb
      rw [← heq] at heq'
      simp only [Prod.mk.injEq] at heq'
      have : r = rn := by omega
      subst this
      exact hnd.1 hrn

theorem coordList_nodup (rows cols : Int) : (coordList rows cols).Nodup :=
  coordFold_nodup cols _ (List.nodup_range _)

theorem except_bind_ok {α β : Type} (a : α) (f : α → Except String β) :
    (Except.ok a >>= f) = f a := rfl

theorem buildJson_ok_elim (entries : List Entry) (gi : GridState) (P : Puzzle)
    (h : buildJson entries gi = Except.ok P) :
    ∃ stm ss,
      buildStartMap gi.minRow gi.minCol gi.placed [] = Except.ok stm ∧
      scanAll entries (letterAtOf gi.grid gi.minRow gi.minCol) stm
        (gi.maxRow - gi.minRow + 1) (gi.maxCol - gi.minCol + 1)
        (coordList (gi.maxRow - gi.minRow + 1) (gi.maxCol - gi.minCol + 1))
        ⟨1, [], [], [], []⟩ = Except.ok ss ∧
      ss.used.length = entries.length ∧
      P.cluesAcross = ss.acrossClues ∧
      P.cluesDown = ss.downClues ∧
      P.rows = gi.maxRow - gi.minRow + 1 ∧
      P.cols = gi.maxCol - gi.minCol + 1 ∧
      P.grid = mkGridJson (letterAtOf gi.grid gi.minRow gi.minCol) ss.numbered
        (gi.maxRow - gi.minRow + 1) (gi.maxCol - gi.minCol + 1) := by
  unfold buildJson at h
  cases hbsm : buildStartMap gi.minRow gi.minCol gi.placed [] with
  | error e =>
    rw [hbsm] at h
    exact Except.noConfusion h
  | ok stm =>
    rw [hbsm] at h
    rw [except_bind_ok] at h
    cases hscan : scanAll entries (letterAtOf gi.grid gi.minRow gi.minCol) stm
        (gi.maxRow - gi.minRow + 1) (gi.maxCol - gi.minCol + 1)
        (coordList (gi.maxRow - gi.minRow + 1) (gi.maxCol - gi.minCol + 1))
        ⟨1, [], [], [], []⟩ with
    | error e =>
      rw [hscan] at h
      exact Except.noConfusion h
    | ok ss =>
      rw [hscan] at h
      rw [except_bind_ok] at h
      by_cases hlen : ss.used.length ≠ entries.length
      · rw [if_pos hlen] at h
        exact Except.noConfusion h
      · rw [if_neg hlen] at h
        injection h with h
        subst h
        push_neg at hlen
        exact ⟨stm, ss, rfl, hscan, hlen, rfl, rfl, rfl, rfl, rfl⟩

theorem mem_of_nodup_subset_length (l : List Nat) (n : Nat) (hnd : l.Nodup)
    (hsub : ∀ i ∈ l, i < n) (hlen : l.length = n) : ∀ i, i < n → i ∈ l := by
  have hsp : l.Subperm (List.range n) :=
    List.subperm_of_subset hnd (fun i hi => List.mem_range.mpr (hsub i hi))
  have hperm : l.Perm (List.range n) := by
    apply hsp.perm_of_length_le
    simp [hlen]
  intro i hi
  exact hperm.mem_iff.mpr (List.mem_range.mpr hi)

theorem used_index_placed (entries : List Entry) (gi : GridState)
    (stm : List (StartKey × Nat)) (ss : ScanState)
    (hbsm : buildStartMap gi.minRow gi.minCol gi.placed [] = Except.ok stm)
    (hscan : scanAll entries (letterAtOf gi.grid gi.minRow gi.minCol) stm
        (gi.maxRow - gi.minRow + 1) (gi.maxCol - gi.minCol + 1)
        (coordList (gi.maxRow - gi.minRow + 1) (gi.maxCol - gi.minCol + 1))
        ⟨1, [], [], [], []⟩ = Except.ok ss) :
    ∀ i ∈ ss.used, ∃ p ∈ gi.placed, p.index = i := by
  intro i hi
  rcases scanAll_used_prov entries (letterAtOf gi.grid gi.minRow gi.minCol) stm
      (gi.maxRow - gi.minRow + 1) (gi.maxCol - gi.minCol + 1) _ _ _ hscan i hi with
    hnil | ⟨rc, _, _, hcase⟩
  · simp at hnil
  · have hlook : ∃ d, skGet stm (rc.1, rc.2, d) = some i := by
      rcases hcase with ⟨_, h⟩ | ⟨_, h⟩
      · exact ⟨Dir.across, h⟩
      · exact ⟨Dir.down, h⟩
    obtain ⟨d, hlook⟩ := hlook
    rcases buildStartMap_values gi.minRow gi.minCol gi.placed [] stm hbsm _ i hlook with
      hnil | ⟨p, hp, hpi, _⟩
    · cases hnil
    · exact ⟨p, hp, hpi⟩

theorem buildJson_coverage_error (entries : List Entry) (gi : GridState)
    (stm : List (StartKey × Nat)) (ss : ScanState)
    (hbsm : buildStartMap gi.minRow gi.minCol gi.placed [] = Except.ok stm)
    (hscan : scanAll entries (letterAtOf gi.grid gi.minRow gi.minCol) stm
        (gi.maxRow - gi.minRow + 1) (gi.maxCol - gi.minCol + 1)
        (coordList (gi.maxRow - gi.minRow + 1) (gi.maxCol - gi.minCol + 1))
        ⟨1, [], [], [], []⟩ = Except.ok ss)
    (hlen : ss.used.length ≠ entries.length) :
    buildJson entries gi =
      Except.error
        ("Not all CSV entries were used as clues. Missing: " ++
          String.intercalate ", " (missingNames entries ss.used)) := by
  unfold buildJson
  rw [hbsm, except_bind_ok, hscan, except_bind_ok, if_pos hlen]

theorem missingNames_mem (entries : List Entry) (used : List Nat) (i : Nat)
    (hi : i < entries.length) (hnot : i ∉ used) :
    (if (entries.getD i default).rawAnswer = "" then
        (entries.getD i default).answer.asString
      else (entries.getD i default).rawAnswer) ∈ missingNames entries used := by
  unfold missingNames
  apply List.mem_map.mpr
  refine ⟨i, ?_, rfl⟩
  simp [List.mem_filter, List.mem_range, hi, hnot]

/-- C6: the coverage check of `buildJson` (source lines 320–326).  If the
numbering scan matched fewer entries than the input has, the build throws
the validation error whose message lists, via `missingNames`, exactly the
answers whose index was never matched, and no puzzle is produced; if the
whole pipeline succeeds, the matched-index set is duplicate-free and is
exactly `{0, …, entries.length − 1}` — every entry matched — and the
number of emitted clues equals the number of entries (each entry is
referenced by exactly one clue), each clue carrying the clue text of its
entry. -/
theorem C6_coverage_validation (entries : List Entry) :
    (∀ (gi : GridState) (stm : List (StartKey × Nat)) (ss : ScanState),
        buildStartMap gi.minRow gi.minCol gi.placed [] = Except.ok stm →
        scanAll entries (letterAtOf gi.grid gi.minRow gi.minCol) stm
            (gi.maxRow - gi.minRow + 1) (gi.maxCol - gi.minCol + 1)
            (coordList (gi.maxRow - gi.minRow + 1) (gi.maxCol - gi.minCol + 1))
            ⟨1, [], [], [], []⟩ = Except.ok ss →
        ss.used.length ≠ entries.length →
        (buildJson entries gi =
            Except.error
              ("Not all CSV entries were used as clues. Missing: " ++
                String.intercalate ", " (missingNames entries ss.used)) ∧
          ∀ i, i < entries.length → i ∉ ss.used →
            (if (entries.getD i default).rawAnswer = "" then
                (entries.getD i default).answer.asString
              else (entries.getD i default).rawAnswer) ∈
              missingNames entries ss.used)) ∧
    (∀ P, buildPuzzle entries = Except.ok P →
        ∃ used : List Nat, used.Nodup ∧
          (∀ i, i ∈ used ↔ i < entries.length) ∧
          P.cluesAcross.length + P.cluesDown.length = used.length ∧
          used.length = entries.length ∧
          ∀ cl ∈ P.cluesAcross ++ P.cluesDown,
            ∃ i, i < entries.length ∧ cl.text = (entries.getD i default).clue) := by
  constructor
  · intro gi stm ss hbsm hscan hlen
    exact ⟨buildJson_coverage_error entries gi stm ss hbsm hscan hlen,
      fun i hi hnot => missingNames_mem entries ss.used i hi hnot⟩
  · intro P h
    unfold buildPuzzle at h
    cases hbg : buildGrid entries with
    | error e => rw [hbg] at h; exact Except.noConfusion h
    | ok gi =>
      rw [hbg, except_bind_ok] at h
      obtain ⟨stm, ss, hbsm, hscan, hlen, hac, hdc, _, _, _⟩ :=
        buildJson_ok_elim entries gi P h
      have hinv := (buildGrid_inv entries gi hbg).1
      have hsnd : stm.map Prod.snd = gi.placed.map Placement.index := by
        have := buildStartMap_snd gi.minRow gi.minCol gi.placed [] stm hbsm
        simpa using this
      have hinj : ∀ k1 k2 v, skGet stm k1 = some v → skGet stm k2 = some v →
          k1 = k2 :=
        skGet_inj_of_snd_nodup stm (hsnd ▸ hinv.idx)
      have hcount := scanAll_counting entries
        (letterAtOf gi.grid gi.minRow gi.minCol) stm
        (gi.maxRow - gi.minRow + 1) (gi.maxCol - gi.minCol + 1) hinj
        (coordList (gi.maxRow - gi.minRow + 1) (gi.maxCol - gi.minCol + 1))
        ⟨1, [], [], [], []⟩ ss
        (coordList_nodup (gi.maxRow - gi.minRow + 1) (gi.maxCol - gi.minCol + 1))
        hscan (List.nodup_nil) (by intro i hi; simp at hi)
      have hsub : ∀ i ∈ ss.used, i < entries.length := by
        intro i hi
        obtain ⟨p, hp, hpi⟩ :=
          used_index_placed entries gi stm ss hbsm hscan i hi
        exact hpi ▸ (hinv.link p hp).1
      refine ⟨ss.used, hcount.1, ?_, ?_, hlen, ?_⟩
      · intro i
        constructor
        · exact hsub i
        · exact fun hi =>
            mem_of_nodup_subset_length ss.used entries.length hcount.1 hsub hlen i hi
      · have := hcount.2
        simp only [List.length_nil] at this
        rw [hac, hdc]
        omega
      · intro cl hcl
        rcases List.mem_append.mp hcl with hcl | hcl
        · rw [hac] at hcl
          rcases scanAll_across_prov entries (letterAtOf gi.grid gi.minRow gi.minCol)
              stm (gi.maxRow - gi.minRow + 1) (gi.maxCol - gi.minCol + 1) _ _ _
              hscan cl hcl with hnil | ⟨rc, _, _, _, idx, hlook, htext, _⟩
          · simp at hnil
          · rcases buildStartMap_values gi.minRow gi.minCol gi.placed [] stm hbsm
                _ idx hlook with hnil | ⟨p, hp, hpi, _⟩
            · cases hnil
            · exact ⟨idx, hpi ▸ (hinv.link p hp).1, htext⟩
        · rw [hdc] at hcl
          rcases scanAll_down_prov entries (letterAtOf gi.grid gi.minRow gi.minCol)
              stm (gi.maxRow - gi.minRow + 1) (gi.maxCol - gi.minCol + 1) _ _ _
              hscan cl hcl with hnil | ⟨rc, _, _, _, idx, hlook, htext, _⟩
          · simp at hnil
          · rcases buildStartMap_values gi.minRow gi.minCol gi.placed [] stm hbsm
                _ idx hlook with hnil | ⟨p, hp, hpi, _⟩
            · cases hnil
            · exact ⟨idx, hpi ▸ (hinv.link p hp).1, htext⟩

/-- Witness for `C6_coverage_validation`: a one-letter grid against a
two-entry list throws the coverage error naming both answers, and the
successful `CAT` / `ACE` build matches both entries with one clue each. -/
theorem C6_coverage_validation_witness :
    (buildJson [⟨"A".data, "ca", "A"⟩, ⟨"B".data, "cb", "B"⟩]
        ⟨[((0, 0), 'A')], [⟨0, 0, 0, Dir.across, "A".data⟩], 0, 0, 0, 0⟩ =
      Except.error
        ("Not all CSV entries were used as clues. Missing: " ++
          String.intercalate ", "
            (missingNames [⟨"A".data, "ca", "A"⟩, ⟨"B".data, "cb", "B"⟩] []))) ∧
    (∃ used : List Nat, used.Nodup ∧
      (∀ i, i ∈ used ↔ i < ([catEntry, aceEntry] : List Entry).length) ∧
      catAcePuzzle.cluesAcross.length + catAcePuzzle.cluesDown.length = used.length ∧
      used.length = ([catEntry, aceEntry] : List Entry).length ∧
      ∀ cl ∈ catAcePuzzle.cluesAcross ++ catAcePuzzle.cluesDown,
        ∃ i, i < ([catEntry, aceEntry] : List Entry).length ∧
          cl.text = (([catEntry, aceEntry] : List Entry).getD i default).clue) :=
  ⟨((C6_coverage_validation [⟨"A".data, "ca", "A"⟩, ⟨"B".data, "cb", "B"⟩]).1
      ⟨[((0, 0), 'A')], [⟨0, 0, 0, Dir.across, "A".data⟩], 0, 0, 0, 0⟩
      [((0, 0, Dir.across), 0)] ⟨1, [], [], [], []⟩ rfl rfl (by decide)).1,
    (C6_coverage_validation [catEntry, aceEntry]).2 catAcePuzzle rfl⟩

theorem run_extend_right (f : Int → Bool) (hi : Int)
    (hbound : ∀ x, f x = true → x ≤ hi) :
    ∀ (n : Nat) (x0 : Int), f x0 = true → (hi - x0).toNat ≤ n →
      ∃ b, x0 ≤ b ∧ (∀ y, x0 ≤ y → y ≤ b → f y = true) ∧ f (b + 1) = false := by
  intro n
  induction n with
  | zero =>
    intro x0 hx0 hn
    refine ⟨x0, le_refl _, ?_, ?_⟩
    · intro y h1 h2
      have hy : y = x0 := le_antisymm h2 h1
      rw [hy]; exact hx0
    · cases hfx : f (x0 + 1) with
      | false => rfl
      | true =>
        exfalso
        have h1 := hbound _ hx0
        have h2 := hbound _ hfx
        omega
  | succ n ih =>
    intro x0 hx0 hn
    cases hfx : f (x0 + 1) with
    | false =>
      refine ⟨x0, le_refl _, ?_, hfx⟩
      intro y h1 h2
      have hy : y = x0 := le_antisymm h2 h1
      rw [hy]; exact hx0
    | true =>
      have hb := hbound _ hfx
      obtain ⟨b, hb1, hb2, hb3⟩ := ih (x0 + 1) hfx (by omega)
      refine ⟨b, by omega, ?_, hb3⟩
      intro y h1 h2
      by_cases hy : y = x0
      · rw [hy]; exact hx0
      · exact hb2 y (by omega) h2

theorem hasLetterB_letterAtOf (g : List (Coord × Char)) (mnR mnC : Int)
    (hnd : (g.map Prod.fst).Nodup) (r c : Int) :
    hasLetterB (letterAtOf g mnR mnC) r c = hasCell g (r + mnR) (c + mnC) := by
  unfold hasLetterB hasCell
  rw [mapGet_letterAtOf g mnR mnC hnd r c]

theorem placed_index_unique (ps : List Placement)
    (hidx : (ps.map Placement.index).Nodup) (p q : Placement)
    (hp : p ∈ ps) (hq : q ∈ ps) (h : p.index = q.index) : p = q :=
  List.inj_on_of_nodup_map hidx hp hq h

theorem across_start_facts (entries : List Entry) (gi : GridState)
    (hinv : Inv entries gi) (p : Placement) (hp : p ∈ gi.placed)
    (hdir : p.dir = Dir.across)
    (hlet : hasLetterB (letterAtOf gi.grid gi.minRow gi.minCol)
      (p.row - gi.minRow) (p.col - gi.minCol) = true)
    (hstart : startsAcrossP (letterAtOf gi.grid gi.minRow gi.minCol)
      (p.row - gi.minRow) (p.col - gi.minCol)) :
    2 ≤ p.answer.length ∧
      hasCell gi.grid p.row (p.col + (p.answer.length : Int)) = false ∧
      hasCell gi.grid p.row (p.col - 1) = false := by
  obtain ⟨hsl, hsr⟩ := hstart
  rw [hasLetterB_letterAtOf _ _ _ hinv.keys] at hsl hsr hlet
  have e0 : p.row - gi.minRow + gi.minRow = p.row := by ring
  have e1 : p.col - gi.minCol + gi.minCol = p.col := by ring
  have e2 : p.col - gi.minCol - 1 + gi.minCol = p.col - 1 := by ring
  have e3 : p.col - gi.minCol + 1 + gi.minCol = p.col + 1 := by ring
  rw [e0, e2] at hsl
  rw [e0, e3] at hsr
  rw [e0, e1] at hlet
  have hleft : hasCell gi.grid p.row (p.col - 1) = false := by
    cases hv : hasCell gi.grid p.row (p.col - 1) with
    | false => rfl
    | true => exact absurd hv hsl
  have hbound : ∀ x, (fun x => hasCell gi.grid p.row x) x = true → x ≤ gi.maxCol :=
    fun x hx => (hinv.bounds p.row x hx).2.2.2
  obtain ⟨b, hb1, hb2, hb3⟩ :=
    run_extend_right (fun x => hasCell gi.grid p.row x) gi.maxCol hbound
      (gi.maxCol - p.col).toNat p.col hlet (le_refl _)
  have hblt : p.col + 1 ≤ b := by
    by_contra hblt
    have hbe : b = p.col := by omega
    rw [hbe] at hb3
    rw [hb3] at hsr
    cases hsr
  have hrun : isRunOn (fun x => hasCell gi.grid p.row x) p.col b :=
    ⟨hb1, hb2, hleft, hb3⟩
  obtain ⟨q, hq, hqdir, hqrow, hqcol, hqlen⟩ :=
    hinv.runsH p.row p.col b hrun (by omega)
  have hans : p.answer = q.answer :=
    hinv.sameStart p hp q hq hqrow.symm hqcol.symm (hdir.trans hqdir.symm)
  have hlen : (p.answer.length : Int) = b - p.col + 1 := by
    rw [hans]; exact hqlen
  refine ⟨by omega, ?_, hleft⟩
  have hb4 : p.col + (p.answer.length : Int) = b + 1 := by omega
  rw [hb4]
  exact hb3

theorem down_start_facts (entries : List Entry) (gi : GridState)
    (hinv : Inv entries gi) (p : Placement) (hp : p ∈ gi.placed)
    (hdir : p.dir = Dir.down)
    (hlet : hasLetterB (letterAtOf gi.grid gi.minRow gi.minCol)
      (p.row - gi.minRow) (p.col - gi.minCol) = true)
    (hstart : startsDownP (letterAtOf gi.grid gi.minRow gi.minCol)
      (p.row - gi.minRow) (p.col - gi.minCol)) :
    2 ≤ p.answer.length ∧
      hasCell gi.grid (p.row + (p.answer.length : Int)) p.col = false ∧
      hasCell gi.grid (p.row - 1) p.col = false := by
  obtain ⟨hsl, hsr⟩ := hstart
  rw [hasLetterB_letterAtOf _ _ _ hinv.keys] at hsl hsr hlet
  have e0 : p.col - gi.minCol + gi.minCol = p.col := by ring
  have e1 : p.row - gi.minRow + gi.minRow = p.row := by ring
  have e2 : p.row - gi.minRow - 1 + gi.minRow = p.row - 1 := by ring
  have e3 : p.row - gi.minRow + 1 + gi.minRow = p.row + 1 := by ring
  rw [e2, e0] at hsl
  rw [e3, e0] at hsr
  rw [e1, e0] at hlet
  have hleft : hasCell gi.grid (p.row - 1) p.col = false := by
    cases hv : hasCell gi.grid (p.row - 1) p.col with
    | false => rfl
    | true => exact absurd hv hsl
  have hbound : ∀ x, (fun x => hasCell gi.grid x p.col) x = true → x ≤ gi.maxRow :=
    fun x hx => (hinv.bounds x p.col hx).2.1
  obtain ⟨b, hb1, hb2, hb3⟩ :=
    run_extend_right (fun x => hasCell gi.grid x p.col) gi.maxRow hbound
      (gi.maxRow - p.row).toNat p.row hlet (le_refl _)
  have hblt : p.row + 1 ≤ b := by
    by_contra hblt
    have hbe : b = p.row := by omega
    rw [hbe] at hb3
    rw [hb3] at hsr
    cases hsr
  have hrun : isRunOn (fun x => hasCell gi.grid x p.col) p.row b :=
    ⟨hb1, hb2, hleft, hb3⟩
  obtain ⟨q, hq, hqdir, hqcol, hqrow, hqlen⟩ :=
    hinv.runsV p.col p.row b hrun (by omega)
  have hans : p.answer = q.answer :=
    hinv.sameStart p hp q hq hqrow.symm hqcol.symm (hdir.trans hqdir.symm)
  have hlen : (p.answer.length : Int) = b - p.row + 1 := by
    rw [hans]; exact hqlen
  refine ⟨by omega, ?_, hleft⟩
  have hb4 : p.row + (p.answer.length : Int) = b + 1 := by omega
  rw [hb4]
  exact hb3

theorem used_placement_facts (entries : List Entry) (gi : GridState)
    (stm : List (StartKey × Nat)) (ss : ScanState)
    (hbsm : buildStartMap gi.minRow gi.minCol gi.placed [] = Except.ok stm)
    (hscan : scanAll entries (letterAtOf gi.grid gi.minRow gi.minCol) stm
        (gi.maxRow - gi.minRow + 1) (gi.maxCol - gi.minCol + 1)
        (coordList (gi.maxRow - gi.minRow + 1) (gi.maxCol - gi.minCol + 1))
        ⟨1, [], [], [], []⟩ = Except.ok ss) :
    ∀ i ∈ ss.used, ∃ p ∈ gi.placed, p.index = i ∧
      hasLetterB (letterAtOf gi.grid gi.minRow gi.minCol)
        (p.row - gi.minRow) (p.col - gi.minCol) = true ∧
      ((p.dir = Dir.across ∧
          startsAcrossP (letterAtOf gi.grid gi.minRow gi.minCol)
            (p.row - gi.minRow) (p.col - gi.minCol)) ∨
        (p.dir = Dir.down ∧
          startsDownP (letterAtOf gi.grid gi.minRow gi.minCol)
            (p.row - gi.minRow) (p.col - gi.minCol))) := by
  intro i hi
  rcases scanAll_used_prov entries (letterAtOf gi.grid gi.minRow gi.minCol) stm
      (gi.maxRow - gi.minRow + 1) (gi.maxCol - gi.minCol + 1) _ _ _ hscan i hi with
    hnil | ⟨rc, _, hlet, hcase⟩
  · simp at hnil
  · rcases hcase with ⟨hstart, hlook⟩ | ⟨hstart, hlook⟩
    · rcases buildStartMap_values gi.minRow gi.minCol gi.placed [] stm hbsm
          _ i hlook with hnil | ⟨p, hp, hpi, hk⟩
      · cases hnil
      · rw [Prod.mk.injEq, Prod.mk.injEq] at hk
        obtain ⟨h1, h2, h3⟩ := hk
        refine ⟨p, hp, hpi, ?_, Or.inl ⟨h3.symm, ?_⟩⟩
        · rw [← h1, ← h2]; exact hlet
        · rw [← h1, ← h2]; exact hstart
    · rcases buildStartMap_values gi.minRow gi.minCol gi.placed [] stm hbsm
          _ i hlook with hnil | ⟨p, hp, hpi, hk⟩
      · cases hnil
      · rw [Prod.mk.injEq, Prod.mk.injEq] at hk
        obtain ⟨h1, h2, h3⟩ := hk
        refine ⟨p, hp, hpi, ?_, Or.inr ⟨h3.symm, ?_⟩⟩
        · rw [← h1, ← h2]; exact hlet
        · rw [← h1, ← h2]; exact hstart

theorem buildPuzzle_ok_anatomy (entries : List Entry) (P : Puzzle)
    (h : buildPuzzle entries = Except.ok P) :
    ∃ gi stm ss, buildGrid entries = Except.ok gi ∧
      buildStartMap gi.minRow gi.minCol gi.placed [] = Except.ok stm ∧
      scanAll entries (letterAtOf gi.grid gi.minRow gi.minCol) stm
        (gi.maxRow - gi.minRow + 1) (gi.maxCol - gi.minCol + 1)
        (coordList (gi.maxRow - gi.minRow + 1) (gi.maxCol - gi.minCol + 1))
        ⟨1, [], [], [], []⟩ = Except.ok ss ∧
      ss.used.length = entries.length ∧
      (∀ i, i < entries.length → i ∈ ss.used) ∧
      P.cluesAcross = ss.acrossClues ∧
      P.cluesDown = ss.downClues ∧
      P.rows = gi.maxRow - gi.minRow + 1 ∧
      P.cols = gi.maxCol - gi.minCol + 1 ∧
      P.grid = mkGridJson (letterAtOf gi.grid gi.minRow gi.minCol) ss.numbered
        (gi.maxRow - gi.minRow + 1) (gi.maxCol - gi.minCol + 1) := by
  unfold buildPuzzle at h
  cases hbg : buildGrid entries with
  | error e => rw [hbg] at h; exact Except.noConfusion h
  | ok gi =>
    rw [hbg, except_bind_ok] at h
    obtain ⟨stm, ss, hbsm, hscan, hlen, hac, hdc, hrows, hcols, hgrid⟩ :=
      buildJson_ok_elim entries gi P h
    have hinv := (buildGrid_inv entries gi hbg).1
    have hsnd : stm.map Prod.snd = gi.placed.map Placement.index := by
      have := buildStartMap_snd gi.minRow gi.minCol gi.placed [] stm hbsm
      simpa using this
    have hinj : ∀ k1 k2 v, skGet stm k1 = some v → skGet stm k2 = some v →
        k1 = k2 :=
      skGet_inj_of_snd_nodup stm (hsnd ▸ hinv.idx)
    have hcount := scanAll_counting entries
      (letterAtOf gi.grid gi.minRow gi.minCol) stm
      (gi.maxRow - gi.minRow + 1) (gi.maxCol - gi.minCol + 1) hinj
      (coordList (gi.maxRow - gi.minRow + 1) (gi.maxCol - gi.minCol + 1))
      ⟨1, [], [], [], []⟩ ss
      (coordList_nodup (gi.maxRow - gi.minRow + 1) (gi.maxCol - gi.minCol + 1))
      hscan (List.nodup_nil) (by intro i hi; simp at hi)
    have hsub : ∀ i ∈ ss.used, i < entries.length := by
      intro i hi
      obtain ⟨p, hp, hpi⟩ :=
        used_index_placed entries gi stm ss hbsm hscan i hi
      exact hpi ▸ (hinv.link p hp).1
    exact ⟨gi, stm, ss, rfl, hbsm, hscan, hlen,
      fun i hi => mem_of_nodup_subset_length ss.used entries.length hcount.1
        hsub hlen i hi,
      hac, hdc, hrows, hcols, hgrid⟩

theorem ok_entry_not_one_letter (entries : List Entry) (P : Puzzle)
    (h : buildPuzzle entries = Except.ok P) :
    ∀ i, i < entries.length → (entries.getD i default).answer.length ≠ 1 := by
  obtain ⟨gi, stm, ss, hbg, hbsm, hscan, _, hcover, _⟩ :=
    buildPuzzle_ok_anatomy entries P h
  have hinv := (buildGrid_inv entries gi hbg).1
  intro i hi hone
  obtain ⟨p, hp, hpi, hlet, hcase⟩ :=
    used_placement_facts entries gi stm ss hbsm hscan i (hcover i hi)
  have hplen : p.answer.length = 1 := by
    rw [(hinv.link p hp).2, hpi, hone]
  rcases hcase with ⟨hdir, hstart⟩ | ⟨hdir, hstart⟩
  · have := (across_start_facts entries gi hinv p hp hdir hlet hstart).1
    omega
  · have := (down_start_facts entries gi hinv p hp hdir hlet hstart).1
    omega

/-- C8 counterexample to the claimed mechanism: with entries `AB` and
`C`, the build does throw, but during placement (`C` shares no letter
with `AB`, the fallback re-runs `canPlace`, which rejects a
zero-intersection placement on a non-empty grid) — the one-letter word
is never committed and the entry-coverage validation never runs. -/
theorem C8_mechanism_counterexample :
    buildPuzzle [⟨"AB".data, "first", "AB"⟩, ⟨"C".data, "second", "C"⟩] =
      Except.error "Invalid placement attempted for C" :=
  rfl

/-- C8, amended: the guarantee itself holds — every input with a
one-letter answer makes the build throw, and no puzzle is produced.  In
a successful build every entry index is matched by the scan, and a
matched index's placement start satisfies an across-start or down-start
test, which forces (via the maximal-run invariant and the
same-start-same-answer invariant) the answer's length to be at least 2;
so a successful build can contain no one-letter answer. -/
theorem C8_one_letter_always_throws (entries : List Entry)
    (h : ∃ i, i < entries.length ∧ (entries.getD i default).answer.length = 1) :
    ∃ msg, buildPuzzle entries = Except.error msg := by
  obtain ⟨i, hi, hone⟩ := h
  cases hbp : buildPuzzle entries with
  | error e => exact ⟨e, rfl⟩
  | ok P => exact absurd hone (ok_entry_not_one_letter entries P hbp i hi)

/-- Witness for `C8_one_letter_always_throws`: the input `AB`, `C`
contains the one-letter answer `C` and the build throws. -/
theorem C8_one_letter_always_throws_witness :
    ∃ msg, buildPuzzle [⟨"AB".data, "first", "AB"⟩, ⟨"C".data, "second", "C"⟩] =
      Except.error msg :=
  C8_one_letter_always_throws
    [⟨"AB".data, "first", "AB"⟩, ⟨"C".data, "second", "C"⟩]
    ⟨1, by decide, by decide⟩

theorem getD_range_map {α : Type} (f : Nat → α) (d : α) (n i : Nat)
    (h : i < n) : (((List.range n).map f).getD i d) = f i := by
  rw [List.getD_eq_getElem?_getD, List.getElem?_map, List.getElem?_range h]
  rfl

theorem solutionAt_mkGridJson (la : List (Coord × Char))
    (num : List ((Int × Int) × Nat)) (rows cols : Int) (r c : Int)
    (hr0 : 0 ≤ r) (hr1 : r < rows) (hc0 : 0 ≤ c) (hc1 : c < cols) :
    solutionAt (mkGridJson la num rows cols) r c = mapGet la (r, c) := by
  unfold solutionAt mkGridJson
  rw [getD_range_map _ _ rows.toNat r.toNat (by omega)]
  rw [getD_range_map _ _ cols.toNat c.toNat (by omega)]
  rw [Int.toNat_of_nonneg hr0, Int.toNat_of_nonneg hc0]
  unfold mkCell
  cases mapGet la (r, c) <;> rfl

theorem across_clue_shape (entries : List Entry) (gi : GridState)
    (hinv : Inv entries gi)
    (stm : List (StartKey × Nat)) (ss : ScanState)
    (hbsm : buildStartMap gi.minRow gi.minCol gi.placed [] = Except.ok stm)
    (hscan : scanAll entries (letterAtOf gi.grid gi.minRow gi.minCol) stm
        (gi.maxRow - gi.minRow + 1) (gi.maxCol - gi.minCol + 1)
        (coordList (gi.maxRow - gi.minRow + 1) (gi.maxCol - gi.minCol + 1))
        ⟨1, [], [], [], []⟩ = Except.ok ss) :
    ∀ cl ∈ ss.acrossClues, ∃ i, i < entries.length ∧
      cl.text = (entries.getD i default).clue ∧
      ∃ r c : Int, 0 ≤ r ∧ r < gi.maxRow - gi.minRow + 1 ∧ 0 ≤ c ∧
        c + ((entries.getD i default).answer.length : Int) ≤
          gi.maxCol - gi.minCol + 1 ∧
        cl.cells = (List.range (entries.getD i default).answer.length).map
          (fun j : Nat => (⟨r, c + (j : Int)⟩ : CellRef)) ∧
        ∀ j : Nat, j < (entries.getD i default).answer.length →
          mapGet (letterAtOf gi.grid gi.minRow gi.minCol) (r, c + (j : Int)) =
            some ((entries.getD i default).answer.getD j default) := by
  intro cl hcl
  rcases scanAll_across_prov entries (letterAtOf gi.grid gi.minRow gi.minCol)
      stm (gi.maxRow - gi.minRow + 1) (gi.maxCol - gi.minCol + 1) _ _ _
      hscan cl hcl with hnil | ⟨rc, _, hlet, hstart, idx, hlook, htext, hcells⟩
  · simp at hnil
  rcases buildStartMap_values gi.minRow gi.minCol gi.placed [] stm hbsm
      _ idx hlook with hnil | ⟨p, hp, hpi, hk⟩
  · cases hnil
  rw [Prod.mk.injEq, Prod.mk.injEq] at hk
  obtain ⟨h1, h2, h3⟩ := hk
  have hdir : p.dir = Dir.across := h3.symm
  rw [h1, h2] at hlet hstart hcells
  have hlink : p.answer = (entries.getD p.index default).answer :=
    (hinv.link p hp).2
  obtain ⟨hL2, hafter, _⟩ :=
    across_start_facts entries gi hinv p hp hdir hlet hstart
  have hlets : ∀ j : Nat, j < p.answer.length →
      mapGet gi.grid (p.row, p.col + (j : Int)) =
        some (p.answer.getD j default) := by
    intro j hj
    have h0 := hinv.letters p hp j hj
    rw [hdir] at h0
    exact h0
  have hbnd : ∀ j : Nat, j < p.answer.length →
      gi.minRow ≤ p.row ∧ p.row ≤ gi.maxRow ∧
        gi.minCol ≤ p.col + (j : Int) ∧ p.col + (j : Int) ≤ gi.maxCol := by
    intro j hj
    have hc : hasCell gi.grid p.row (p.col + (j : Int)) = true := by
      unfold hasCell
      rw [hlets j hj]
      rfl
    exact hinv.bounds p.row (p.col + (j : Int)) hc
  have hb0 := hbnd 0 (by omega)
  have hbl := hbnd (p.answer.length - 1) (by omega)
  have htake := takeRun_across_spec (letterAtOf gi.grid gi.minRow gi.minCol)
    (gi.maxRow - gi.minRow + 1) (gi.maxCol - gi.minCol + 1)
    (p.row - gi.minRow) p.answer.length (p.col - gi.minCol)
    ((gi.maxRow - gi.minRow + 1).toNat + (gi.maxCol - gi.minCol + 1).toNat + 1)
    (by omega) (by omega) (by omega) (by omega) (by omega)
    (by
      intro i hi
      rw [hasLetterB_letterAtOf _ _ _ hinv.keys]
      have e1 : p.row - gi.minRow + gi.minRow = p.row := by ring
      have e2 : p.col - gi.minCol + (i : Int) + gi.minCol = p.col + (i : Int) := by
        ring
      rw [e1, e2]
      unfold hasCell
      rw [hlets i hi]
      rfl)
    (by
      left
      rw [hasLetterB_letterAtOf _ _ _ hinv.keys]
      have e1 : p.row - gi.minRow + gi.minRow = p.row := by ring
      have e2 : p.col - gi.minCol + (p.answer.length : Int) + gi.minCol =
          p.col + (p.answer.length : Int) := by ring
      rw [e1, e2]
      exact hafter)
  rw [htake] at hcells
  refine ⟨p.index, (hinv.link p hp).1, ?_, p.row - gi.minRow, p.col - gi.minCol,
    by omega, by omega, by omega, ?_, ?_, ?_⟩
  · rw [hpi]; exact htext
  · rw [← hlink]; omega
  · rw [← hlink]; exact hcells
  · intro j hj
    rw [← hlink] at hj ⊢
    rw [mapGet_letterAtOf _ _ _ hinv.keys]
    have e1 : p.row - gi.minRow + gi.minRow = p.row := by ring
    have e2 : p.col - gi.minCol + (j : Int) + gi.minCol = p.col + (j : Int) := by
      ring
    rw [e1, e2]
    exact hlets j hj

theorem down_clue_shape (entries : List Entry) (gi : GridState)
    (hinv : Inv entries gi)
    (stm : List (StartKey × Nat)) (ss : ScanState)
    (hbsm : buildStartMap gi.minRow gi.minCol gi.placed [] = Except.ok stm)
    (hscan : scanAll entries (letterAtOf gi.grid gi.minRow gi.minCol) stm
        (gi.maxRow - gi.minRow + 1) (gi.maxCol - gi.minCol + 1)
        (coordList (gi.maxRow - gi.minRow + 1) (gi.maxCol - gi.minCol + 1))
        ⟨1, [], [], [], []⟩ = Except.ok ss) :
    ∀ cl ∈ ss.downClues, ∃ i, i < entries.length ∧
      cl.text = (entries.getD i default).clue ∧
      ∃ r c : Int, 0 ≤ c ∧ c < gi.maxCol - gi.minCol + 1 ∧ 0 ≤ r ∧
        r + ((entries.getD i default).answer.length : Int) ≤
          gi.maxRow - gi.minRow + 1 ∧
        cl.cells = (List.range (entries.getD i default).answer.length).map
          (fun j : Nat => (⟨r + (j : Int), c⟩ : CellRef)) ∧
        ∀ j : Nat, j < (entries.getD i default).answer.length →
          mapGet (letterAtOf gi.grid gi.minRow gi.minCol) (r + (j : Int), c) =
            some ((entries.getD i default).answer.getD j default) := by
  intro cl hcl
  rcases scanAll_down_prov entries (letterAtOf gi.grid gi.minRow gi.minCol)
      stm (gi.maxRow - gi.minRow + 1) (gi.maxCol - gi.minCol + 1) _ _ _
      hscan cl hcl with hnil | ⟨rc, _, hlet, hstart, idx, hlook, htext, hcells⟩
  · simp at hnil
  rcases buildStartMap_values gi.minRow gi.minCol gi.placed [] stm hbsm
      _ idx hlook with hnil | ⟨p, hp, hpi, hk⟩
  · cases hnil
  rw [Prod.mk.injEq, Prod.mk.injEq] at hk
  obtain ⟨h1, h2, h3⟩ := hk
  have hdir : p.dir = Dir.down := h3.symm
  rw [h1, h2] at hlet hstart hcells
  have hlink : p.answer = (entries.getD p.index default).answer :=
    (hinv.link p hp).2
  obtain ⟨hL2, hafter, _⟩ :=
    down_start_facts entries gi hinv p hp hdir hlet hstart
  have hlets : ∀ j : Nat, j < p.answer.length →
      mapGet gi.grid (p.row + (j : Int), p.col) =
        some (p.answer.getD j default) := by
    intro j hj
    have h0 := hinv.letters p hp j hj
    rw [hdir] at h0
    exact h0
  have hbnd : ∀ j : Nat, j < p.answer.length →
      gi.minRow ≤ p.row + (j : Int) ∧ p.row + (j : Int) ≤ gi.maxRow ∧
        gi.minCol ≤ p.col ∧ p.col ≤ gi.maxCol := by
    intro j hj
    have hc : hasCell gi.grid (p.row + (j : Int)) p.col = true := by
      unfold hasCell
      rw [hlets j hj]
      rfl
    exact hinv.bounds (p.row + (j : Int)) p.col hc
  have hb0 := hbnd 0 (by omega)
  have hbl := hbnd (p.answer.length - 1) (by omega)
  have htake := takeRun_down_spec (letterAtOf gi.grid gi.minRow gi.minCol)
    (gi.maxRow - gi.minRow + 1) (gi.maxCol - gi.minCol + 1)
    (p.col - gi.minCol) p.answer.length (p.row - gi.minRow)
    ((gi.maxRow - gi.minRow + 1).toNat + (gi.maxCol - gi.minCol + 1).toNat + 1)
    (by omega) (by omega) (by omega) (by omega) (by omega)
    (by
      intro i hi
      rw [hasLetterB_letterAtOf _ _ _ hinv.keys]
      have e1 : p.row - gi.minRow + (i : Int) + gi.minRow = p.row + (i : Int) := by
        ring
      have e2 : p.col - gi.minCol + gi.minCol = p.col := by ring
      rw [e1, e2]
      unfold hasCell
      rw [hlets i hi]
      rfl)
    (by
      left
      rw [hasLetterB_letterAtOf _ _ _ hinv.keys]
      have e1 : p.row - gi.minRow + (p.answer.length : Int) + gi.minRow =
          p.row + (p.answer.length : Int) := by ring
      have e2 : p.col - gi.minCol + gi.minCol = p.col := by ring
      rw [e1, e2]
      exact hafter)
  rw [htake] at hcells
  refine ⟨p.index, (hinv.link p hp).1, ?_, p.row - gi.minRow, p.col - gi.minCol,
    by omega, by omega, by omega, ?_, ?_, ?_⟩
  · rw [hpi]; exact htext
  · rw [← hlink]; omega
  · rw [← hlink]; exact hcells
  · intro j hj
    rw [← hlink] at hj ⊢
    rw [mapGet_letterAtOf _ _ _ hinv.keys]
    have e1 : p.row - gi.minRow + (j : Int) + gi.minRow = p.row + (j : Int) := by
      ring
    have e2 : p.col - gi.minCol + gi.minCol = p.col := by ring
    rw [e1, e2]
    exact hlets j hj

/-- C5: in every successfully compiled puzzle, each across clue's cell
list is the contiguous, strictly column-increasing span
`(r, c), (r, c+1), …` of its originating entry's answer length, each
down clue's cell list is the contiguous, strictly row-increasing span of
its entry's answer length, and reading the grid's `solution` letters at
those cells in order reproduces the entry's answer exactly. -/
theorem C5_clue_cells_spell_answers (entries : List Entry) (P : Puzzle)
    (h : buildPuzzle entries = Except.ok P) :
    (∀ cl ∈ P.cluesAcross, ∃ i, i < entries.length ∧
        cl.text = (entries.getD i default).clue ∧
        cl.cells.length = (entries.getD i default).answer.length ∧
        ∃ r c : Int,
          cl.cells = (List.range (entries.getD i default).answer.length).map
            (fun j : Nat => (⟨r, c + (j : Int)⟩ : CellRef)) ∧
          ∀ j : Nat, j < (entries.getD i default).answer.length →
            solutionAt P.grid r (c + (j : Int)) =
              some ((entries.getD i default).answer.getD j default)) ∧
    (∀ cl ∈ P.cluesDown, ∃ i, i < entries.length ∧
        cl.text = (entries.getD i default).clue ∧
        cl.cells.length = (entries.getD i default).answer.length ∧
        ∃ r c : Int,
          cl.cells = (List.range (entries.getD i default).answer.length).map
            (fun j : Nat => (⟨r + (j : Int), c⟩ : CellRef)) ∧
          ∀ j : Nat, j < (entries.getD i default).answer.length →
            solutionAt P.grid (r + (j : Int)) c =
              some ((entries.getD i default).answer.getD j default)) := by
  obtain ⟨gi, stm, ss, hbg, hbsm, hscan, _, _, hac, hdc, _, _, hgrid⟩ :=
    buildPuzzle_ok_anatomy entries P h
  have hinv := (buildGrid_inv entries gi hbg).1
  constructor
  · intro cl hcl
    rw [hac] at hcl
    obtain ⟨i, hi, htext, r, c, hr0, hr1, hc0, hcL, hcells, hlets⟩ :=
      across_clue_shape entries gi hinv stm ss hbsm hscan cl hcl
    refine ⟨i, hi, htext, ?_, r, c, hcells, ?_⟩
    · rw [hcells, List.length_map, List.length_range]
    · intro j hj
      rw [hgrid]
      rw [solutionAt_mkGridJson _ _ _ _ _ _ hr0 hr1 (by omega) (by omega)]
      exact hlets j hj
  · intro cl hcl
    rw [hdc] at hcl
    obtain ⟨i, hi, htext, r, c, hc0, hc1, hr0, hrL, hcells, hlets⟩ :=
      down_clue_shape entries gi hinv stm ss hbsm hscan cl hcl
    refine ⟨i, hi, htext, ?_, r, c, hcells, ?_⟩
    · rw [hcells, List.length_map, List.length_range]
    · intro j hj
      rw [hgrid]
      rw [solutionAt_mkGridJson _ _ _ _ _ _ (by omega) (by omega) hc0 hc1]
      exact hlets j hj

/-- Witness for `C5_clue_cells_spell_answers`: instantiated on the
successful `CAT` / `ACE` build. -/
theorem C5_clue_cells_spell_answers_witness :
    (∀ cl ∈ catAcePuzzle.cluesAcross,
      ∃ i, i < ([catEntry, aceEntry] : List Entry).length ∧
        cl.text = (([catEntry, aceEntry] : List Entry).getD i default).clue ∧
        cl.cells.length =
          (([catEntry, aceEntry] : List Entry).getD i default).answer.length ∧
        ∃ r c : Int,
          cl.cells = (List.range
              (([catEntry, aceEntry] : List Entry).getD i default).answer.length).map
            (fun j : Nat => (⟨r, c + (j : Int)⟩ : CellRef)) ∧
          ∀ j : Nat,
            j < (([catEntry, aceEntry] : List Entry).getD i default).answer.length →
            solutionAt catAcePuzzle.grid r (c + (j : Int)) =
              some ((([catEntry, aceEntry] : List Entry).getD
                i default).answer.getD j default)) ∧
    (∀ cl ∈ catAcePuzzle.cluesDown,
      ∃ i, i < ([catEntry, aceEntry] : List Entry).length ∧
        cl.text = (([catEntry, aceEntry] : List Entry).getD i default).clue ∧
        cl.cells.length =
          (([catEntry, aceEntry] : List Entry).getD i default).answer.length ∧
        ∃ r c : Int,
          cl.cells = (List.range
              (([catEntry, aceEntry] : List Entry).getD i default).answer.length).map
            (fun j : Nat => (⟨r + (j : Int), c⟩ : CellRef)) ∧
          ∀ j : Nat,
            j < (([catEntry, aceEntry] : List Entry).getD i default).answer.length →
            solutionAt catAcePuzzle.grid (r + (j : Int)) c =
              some ((([catEntry, aceEntry] : List Entry).getD
                i default).answer.getD j default)) :=
  C5_clue_cells_spell_answers [catEntry, aceEntry] catAcePuzzle rfl

end Oscars
